import Mathlib

/-!
# Maze Runner: maze generation and its geometric realisation

A shallow embedding of `src/index.js`.  The module-level variables of the script
(`grid`, `verticals`, `horizontals`, the physics world) become fields of explicit
state records; `Math.random` becomes a sequence `rand : ℕ → ℚ` whose `n`-th value is
what the `n`-th call of the run returns; coordinates are exact rationals.  Recursion
of `stepThroughCell` is bounded by a fuel argument that stands for the call stack.
-/

set_option autoImplicit false

namespace MazeRunner

/-! ## Data model -/

/-- Exceptions that end a run early. -/
inductive Err where
  /-- a property of `undefined` was read or written -/
  | typeError
  /-- `Array(n)` was called with a negative length -/
  | rangeError
  /-- the call stack (the fuel of the model) is exhausted -/
  | stackExhausted
  deriving DecidableEq, Repr

/-- A JavaScript array of arrays of booleans (`grid`, `verticals`, `horizontals`). -/
abbrev Arr2 := List (List Bool)

/-- The read `a[i]` of a JavaScript array: `none` is `undefined`. -/
def jsIndex {α : Type} (a : List α) (i : Int) : Option α :=
  if i < 0 then none else a[i.toNat]?

/-- The assignment `a[i] = v` on a JavaScript array.  Inside the array the element is
replaced; past the end the array grows (the skipped positions read as `hole`); a
negative index sets a property that is no element, so the elements stay. -/
def jsAssign {α : Type} (a : List α) (i : Int) (v hole : α) : List α :=
  if i < 0 then a
  else if i.toNat < a.length then a.set i.toNat v
  else a ++ List.replicate (i.toNat - a.length) hole ++ [v]

/-- The truth value of `a[r][c]`; `none` when `a[r]` is `undefined` (the read throws a
`TypeError`), `false` when only `a[r][c]` is `undefined`. -/
def read2 (a : Arr2) (r c : Int) : Option Bool :=
  match jsIndex a r with
  | none => none
  | some row => some ((jsIndex row c).getD false)

/-- The assignment `a[r][c] = v`; `none` when `a[r]` is `undefined` (a `TypeError`). -/
def write2 (a : Arr2) (r c : Int) (v : Bool) : Option Arr2 :=
  match jsIndex a r with
  | none => none
  | some row => some (a.set r.toNat (jsAssign row c v false))

/-- `Array(n).fill(null).map(() => Array(m).fill(false))`: `Array` throws a `RangeError`
on a negative length; the callback runs once per element, so `Array(m)` is not
evaluated when `n = 0`. -/
def newArr2 (n m : Int) : Except Err Arr2 :=
  if n < 0 then .error .rangeError
  else if n = 0 then .ok []
  else if m < 0 then .error .rangeError
  else .ok (List.replicate n.toNat (List.replicate m.toNat false))

/-- The maze structure arrays together with the number of `Math.random` calls made. -/
structure Maze where
  grid : Arr2
  verticals : Arr2
  horizontals : Arr2
  calls : Nat
  deriving DecidableEq, Repr

/-- The direction tag of a neighbour: `'up'`, `'right'`, `'down'`, `'left'`. -/
inductive Direction where
  | up | right | down | left
  deriving DecidableEq, Repr

/-! ## shuffle -/

/-- The body of the `while` loop of `shuffle`, with `index counter` the value of
`Math.floor(Math.random() * counter)` drawn while the loop variable is `counter`.
`arr[index]` is an element of the array whenever `0 ≤ index < counter`, which the
contract of `Math.random` gives; otherwise the array is left as it is. -/
def shuffleWith {α : Type} (index : Nat → Int) : Nat → List α → List α
  | 0, arr => arr
  | counter + 1, arr =>
    match jsIndex arr (counter : Int), jsIndex arr (index (counter + 1)) with
    | some temp, some x =>
      shuffleWith index counter
        (jsAssign (jsAssign arr (counter : Int) x x) (index (counter + 1)) temp temp)
    | _, _ => shuffleWith index counter arr

/-- The index drawn by `shuffle` while the loop variable is `counter`, when the shuffle
of an array of length `n` starts after `calls` earlier calls of `Math.random`. -/
def drawIndex (rand : Nat → ℚ) (calls n counter : Nat) : Int :=
  ⌊rand (calls + (n - counter)) * (counter : ℚ)⌋

/-- `shuffle(arr)`: returns the shuffled array and the new number of calls. -/
def shuffle {α : Type} (rand : Nat → ℚ) (calls : Nat) (arr : List α) : List α × Nat :=
  (shuffleWith (drawIndex rand calls arr.length) arr.length arr, calls + arr.length)

/-! ## stepThroughCell -/

/-- The chain `if (direction === 'left') … else if …` of `stepThroughCell`. -/
def openPassage (m : Maze) (row column : Int) : Direction → Option Maze
  | .left => (write2 m.verticals row (column - 1) true).map fun v => { m with verticals := v }
  | .right => (write2 m.verticals row column true).map fun v => { m with verticals := v }
  | .up => (write2 m.horizontals (row - 1) column true).map fun h => { m with horizontals := h }
  | .down => (write2 m.horizontals row column true).map fun h => { m with horizontals := h }

/-- The loop `for (let neighbor of neighbors)` of `stepThroughCell(row, column)`, the
recursive call being `step`.  Returns the state reached and the exception thrown, if any. -/
def visitNeighbors (step : Int → Int → Maze → Maze × Option Err)
    (cellsVertical cellsHorizontal row column : Int) :
    List (Int × Int × Direction) → Maze → Maze × Option Err
  | [], m => (m, none)
  | (nextRow, nextColumn, direction) :: rest, m =>
    if nextRow < 0 ∨ nextRow ≥ cellsVertical ∨ nextColumn < 0 ∨ nextColumn ≥ cellsHorizontal then
      visitNeighbors step cellsVertical cellsHorizontal row column rest m
    else
      match read2 m.grid nextRow nextColumn with
      | none => (m, some .typeError)
      | some true => visitNeighbors step cellsVertical cellsHorizontal row column rest m
      | some false =>
        match openPassage m row column direction with
        | none => (m, some .typeError)
        | some m1 =>
          match step nextRow nextColumn m1 with
          | (m2, some e) => (m2, some e)
          | (m2, none) => visitNeighbors step cellsVertical cellsHorizontal row column rest m2

/-- `stepThroughCell(row, column)` with a call stack of depth `fuel`. -/
def stepThroughCell (rand : Nat → ℚ) (cellsVertical cellsHorizontal : Int) :
    Nat → Int → Int → Maze → Maze × Option Err
  | 0, _, _, m => (m, some .stackExhausted)
  | fuel + 1, row, column, m =>
    match read2 m.grid row column with
    | none => (m, some .typeError)
    | some true => (m, none)
    | some false =>
      match write2 m.grid row column true with
      | none => (m, some .typeError)
      | some g =>
        let neighbors := shuffle rand m.calls
          [(row - 1, column, Direction.up), (row, column + 1, Direction.right),
           (row + 1, column, Direction.down), (row, column - 1, Direction.left)]
        visitNeighbors (stepThroughCell rand cellsVertical cellsHorizontal fuel)
          cellsVertical cellsHorizontal row column neighbors.1
          { m with grid := g, calls := neighbors.2 }

/-! ## The physics world -/

/-- The shapes the script asks the engine for. -/
inductive Shape where
  | rectangle (width height : ℚ)
  | circle (radius : ℚ)
  deriving DecidableEq, Repr

/-- A body of the physics engine, as far as the script sets or reads it: the centre,
the shape and the options `label`, `isStatic` and `render.fillStyle`. -/
structure Body where
  x : ℚ
  y : ℚ
  shape : Shape
  label : String
  isStatic : Bool
  fillStyle : Option String
  deriving DecidableEq, Repr

/-- `Bodies.rectangle(x, y, width, height, { label, isStatic, render: { fillStyle } })`. -/
def Bodies.rectangle (x y width height : ℚ) (label : String) (isStatic : Bool)
    (fillStyle : Option String) : Body :=
  { x := x, y := y, shape := .rectangle width height, label := label,
    isStatic := isStatic, fillStyle := fillStyle }

/-- `Bodies.circle(x, y, radius, { label, render: { fillStyle } })`. -/
def Bodies.circle (x y radius : ℚ) (label : String) (fillStyle : Option String) : Body :=
  { x := x, y := y, shape := .circle radius, label := label,
    isStatic := false, fillStyle := fillStyle }

/-- The label the engine gives a rectangle created without one. -/
def defaultRectangleLabel : String := "Rectangle Body"

/-- The module-level state of the script: the bodies of `world`, its gravity, the maze
structure arrays (`undefined` until the first `createMaze`), `currentBall`, and whether
the winner message carries the class `hidden`. -/
structure Game where
  bodies : List Body
  gravityY : ℚ
  grid : Option Arr2
  verticals : Option Arr2
  horizontals : Option Arr2
  currentBall : Option Body
  winnerHidden : Bool
  deriving DecidableEq, Repr

/-- The wall `addMazeWalls` places under cell `(rowIndex, columnIndex)` for a closed
entry of `horizontals`. -/
def horizontalWall (unitLenghtX unitLenghtY : ℚ) (rowIndex columnIndex : Nat) : Body :=
  Bodies.rectangle
    ((columnIndex : ℚ) * unitLenghtX + unitLenghtX / 2)
    ((rowIndex : ℚ) * unitLenghtY + unitLenghtY)
    unitLenghtX 5 "wall" true (some "red")

/-- The wall `addMazeWalls` places to the right of cell `(rowIndex, columnIndex)` for a
closed entry of `verticals`. -/
def verticalWall (unitLenghtX unitLenghtY : ℚ) (rowIndex columnIndex : Nat) : Body :=
  Bodies.rectangle
    ((columnIndex : ℚ) * unitLenghtX + unitLenghtX)
    ((rowIndex : ℚ) * unitLenghtY + unitLenghtY / 2)
    5 unitLenghtY "wall" true (some "red")

/-- The nested `forEach` of `addMazeWalls` over one array: `mk rowIndex columnIndex` is
added to the world for every entry that is not open, in row-major order. -/
def addWallsOf (mk : Nat → Nat → Body) (arr : Arr2) (bodies : List Body) : List Body :=
  arr.enum.foldl
    (fun world r =>
      r.2.enum.foldl
        (fun world e => if e.2 then world else world ++ [mk r.1 e.1])
        world)
    bodies

/-- `addMazeWalls(horizontals, verticals)`: the bodies of the world afterwards. -/
def addMazeWalls (unitLenghtX unitLenghtY : ℚ) (horizontals verticals : Arr2)
    (bodies : List Body) : List Body :=
  addWallsOf (verticalWall unitLenghtX unitLenghtY) verticals
    (addWallsOf (horizontalWall unitLenghtX unitLenghtY) horizontals bodies)

/-- The goal rectangle of `addGoalAndBall`. -/
def goalBody (width height unitLenghtX unitLenghtY : ℚ) : Body :=
  Bodies.rectangle (width - unitLenghtX / 2) (height - unitLenghtY / 2)
    (unitLenghtX * (7 / 10)) (unitLenghtY * (7 / 10)) "goal" true (some "green")

/-- The ball of `addGoalAndBall`. -/
def ballBody (unitLenghtX unitLenghtY : ℚ) : Body :=
  Bodies.circle (unitLenghtX / 2) (unitLenghtY / 2) (min unitLenghtX unitLenghtY / 4)
    "ball" (some "blue")

/-- `addGoalAndBall()`. -/
def addGoalAndBall (width height unitLenghtX unitLenghtY : ℚ) (g : Game) : Game :=
  { g with
    bodies := g.bodies ++ [goalBody width height unitLenghtX unitLenghtY]
      ++ [ballBody unitLenghtX unitLenghtY]
    currentBall := some (ballBody unitLenghtX unitLenghtY) }

/-- The four boundary rectangles `createMaze` starts with. -/
def boundaryWalls (width height : ℚ) : List Body :=
  [ Bodies.rectangle (width / 2) 0 width 2 defaultRectangleLabel true none,
    Bodies.rectangle (width / 2) height width 2 defaultRectangleLabel true none,
    Bodies.rectangle 0 (height / 2) 2 height defaultRectangleLabel true none,
    Bodies.rectangle width (height / 2) 2 height defaultRectangleLabel true none ]

/-! ## createMaze -/

/-- The generation part of `createMaze` (the three allocations, the two draws of the
start cell and the call of `stepThroughCell`).  Returns the module state reached and
the exception thrown, if any. -/
def generate (rand : Nat → ℚ) (cellsVertical cellsHorizontal : Int) (fuel : Nat)
    (g : Game) : Game × Option Err :=
  match newArr2 cellsHorizontal cellsHorizontal with
  | .error e => (g, some e)
  | .ok grid =>
    match newArr2 cellsVertical (cellsHorizontal - 1) with
    | .error e => ({ g with grid := some grid }, some e)
    | .ok verticals =>
      match newArr2 (cellsVertical - 1) cellsHorizontal with
      | .error e => ({ g with grid := some grid, verticals := some verticals }, some e)
      | .ok horizontals =>
        let startRow : Int := ⌊rand 0 * (cellsVertical : ℚ)⌋
        let startColumn : Int := ⌊rand 1 * (cellsHorizontal : ℚ)⌋
        let r := stepThroughCell rand cellsVertical cellsHorizontal fuel startRow startColumn
          { grid := grid, verticals := verticals, horizontals := horizontals, calls := 2 }
        ({ g with grid := some r.1.grid, verticals := some r.1.verticals,
                  horizontals := some r.1.horizontals }, r.2)

/-- `createMaze()` for a window of size `width × height`. -/
def createMaze (rand : Nat → ℚ) (cellsVertical cellsHorizontal : Int) (width height : ℚ)
    (fuel : Nat) (g : Game) : Game × Option Err :=
  let unitLenghtX := width / (cellsHorizontal : ℚ)
  let unitLenghtY := height / (cellsVertical : ℚ)
  let g1 := { g with bodies := g.bodies ++ boundaryWalls width height }
  match generate rand cellsVertical cellsHorizontal fuel g1 with
  | (g2, some e) => (g2, some e)
  | (g2, none) =>
    match g2.horizontals, g2.verticals with
    | some horizontals, some verticals =>
      (addGoalAndBall width height unitLenghtX unitLenghtY
        { g2 with bodies := addMazeWalls unitLenghtX unitLenghtY horizontals verticals g2.bodies },
       none)
    | _, _ => (g2, some .typeError)

/-! ## The win condition -/

/-- The array `labels` of the `collisionStart` handler. -/
def labels : List String := ["ball", "goal"]

/-- The condition of the `if` in the `collisionStart` handler. -/
def winCondition (bodyA bodyB : Body) : Bool :=
  labels.contains bodyA.label && labels.contains bodyB.label

/-- The win branch of the handler: the winner message is shown, gravity is turned on
and every body labelled `'wall'` stops being static. -/
def winBranch (g : Game) : Game :=
  { g with
    winnerHidden := false
    gravityY := 1
    bodies := g.bodies.map fun body =>
      if body.label = "wall" then { body with isStatic := false } else body }

/-- The `collisionStart` handler over the pairs of an event.  The second component
counts how many times the win branch was entered. -/
def collisionStart (pairs : List (Body × Body)) (g : Game) : Game × Nat :=
  pairs.foldl
    (fun s collision =>
      if winCondition collision.1 collision.2 then (winBranch s.1, s.2 + 1) else s)
    (g, 0)

/-! ## The keyboard controls -/

/-- The `keydown` handler.  `velocity` is `currentBall.velocity` as the engine holds it
when the event arrives; the handler reads it once, into `x` and `y`, and each of its
four `if` statements may call `Body.setVelocity`.  Returns the module state, which the
handler does not assign, and the velocity of the ball afterwards. -/
def keydown (keyCode : Int) (g : Game) (velocity : ℚ × ℚ) : Game × (ℚ × ℚ) :=
  match g.currentBall with
  | none => (g, velocity)
  | some _ =>
    let x := velocity.1
    let y := velocity.2
    let v1 := if keyCode = 38 then (x, y - 5) else velocity
    let v2 := if keyCode = 39 then (x + 5, y) else v1
    let v3 := if keyCode = 40 then (x, y + 5) else v2
    let v4 := if keyCode = 37 then (x - 5, y) else v3
    (g, v4)

/-! ## stepThroughCell with a record of its accesses -/

/-- A write of `stepThroughCell`: the marking `grid[row][column] = true`, or the write
that opens the passage from `(row, column)` towards `(nextRow, nextColumn)`. -/
inductive Write where
  | visit (row column : Int)
  | carve (row column nextRow nextColumn : Int) (direction : Direction)
  deriving DecidableEq, Repr

/-- What a run has done so far: the index pairs `(r, c)` of its reads `grid[r][c]` and
its writes, both in the order of the run. -/
structure Trace where
  reads : List (Int × Int)
  writes : List Write
  deriving DecidableEq, Repr

/-- The array and the indices that the chain of `openPassage` writes for a direction:
`true` stands for `verticals`, `false` for `horizontals`. -/
def passageIndex (row column : Int) : Direction → Bool × Int × Int
  | .left => (true, row, column - 1)
  | .right => (true, row, column)
  | .up => (false, row - 1, column)
  | .down => (false, row, column)

/-- The loop of `visitNeighbors`, recording each read of `grid[nextRow][nextColumn]` and
each opening of a passage. -/
def visitNeighborsTraced (step : Int → Int → Maze × Trace → (Maze × Trace) × Option Err)
    (cellsVertical cellsHorizontal row column : Int) :
    List (Int × Int × Direction) → Maze × Trace → (Maze × Trace) × Option Err
  | [], s => (s, none)
  | (nextRow, nextColumn, direction) :: rest, (m, t) =>
    if nextRow < 0 ∨ nextRow ≥ cellsVertical ∨ nextColumn < 0 ∨ nextColumn ≥ cellsHorizontal then
      visitNeighborsTraced step cellsVertical cellsHorizontal row column rest (m, t)
    else
      let t1 : Trace := { t with reads := t.reads ++ [(nextRow, nextColumn)] }
      match read2 m.grid nextRow nextColumn with
      | none => ((m, t1), some .typeError)
      | some true =>
        visitNeighborsTraced step cellsVertical cellsHorizontal row column rest (m, t1)
      | some false =>
        match openPassage m row column direction with
        | none => ((m, t1), some .typeError)
        | some m1 =>
          match step nextRow nextColumn
              (m1, { t1 with writes := t1.writes ++
                      [Write.carve row column nextRow nextColumn direction] }) with
          | (s2, some e) => (s2, some e)
          | (s2, none) =>
            visitNeighborsTraced step cellsVertical cellsHorizontal row column rest s2

/-- The function `stepThroughCell`, recording the read of `grid[row][column]` at its
entry and the marking of the cell. -/
def stepThroughCellTraced (rand : Nat → ℚ) (cellsVertical cellsHorizontal : Int) :
    Nat → Int → Int → Maze × Trace → (Maze × Trace) × Option Err
  | 0, _, _, s => (s, some .stackExhausted)
  | fuel + 1, row, column, (m, t) =>
    let t1 : Trace := { t with reads := t.reads ++ [(row, column)] }
    match read2 m.grid row column with
    | none => ((m, t1), some .typeError)
    | some true => ((m, t1), none)
    | some false =>
      match write2 m.grid row column true with
      | none => ((m, t1), some .typeError)
      | some g =>
        let neighbors := shuffle rand m.calls
          [(row - 1, column, Direction.up), (row, column + 1, Direction.right),
           (row + 1, column, Direction.down), (row, column - 1, Direction.left)]
        visitNeighborsTraced (stepThroughCellTraced rand cellsVertical cellsHorizontal fuel)
          cellsVertical cellsHorizontal row column neighbors.1
          ({ m with grid := g, calls := neighbors.2 },
           { t1 with writes := t1.writes ++ [Write.visit row column] })

/-- The maze arrays as `createMaze` allocates them for `rows x columns` cells, after
`calls` calls of `Math.random`. -/
def freshMaze (rows columns calls : Nat) : Maze :=
  { grid := List.replicate columns (List.replicate columns false),
    verticals := List.replicate rows (List.replicate (columns - 1) false),
    horizontals := List.replicate (rows - 1) (List.replicate columns false),
    calls := calls }

/-- The module state before the first `createMaze`: an empty world without gravity,
the maze arrays and `currentBall` still `undefined`, the winner message hidden. -/
def initialGame : Game :=
  { bodies := [], gravityY := 0, grid := none, verticals := none, horizontals := none,
    currentBall := none, winnerHidden := true }

/-! ## Specification vocabulary -/

/-- The entry `a[r][c]` of an array of arrays, `false` outside the array. -/
def cell (a : Arr2) (r c : ℕ) : Bool := (a.getD r []).getD c false

/-- The array `a` after `a[r][c] = v`, for an entry inside the array. -/
def setCell (a : Arr2) (r c : ℕ) (v : Bool) : Arr2 := a.set r ((a.getD r []).set c v)

/-- `a` has `n` rows of `m` entries each. -/
def HasDims (a : Arr2) (n m : ℕ) : Prop := a.length = n ∧ ∀ row ∈ a, row.length = m

/-- The number of `true` entries of an array of arrays. -/
def countTrue (a : Arr2) : ℕ := (a.map (List.count true)).sum

/-- The graph of open passages on the `R × C` cells: `(r, c)` and `(r, c + 1)` are joined
when `verticals[r][c]` is true, `(r, c)` and `(r + 1, c)` when `horizontals[r][c]` is. -/
def mazeGraph (R C : ℕ) (verticals horizontals : Arr2) : SimpleGraph (Fin R × Fin C) :=
  SimpleGraph.fromRel fun p q =>
    (p.1 = q.1 ∧ p.2.val + 1 = q.2.val ∧ cell verticals p.1 p.2 = true) ∨
    (p.2 = q.2 ∧ p.1.val + 1 = q.1.val ∧ cell horizontals p.1 p.2 = true)

/-- The number of visited cells among the `R × C` cells of the maze. -/
def visitedCount (R C : ℕ) (grid : Arr2) : ℕ :=
  ((Finset.univ : Finset (Fin R × Fin C)).filter fun p => cell grid p.1 p.2 = true).card

/-- The invariant of the carving: the arrays keep their dimensions, only cells of the
maze are visited, every open passage joins two visited cells, the passages form no
cycle, the visited cells are connected by passages, and there is one passage less than
there are visited cells. -/
structure Inv (R C : ℕ) (grid verticals horizontals : Arr2) : Prop where
  grid_dims : HasDims grid C C
  verticals_dims : HasDims verticals R (C - 1)
  horizontals_dims : HasDims horizontals (R - 1) C
  inside : ∀ r c, cell grid r c = true → r < R
  joined : ∀ p q, (mazeGraph R C verticals horizontals).Adj p q →
    cell grid p.1 p.2 = true ∧ cell grid q.1 q.2 = true
  acyclic : (mazeGraph R C verticals horizontals).IsAcyclic
  reach : ∀ p q : Fin R × Fin C, cell grid p.1 p.2 = true → cell grid q.1 q.2 = true →
    (mazeGraph R C verticals horizontals).Reachable p q
  count : countTrue verticals + countTrue horizontals + 1 = visitedCount R C grid

/-- The array literal that `stepThroughCell(row, column)` hands to `shuffle`. -/
def neighborsOf (row column : ℤ) : List (ℤ × ℤ × Direction) :=
  [(row - 1, column, Direction.up), (row, column + 1, Direction.right),
   (row + 1, column, Direction.down), (row, column - 1, Direction.left)]

/-- Cells `(r, c)` and `(r', c')` are neighbours in the lattice. -/
def Adj4 (r c r' c' : ℕ) : Prop :=
  (r' = r ∧ (c' = c + 1 ∨ c = c' + 1)) ∨ (c' = c ∧ (r' = r + 1 ∨ r = r' + 1))

/-- Every cell visited in `g` is visited in `g'`. -/
def Mono (g g' : Arr2) : Prop := ∀ r c, cell g r c = true → cell g' r c = true

/-- Every cell that became visited between `g` and `g'` has all its lattice neighbours
visited in `g'`. -/
def Closed (R C : ℕ) (g g' : Arr2) : Prop :=
  ∀ r c r' c', r < R → c < C → r' < R → c' < C → cell g r c = false → cell g' r c = true →
    Adj4 r c r' c' → cell g' r' c' = true

/-- What a call `step(r, c)` on an unvisited cell achieves with a stack of depth `f`:
it returns, keeps the invariant, marks the cell, and leaves every newly visited cell
with all its neighbours visited. -/
def StepSpec (R C f : ℕ) (step : ℤ → ℤ → Maze → Maze × Option Err) : Prop :=
  ∀ (r c : ℕ) (m : Maze), r < R → c < C → cell m.grid r c = false →
    Inv R C (setCell m.grid r c true) m.verticals m.horizontals →
    R * C ≤ f + visitedCount R C m.grid →
    ∃ m', step r c m = (m', none) ∧ Inv R C m'.grid m'.verticals m'.horizontals ∧
      Mono m.grid m'.grid ∧ cell m'.grid r c = true ∧ Closed R C m.grid m'.grid

/-- The positions `(r, c)` of the entries of `arr` that are `false`, row by row: the
closed passages, for each of which the specification asks for one wall. -/
def closedEntries (arr : Arr2) : List (ℕ × ℕ) :=
  arr.enum.flatMap fun r => (r.2.enum.filter fun e => !e.2).map fun e => (r.1, e.1)

/-- The maze as the world realises it: two neighbouring cells are joined when the wall
rectangle that would separate them is not among the bodies. -/
def realizedGraph (R C : ℕ) (unitLenghtX unitLenghtY : ℚ) (bodies : List Body) :
    SimpleGraph (Fin R × Fin C) :=
  SimpleGraph.fromRel fun p q =>
    (p.1 = q.1 ∧ p.2.val + 1 = q.2.val ∧ verticalWall unitLenghtX unitLenghtY p.1 p.2 ∉ bodies) ∨
    (p.2 = q.2 ∧ p.1.val + 1 = q.1.val ∧ horizontalWall unitLenghtX unitLenghtY p.1 p.2 ∉ bodies)

/-- The number of bodies labelled `'wall'`. -/
def wallCount (bodies : List Body) : ℕ := bodies.countP fun b => b.label == "wall"

/-- The index draws `index n, …, index 1` respect `0 ≤ index k < k`. -/
def ValidDraws (n : ℕ) (index : ℕ → ℤ) : Prop :=
  ∀ k, 1 ≤ k → k ≤ n → 0 ≤ index k ∧ index k < k

/-- The array with the elements at positions `i` and `j` exchanged. -/
def swapAt {α : Type} (arr : List α) (i j : ℕ) : List α :=
  match arr[i]?, arr[j]? with
  | some a, some b => (arr.set i b).set j a
  | _, _ => arr

/-- The number of `false` entries of an array of arrays. -/
def countFalse (a : Arr2) : ℕ := (a.map (List.count false)).sum

/-- The number of markings among the writes of a run. -/
def visitCount (ws : List Write) : ℕ :=
  ws.countP fun w => match w with
    | .visit _ _ => true
    | .carve _ _ _ _ _ => false

/-- The number of passages that the writes of a run open into cell `(r, c)`. -/
def carvesInto (r c : ℤ) (ws : List Write) : ℕ :=
  ws.countP fun w => match w with
    | .visit _ _ => false
    | .carve _ _ nextRow nextColumn _ => decide (nextRow = r ∧ nextColumn = c)

/-- Every opening of a passage is directly followed by the marking of the cell it
leads to. -/
def Followed : List Write → Prop
  | [] => True
  | .visit _ _ :: rest => Followed rest
  | .carve _ _ nextRow nextColumn _ :: rest =>
    (∃ rest', rest = Write.visit nextRow nextColumn :: rest') ∧ Followed rest

/-- A write stays in the maze: a marked cell is one of the `R x C` cells; a passage is
opened from one of these cells towards one of its four neighbours, itself one of the
`R x C` cells. -/
def WriteOK (R C : ℕ) : Write → Prop
  | .visit r c => 0 ≤ r ∧ r < R ∧ 0 ≤ c ∧ c < C
  | .carve r c nextRow nextColumn direction =>
    (nextRow, nextColumn, direction) ∈ neighborsOf r c ∧
    0 ≤ r ∧ r < R ∧ 0 ≤ c ∧ c < C ∧
    0 ≤ nextRow ∧ nextRow < R ∧ 0 ≤ nextColumn ∧ nextColumn < C

/-- What the reads `rs` and writes `ws` of a stretch of a run that leads from `grid = g`
to `grid = g'` look like: all stay in the maze, the cells marked are exactly those that
became visited, each once, every opened passage is followed by the marking of its
target, and every marking of the stretch is the target of exactly one opened passage. -/
structure LoopTrace (R C : ℕ) (g g' : Arr2) (rs : List (ℤ × ℤ)) (ws : List Write) : Prop where
  reads_ok : ∀ p ∈ rs, 0 ≤ p.1 ∧ p.1 < R ∧ 0 ≤ p.2 ∧ p.2 < C
  writes_ok : ∀ w ∈ ws, WriteOK R C w
  visits : ∀ a b : ℕ, ws.count (Write.visit a b) =
    if cell g a b = false ∧ cell g' a b = true then 1 else 0
  followed : Followed ws
  carves : ∀ a b : ℕ, carvesInto a b ws = ws.count (Write.visit a b)
  total : visitCount ws + visitedCount R C g = visitedCount R C g'

/-- What a traced call `stepT(r, c)` on an unvisited cell achieves with a stack of depth
`f`: it returns, in the same state as the plain call `step(r, c)`, having read
`grid[r][c]`, marked the cell and then done a well-formed stretch of reads and writes. -/
def TracedStepSpec (R C f : ℕ) (step : ℤ → ℤ → Maze → Maze × Option Err)
    (stepT : ℤ → ℤ → Maze × Trace → (Maze × Trace) × Option Err) : Prop :=
  ∀ (r c : ℕ) (m : Maze) (t : Trace), r < R → c < C → cell m.grid r c = false →
    Inv R C (setCell m.grid r c true) m.verticals m.horizontals →
    R * C ≤ f + visitedCount R C m.grid →
    ∃ m' rs ws,
      stepT r c (m, t) =
        ((m', { reads := t.reads ++ ((r : ℤ), (c : ℤ)) :: rs,
                writes := t.writes ++ Write.visit r c :: ws }), none) ∧
      step r c m = (m', none) ∧
      LoopTrace R C (setCell m.grid r c true) m'.grid rs ws

/-! ## Arrays, cells and counts -/

theorem jsIndex_cast {α : Type} (a : List α) (i : ℕ) : jsIndex a (i : ℤ) = a[i]? := by
  simp [jsIndex]

theorem read2_cast (a : Arr2) (r c : ℕ) (hr : r < a.length) :
    read2 a (r : ℤ) (c : ℤ) = some (cell a r c) := by
  simp [read2, jsIndex_cast, cell, List.getD_eq_getElem?_getD, List.getElem?_eq_getElem hr]

theorem HasDims.getD_length {a : Arr2} {n m : ℕ} (h : HasDims a n m) {r : ℕ} (hr : r < n) :
    (a.getD r []).length = m := by
  have hr' : r < a.length := h.1 ▸ hr
  rw [List.getD_eq_getElem _ _ hr']
  exact h.2 _ (List.getElem_mem _)

theorem write2_cast {a : Arr2} {n m : ℕ} (h : HasDims a n m) {r c : ℕ} (hr : r < n)
    (hc : c < m) (v : Bool) : write2 a (r : ℤ) (c : ℤ) v = some (setCell a r c v) := by
  have hr' : r < a.length := h.1 ▸ hr
  have hl := h.getD_length hr
  rw [List.getD_eq_getElem _ _ hr'] at hl
  have hneg : ¬ ((c : ℤ) < 0) := by omega
  simp [write2, jsIndex_cast, setCell, List.getElem?_eq_getElem hr', jsAssign, hl, hc,
    List.getD_eq_getElem _ _ hr', hneg]

theorem HasDims.setCell {a : Arr2} {n m : ℕ} (h : HasDims a n m) (r c : ℕ) (v : Bool) :
    HasDims (setCell a r c v) n m := by
  refine ⟨by simp [MazeRunner.setCell, h.1], ?_⟩
  intro row hrow
  rcases List.mem_or_eq_of_mem_set hrow with h1 | h1
  · exact h.2 _ h1
  · subst h1
    rw [List.length_set]
    by_cases hr : r < a.length
    · rw [List.getD_eq_getElem _ _ hr]; exact h.2 _ (List.getElem_mem _)
    · -- the write does not happen; but then `row` is not a member
      simp only [MazeRunner.setCell] at hrow
      rw [List.set_eq_of_length_le (by omega)] at hrow
      exact (h.2 _ hrow) ▸ (by simp [List.length_set])

theorem cell_setCell {a : Arr2} {n m : ℕ} (h : HasDims a n m) {r c : ℕ} (hr : r < n)
    (hc : c < m) (v : Bool) (r' c' : ℕ) :
    cell (setCell a r c v) r' c' = if r' = r ∧ c' = c then v else cell a r' c' := by
  have hr' : r < a.length := h.1 ▸ hr
  have hl := h.getD_length hr
  unfold cell setCell
  by_cases h1 : r' = r
  · subst h1
    have : (a.set r' ((a.getD r' []).set c v)).getD r' [] = (a.getD r' []).set c v := by
      simp [List.getD_eq_getElem?_getD, List.getElem?_set, hr']
    rw [this]
    by_cases h2 : c' = c
    · subst h2
      rw [List.getD_eq_getElem?_getD] at hl
      simp [List.getD_eq_getElem?_getD, List.getElem?_set, hl, hc]
    · simp [List.getD_eq_getElem?_getD, List.getElem?_set, h2, Ne.symm h2]
  · have : (a.set r ((a.getD r []).set c v)).getD r' [] = a.getD r' [] := by
      simp [List.getD_eq_getElem?_getD, List.getElem?_set, h1, Ne.symm h1]
    rw [this]; simp [h1]

theorem cell_true_lt {a : Arr2} {n m : ℕ} (h : HasDims a n m) {r c : ℕ}
    (ht : cell a r c = true) : r < n ∧ c < m := by
  unfold cell at ht
  by_cases hr : r < n
  · refine ⟨hr, ?_⟩
    by_contra hc
    have hl := h.getD_length hr
    rw [List.getD_eq_default _ _ (by omega)] at ht
    exact absurd ht (by decide)
  · rw [List.getD_eq_default a _ (by rw [h.1]; omega)] at ht
    simp at ht

theorem count_set_true (row : List Bool) (c : ℕ) (hc : c < row.length)
    (hf : row.getD c false = false) : (row.set c true).count true = row.count true + 1 := by
  induction row generalizing c with
  | nil => simp at hc
  | cons x xs ih =>
    cases c with
    | zero =>
      simp at hf
      subst hf
      simp
    | succ c =>
      simp at hc hf
      have := ih c hc (by simpa [List.getD_eq_getElem?_getD] using hf)
      simp [List.count_cons, this]
      omega

theorem countTrue_setCell {a : Arr2} {n m : ℕ} (h : HasDims a n m) {r c : ℕ} (hr : r < n)
    (hc : c < m) (hf : cell a r c = false) :
    countTrue (setCell a r c true) = countTrue a + 1 := by
  have hl : ∀ r, r < a.length → (a.getD r []).length = m := fun r hr => h.getD_length (h.1 ▸ hr)
  have hr' : r < a.length := h.1 ▸ hr
  clear h hr
  unfold countTrue setCell
  unfold cell at hf
  induction a generalizing r with
  | nil => simp at hr'
  | cons x xs ih =>
    cases r with
    | zero =>
      have h0 := hl 0 (by simp)
      simp at hf h0 ⊢
      rw [count_set_true x c (by omega) (by simpa [List.getD_eq_getElem?_getD] using hf)]
      omega
    | succ r =>
      simp at hr' hf ⊢
      have := ih (r := r) (by simpa using hf) (fun r hr => by simpa using hl (r + 1) (by simpa using hr)) hr'
      simp at this
      rw [this]; omega

/-! ## The graph of open passages -/

theorem exists_edge_into {V : Type} {G : SimpleGraph V} {a b : V} (p : G.Walk a b)
    (hab : a ≠ b) : ∃ x, s(x, b) ∈ p.edges := by
  induction p with
  | nil => exact absurd rfl hab
  | @cons a c b h q ih =>
    by_cases hcb : c = b
    · subst hcb
      exact ⟨a, by simp⟩
    · obtain ⟨x, hx⟩ := ih hcb
      exact ⟨x, by simp [hx]⟩

theorem isAcyclic_add_leaf {V : Type} {G G' : SimpleGraph V} {u v : V} (hG : G.IsAcyclic)
    (hadj : ∀ a b, G'.Adj a b → G.Adj a b ∨ (a = u ∧ b = v) ∨ (a = v ∧ b = u))
    (hiso : ∀ a, ¬ G.Adj v a) : G'.IsAcyclic := by
  classical
  intro x c hc
  by_cases hv : v ∈ c.support
  · have hc' := hc.rotate hv
    generalize c.rotate hv = d at hc'
    cases d with
    | nil => exact hc'.ne_nil rfl
    | @cons _ a _ h p =>
      rw [SimpleGraph.Walk.cons_isCycle_iff] at hc'
      have hav : a ≠ v := fun e => G'.loopless v (e ▸ h)
      have hau : a = u := by
        rcases hadj _ _ h with h1 | ⟨_, h1⟩ | ⟨_, h1⟩
        · exact absurd h1 (hiso a)
        · exact absurd h1 hav
        · exact h1
      obtain ⟨y, hy⟩ := exists_edge_into p hav
      have hyv : G'.Adj y v := p.adj_of_mem_edges hy
      rcases hadj _ _ hyv with h1 | ⟨h1, _⟩ | ⟨h1, _⟩
      · exact hiso y h1.symm
      · apply hc'.2
        have hya : y = a := h1.trans hau.symm
        subst hya
        rw [Sym2.eq_swap]; exact hy
      · exact G'.loopless v (h1 ▸ hyv)
  · have hedges : ∀ e, e ∈ c.edges → e ∈ G.edgeSet := by
      intro e he
      induction e using Sym2.ind with
      | _ a b =>
        have ha := c.fst_mem_support_of_mem_edges he
        have hb := c.snd_mem_support_of_mem_edges he
        have hab : G'.Adj a b := c.adj_of_mem_edges he
        rcases hadj _ _ hab with h1 | ⟨_, h1⟩ | ⟨h1, _⟩
        · exact h1
        · exact absurd (h1 ▸ hb) hv
        · exact absurd (h1 ▸ ha) hv
    exact hG _ (hc.transfer hedges)

theorem or_shuffle_left {A A' B B' E F1 F2 : Prop} :
    ((A ∨ E) ∨ B) ∨ ((A' ∨ (F1 ∧ F2)) ∨ B') ↔ ((A ∨ B) ∨ (A' ∨ B')) ∨ E ∨ (F2 ∧ F1) := by
  tauto

theorem or_shuffle_right {A A' B B' E F1 F2 : Prop} :
    (A ∨ (B ∨ E)) ∨ (A' ∨ (B' ∨ (F1 ∧ F2))) ↔ ((A ∨ B) ∨ (A' ∨ B')) ∨ E ∨ (F2 ∧ F1) := by
  tauto

theorem mazeGraph_adj {R C : ℕ} {V H : Arr2} {p q : Fin R × Fin C} :
    (mazeGraph R C V H).Adj p q ↔
      ((p.1 = q.1 ∧ p.2.val + 1 = q.2.val ∧ cell V p.1 p.2 = true) ∨
       (p.2 = q.2 ∧ p.1.val + 1 = q.1.val ∧ cell H p.1 p.2 = true)) ∨
      ((q.1 = p.1 ∧ q.2.val + 1 = p.2.val ∧ cell V q.1 q.2 = true) ∨
       (q.2 = p.2 ∧ q.1.val + 1 = p.1.val ∧ cell H q.1 q.2 = true)) := by
  unfold mazeGraph
  rw [SimpleGraph.fromRel_adj]
  constructor
  · exact fun h => h.2
  · intro h
    refine ⟨?_, h⟩
    rintro rfl
    rcases h with (⟨_, h, _⟩ | ⟨_, h, _⟩) | (⟨_, h, _⟩ | ⟨_, h, _⟩) <;> omega

theorem adj_setV {R C : ℕ} {V : Arr2} (H : Arr2) (hd : HasDims V R (C - 1))
    (a b : Fin R × Fin C) (h1 : a.1 = b.1) (h2 : a.2.val + 1 = b.2.val) (p q : Fin R × Fin C) :
    (mazeGraph R C (setCell V a.1 a.2 true) H).Adj p q ↔
      (mazeGraph R C V H).Adj p q ∨ (p = a ∧ q = b) ∨ (p = b ∧ q = a) := by
  have hc : (a.2 : ℕ) < C - 1 := by have := b.2.isLt; omega
  have key : ∀ x y : Fin R × Fin C, (x.1 = y.1 ∧ x.2.val + 1 = y.2.val ∧
      cell (setCell V a.1 a.2 true) x.1 x.2 = true) ↔
      ((x.1 = y.1 ∧ x.2.val + 1 = y.2.val ∧ cell V x.1 x.2 = true) ∨ (x = a ∧ y = b)) := by
    intro x y
    rw [cell_setCell hd a.1.isLt hc]
    constructor
    · rintro ⟨e1, e2, e3⟩
      by_cases hxa : (x.1 : ℕ) = a.1 ∧ (x.2 : ℕ) = a.2
      · right
        refine ⟨Prod.ext (Fin.ext hxa.1) (Fin.ext hxa.2), Prod.ext ?_ (Fin.ext ?_)⟩
        · rw [← e1, ← h1]; exact Fin.ext hxa.1
        · omega
      · left; rw [if_neg hxa] at e3; exact ⟨e1, e2, e3⟩
    · rintro (⟨e1, e2, e3⟩ | ⟨rfl, rfl⟩)
      · refine ⟨e1, e2, ?_⟩
        split_ifs <;> simp [e3]
      · exact ⟨h1, h2, by simp⟩
  rw [mazeGraph_adj, mazeGraph_adj, key p q, key q p]
  exact or_shuffle_left

theorem adj_setH {R C : ℕ} {H : Arr2} (V : Arr2) (hd : HasDims H (R - 1) C)
    (a b : Fin R × Fin C) (h1 : a.2 = b.2) (h2 : a.1.val + 1 = b.1.val) (p q : Fin R × Fin C) :
    (mazeGraph R C V (setCell H a.1 a.2 true)).Adj p q ↔
      (mazeGraph R C V H).Adj p q ∨ (p = a ∧ q = b) ∨ (p = b ∧ q = a) := by
  have hr : (a.1 : ℕ) < R - 1 := by have := b.1.isLt; omega
  have key : ∀ x y : Fin R × Fin C, (x.2 = y.2 ∧ x.1.val + 1 = y.1.val ∧
      cell (setCell H a.1 a.2 true) x.1 x.2 = true) ↔
      ((x.2 = y.2 ∧ x.1.val + 1 = y.1.val ∧ cell H x.1 x.2 = true) ∨ (x = a ∧ y = b)) := by
    intro x y
    rw [cell_setCell hd hr a.2.isLt]
    constructor
    · rintro ⟨e1, e2, e3⟩
      by_cases hxa : (x.1 : ℕ) = a.1 ∧ (x.2 : ℕ) = a.2
      · right
        refine ⟨Prod.ext (Fin.ext hxa.1) (Fin.ext hxa.2), Prod.ext (Fin.ext ?_) ?_⟩
        · omega
        · rw [← e1, ← h1]; exact Fin.ext hxa.2
      · left; rw [if_neg hxa] at e3; exact ⟨e1, e2, e3⟩
    · rintro (⟨e1, e2, e3⟩ | ⟨rfl, rfl⟩)
      · refine ⟨e1, e2, ?_⟩
        split_ifs <;> simp [e3]
      · exact ⟨h1, h2, by simp⟩
  rw [mazeGraph_adj, mazeGraph_adj, key p q, key q p]
  exact or_shuffle_right

/-! ## The invariant of the carving -/

theorem visitedCount_setCell {R C : ℕ} (hRC : R ≤ C) {g : Arr2} (hd : HasDims g C C)
    (w : Fin R × Fin C) (hw : cell g w.1 w.2 = false) :
    visitedCount R C (setCell g w.1 w.2 true) = visitedCount R C g + 1 := by
  unfold visitedCount
  have hwr : (w.1 : ℕ) < C := lt_of_lt_of_le w.1.isLt hRC
  have : (Finset.univ.filter fun p : Fin R × Fin C =>
      cell (setCell g w.1 w.2 true) p.1 p.2 = true) =
      insert w (Finset.univ.filter fun p : Fin R × Fin C => cell g p.1 p.2 = true) := by
    ext p
    simp only [Finset.mem_filter, Finset.mem_univ, true_and, Finset.mem_insert]
    rw [cell_setCell hd hwr w.2.isLt]
    constructor
    · intro h
      by_cases hp : (p.1 : ℕ) = w.1 ∧ (p.2 : ℕ) = w.2
      · left; exact Prod.ext (Fin.ext hp.1) (Fin.ext hp.2)
      · right; rwa [if_neg hp] at h
    · rintro (rfl | h)
      · simp
      · split_ifs <;> simp [h]
  rw [this, Finset.card_insert_of_not_mem]
  simp [hw]

theorem visitedCount_mono {R C : ℕ} {g g' : Arr2}
    (h : ∀ r c, cell g r c = true → cell g' r c = true) :
    visitedCount R C g ≤ visitedCount R C g' := by
  unfold visitedCount
  apply Finset.card_le_card
  intro p
  simp only [Finset.mem_filter, Finset.mem_univ, true_and]
  exact h _ _

theorem visitedCount_lt {R C : ℕ} {g : Arr2} (w : Fin R × Fin C)
    (hw : cell g w.1 w.2 = false) : visitedCount R C g < R * C := by
  unfold visitedCount
  have h1 : (Finset.univ.filter fun p : Fin R × Fin C => cell g p.1 p.2 = true) ⊂
      Finset.univ := by
    rw [Finset.ssubset_iff]
    refine ⟨w, by simp [hw], Finset.subset_univ _⟩
  have := Finset.card_lt_card h1
  simpa using this

theorem visitedCount_full {R C : ℕ} {g : Arr2}
    (h : ∀ p : Fin R × Fin C, cell g p.1 p.2 = true) : visitedCount R C g = R * C := by
  unfold visitedCount
  rw [Finset.filter_true_of_mem (fun p _ => h p)]
  simp

theorem Inv.leaf {R C : ℕ} (hRC : R ≤ C) {g V H V' H' : Arr2} (hInv : Inv R C g V H)
    (u w : Fin R × Fin C) (hu : cell g u.1 u.2 = true) (hw : cell g w.1 w.2 = false)
    (hV : HasDims V' R (C - 1)) (hH : HasDims H' (R - 1) C)
    (hadj : ∀ p q, (mazeGraph R C V' H').Adj p q ↔
      (mazeGraph R C V H).Adj p q ∨ (p = u ∧ q = w) ∨ (p = w ∧ q = u))
    (hcount : countTrue V' + countTrue H' = countTrue V + countTrue H + 1) :
    Inv R C (setCell g w.1 w.2 true) V' H' := by
  have hwr : (w.1 : ℕ) < C := lt_of_lt_of_le w.1.isLt hRC
  have hset : ∀ r c, cell (setCell g w.1 w.2 true) r c =
      if r = w.1 ∧ c = w.2 then true else cell g r c :=
    fun r c => cell_setCell hInv.grid_dims hwr w.2.isLt true r c
  have hmono : ∀ r c, cell g r c = true → cell (setCell g w.1 w.2 true) r c = true := by
    intro r c h; rw [hset]; split_ifs <;> simp [h]
  have hwv : cell (setCell g w.1 w.2 true) w.1 w.2 = true := by rw [hset]; simp
  have hle : mazeGraph R C V H ≤ mazeGraph R C V' H' := by
    intro p q h; exact (hadj p q).2 (Or.inl h)
  have huw : (mazeGraph R C V' H').Adj u w := (hadj u w).2 (Or.inr (Or.inl ⟨rfl, rfl⟩))
  refine ⟨hInv.grid_dims.setCell _ _ _, hV, hH, ?_, ?_, ?_, ?_, ?_⟩
  · intro r c h
    rw [hset] at h
    by_cases hp : r = w.1 ∧ c = w.2
    · rw [hp.1]; exact w.1.isLt
    · rw [if_neg hp] at h; exact hInv.inside r c h
  · intro p q h
    rcases (hadj p q).1 h with h1 | ⟨rfl, rfl⟩ | ⟨rfl, rfl⟩
    · exact ⟨hmono _ _ (hInv.joined p q h1).1, hmono _ _ (hInv.joined p q h1).2⟩
    · exact ⟨hmono _ _ hu, hwv⟩
    · exact ⟨hwv, hmono _ _ hu⟩
  · refine isAcyclic_add_leaf hInv.acyclic (fun a b h => (hadj a b).1 h) ?_
    intro a h
    have := (hInv.joined w a h).1
    rw [hw] at this
    exact absurd this (by decide)
  · have hreach_u : ∀ p : Fin R × Fin C, cell (setCell g w.1 w.2 true) p.1 p.2 = true →
        (mazeGraph R C V' H').Reachable p u := by
      intro p hp
      rw [hset] at hp
      by_cases hpw : (p.1 : ℕ) = w.1 ∧ (p.2 : ℕ) = w.2
      · have : p = w := Prod.ext (Fin.ext hpw.1) (Fin.ext hpw.2)
        rw [this]
        exact huw.symm.reachable
      · rw [if_neg hpw] at hp
        exact (hInv.reach p u hp hu).mono hle
    intro p q hp hq
    exact (hreach_u p hp).trans (hreach_u q hq).symm
  · rw [visitedCount_setCell hRC hInv.grid_dims w hw, ← hInv.count, hcount]

theorem cell_replicate (n m r c : ℕ) :
    cell (List.replicate n (List.replicate m false)) r c = false := by
  unfold cell
  simp only [List.getD_eq_getElem?_getD, List.getElem?_replicate]
  by_cases hr : r < n
  · by_cases hc : c < m <;> simp [hr, hc, List.getElem?_replicate]
  · simp [hr]

theorem hasDims_replicate (n m : ℕ) :
    HasDims (List.replicate n (List.replicate m false)) n m := by
  refine ⟨by simp, ?_⟩
  intro row h
  rw [List.eq_of_mem_replicate h]; simp

theorem countTrue_replicate (n m : ℕ) :
    countTrue (List.replicate n (List.replicate m false)) = 0 := by
  unfold countTrue
  induction n with
  | zero => simp
  | succ n ih => simp [List.replicate_succ, ih, List.count_replicate]

theorem Inv.base {R C : ℕ} (hRC : R ≤ C) (s : Fin R × Fin C) :
    Inv R C (setCell (List.replicate C (List.replicate C false)) s.1 s.2 true)
      (List.replicate R (List.replicate (C - 1) false))
      (List.replicate (R - 1) (List.replicate C false)) := by
  have hsr : (s.1 : ℕ) < C := lt_of_lt_of_le s.1.isLt hRC
  have hd := hasDims_replicate C C
  have hset : ∀ r c, cell (setCell (List.replicate C (List.replicate C false)) s.1 s.2 true) r c
      = if r = s.1 ∧ c = s.2 then true else false := by
    intro r c
    rw [cell_setCell hd hsr s.2.isLt, cell_replicate]
  have hno : ∀ p q, ¬ (mazeGraph R C (List.replicate R (List.replicate (C - 1) false))
      (List.replicate (R - 1) (List.replicate C false))).Adj p q := by
    intro p q h
    rw [mazeGraph_adj] at h
    simp [cell_replicate] at h
  refine ⟨hd.setCell _ _ _, hasDims_replicate _ _, hasDims_replicate _ _, ?_, ?_, ?_, ?_, ?_⟩
  · intro r c h
    rw [hset] at h
    by_cases hp : r = s.1 ∧ c = s.2
    · rw [hp.1]; exact s.1.isLt
    · rw [if_neg hp] at h; exact absurd h (by decide)
  · intro p q h; exact absurd h (hno p q)
  · intro x c hc
    cases c with
    | nil => exact hc.ne_nil rfl
    | cons h p => exact hno _ _ h
  · intro p q hp hq
    rw [hset] at hp hq
    have hp' : p = s := by
      by_contra hne
      rw [if_neg] at hp
      · exact absurd hp (by decide)
      · rintro ⟨h1, h2⟩; exact hne (Prod.ext (Fin.ext h1) (Fin.ext h2))
    have hq' : q = s := by
      by_contra hne
      rw [if_neg] at hq
      · exact absurd hq (by decide)
      · rintro ⟨h1, h2⟩; exact hne (Prod.ext (Fin.ext h1) (Fin.ext h2))
    rw [hp', hq']
  · rw [visitedCount_setCell hRC hd s (cell_replicate _ _ _ _), countTrue_replicate,
      countTrue_replicate]
    have : visitedCount R C (List.replicate C (List.replicate C false)) = 0 := by
      unfold visitedCount
      simp [cell_replicate]
    rw [this]

/-! ## Opening a passage -/

theorem Inv.openV {R C : ℕ} (hRC : R ≤ C) {g V H : Arr2} (hInv : Inv R C g V H)
    (a b u w : Fin R × Fin C) (h1 : a.1 = b.1) (h2 : a.2.val + 1 = b.2.val)
    (huw : (u = a ∧ w = b) ∨ (u = b ∧ w = a))
    (hu : cell g u.1 u.2 = true) (hw : cell g w.1 w.2 = false) :
    Inv R C (setCell g w.1 w.2 true) (setCell V a.1 a.2 true) H := by
  have hc : (a.2 : ℕ) < C - 1 := by have := b.2.isLt; omega
  have hclosed : cell V a.1 a.2 = false := by
    by_contra hne
    have ht : cell V a.1 a.2 = true := by simpa using hne
    have hadj : (mazeGraph R C V H).Adj a b :=
      mazeGraph_adj.2 (Or.inl (Or.inl ⟨h1, h2, ht⟩))
    have hj := hInv.joined a b hadj
    rcases huw with ⟨_, rfl⟩ | ⟨_, rfl⟩
    · rw [hw] at hj; exact absurd hj.2 (by decide)
    · rw [hw] at hj; exact absurd hj.1 (by decide)
  refine hInv.leaf hRC u w hu hw (hInv.verticals_dims.setCell _ _ _) hInv.horizontals_dims ?_ ?_
  · intro p q
    rw [adj_setV H hInv.verticals_dims a b h1 h2 p q]
    rcases huw with ⟨rfl, rfl⟩ | ⟨rfl, rfl⟩
    · rfl
    · rw [or_comm (a := p = u ∧ q = w)]
  · rw [countTrue_setCell hInv.verticals_dims a.1.isLt hc hclosed]; omega

theorem Inv.openH {R C : ℕ} (hRC : R ≤ C) {g V H : Arr2} (hInv : Inv R C g V H)
    (a b u w : Fin R × Fin C) (h1 : a.2 = b.2) (h2 : a.1.val + 1 = b.1.val)
    (huw : (u = a ∧ w = b) ∨ (u = b ∧ w = a))
    (hu : cell g u.1 u.2 = true) (hw : cell g w.1 w.2 = false) :
    Inv R C (setCell g w.1 w.2 true) V (setCell H a.1 a.2 true) := by
  have hr : (a.1 : ℕ) < R - 1 := by have := b.1.isLt; omega
  have hclosed : cell H a.1 a.2 = false := by
    by_contra hne
    have ht : cell H a.1 a.2 = true := by simpa using hne
    have hadj : (mazeGraph R C V H).Adj a b :=
      mazeGraph_adj.2 (Or.inl (Or.inr ⟨h1, h2, ht⟩))
    have hj := hInv.joined a b hadj
    rcases huw with ⟨_, rfl⟩ | ⟨_, rfl⟩
    · rw [hw] at hj; exact absurd hj.2 (by decide)
    · rw [hw] at hj; exact absurd hj.1 (by decide)
  refine hInv.leaf hRC u w hu hw hInv.verticals_dims (hInv.horizontals_dims.setCell _ _ _) ?_ ?_
  · intro p q
    rw [adj_setH V hInv.horizontals_dims a b h1 h2 p q]
    rcases huw with ⟨rfl, rfl⟩ | ⟨rfl, rfl⟩
    · rfl
    · rw [or_comm (a := p = u ∧ q = w)]
  · rw [countTrue_setCell hInv.horizontals_dims hr a.2.isLt hclosed]; omega

theorem openPassage_spec {R C : ℕ} (hRC : R ≤ C) {m : Maze}
    (hInv : Inv R C m.grid m.verticals m.horizontals) {r c r' c' : ℕ}
    (hr : r < R) (hc : c < C) (hr' : r' < R) (hc' : c' < C)
    (hu : cell m.grid r c = true) (hw : cell m.grid r' c' = false) {d : Direction}
    (hmem : ((r' : ℤ), (c' : ℤ), d) ∈ neighborsOf r c) :
    ∃ m1, openPassage m r c d = some m1 ∧ m1.grid = m.grid ∧ m1.calls = m.calls ∧
      Inv R C (setCell m.grid r' c' true) m1.verticals m1.horizontals := by
  simp only [neighborsOf, List.mem_cons, Prod.mk.injEq, List.mem_singleton, List.not_mem_nil,
    or_false] at hmem
  rcases hmem with ⟨e1, e2, rfl⟩ | ⟨e1, e2, rfl⟩ | ⟨e1, e2, rfl⟩ | ⟨e1, e2, rfl⟩
  · -- up
    have e2' : c' = c := by omega
    subst e2'
    have hrr : r' + 1 = r := by omega
    have := hInv.openH hRC (⟨r', hr'⟩, ⟨c', hc'⟩) (⟨r, hr⟩, ⟨c', hc⟩) (⟨r, hr⟩, ⟨c', hc⟩)
      (⟨r', hr'⟩, ⟨c', hc'⟩) rfl hrr (Or.inr ⟨rfl, rfl⟩) hu hw
    refine ⟨{ m with horizontals := setCell m.horizontals r' c' true }, ?_, rfl, rfl, this⟩
    simp only [openPassage]
    rw [← e1, write2_cast hInv.horizontals_dims (by omega) hc]; rfl
  · -- right
    have e1' : r' = r := by omega
    subst e1'
    have hcc : c + 1 = c' := by omega
    have := hInv.openV hRC (⟨r', hr⟩, ⟨c, hc⟩) (⟨r', hr'⟩, ⟨c', hc'⟩) (⟨r', hr⟩, ⟨c, hc⟩)
      (⟨r', hr'⟩, ⟨c', hc'⟩) rfl hcc (Or.inl ⟨rfl, rfl⟩) hu hw
    refine ⟨{ m with verticals := setCell m.verticals r' c true }, ?_, rfl, rfl, this⟩
    simp only [openPassage]
    rw [write2_cast hInv.verticals_dims hr (by omega)]; rfl
  · -- down
    have e2' : c' = c := by omega
    subst e2'
    have hrr : r + 1 = r' := by omega
    have := hInv.openH hRC (⟨r, hr⟩, ⟨c', hc⟩) (⟨r', hr'⟩, ⟨c', hc'⟩) (⟨r, hr⟩, ⟨c', hc⟩)
      (⟨r', hr'⟩, ⟨c', hc'⟩) rfl hrr (Or.inl ⟨rfl, rfl⟩) hu hw
    refine ⟨{ m with horizontals := setCell m.horizontals r c' true }, ?_, rfl, rfl, this⟩
    simp only [openPassage]
    rw [write2_cast hInv.horizontals_dims (by omega) hc]; rfl
  · -- left
    have e1' : r' = r := by omega
    subst e1'
    have hcc : c' + 1 = c := by omega
    have := hInv.openV hRC (⟨r', hr'⟩, ⟨c', hc'⟩) (⟨r', hr⟩, ⟨c, hc⟩) (⟨r', hr⟩, ⟨c, hc⟩)
      (⟨r', hr'⟩, ⟨c', hc'⟩) rfl hcc (Or.inr ⟨rfl, rfl⟩) hu hw
    refine ⟨{ m with verticals := setCell m.verticals r' c' true }, ?_, rfl, rfl, this⟩
    simp only [openPassage]
    rw [← e2, write2_cast hInv.verticals_dims hr (by omega)]; rfl

/-! ## shuffle returns a rearrangement -/

theorem set_getElem_same {α : Type} (l : List α) (i : ℕ) (hi : i < l.length) :
    l.set i l[i] = l := by
  apply List.ext_getElem (by simp)
  intro k h1 h2
  rw [List.getElem_set]
  split_ifs with h
  · subst h; rfl
  · rfl

theorem swap_perm {α : Type} (l : List α) (i j : ℕ) (hi : i < l.length) (hj : j < l.length) :
    ((l.set i l[j]).set j l[i]).Perm l := by
  classical
  by_cases hij : i = j
  · subst hij
    simp only [List.set_set, set_getElem_same]
    exact List.Perm.refl _
  · rw [List.perm_iff_count]
    intro a
    have h1 : (if l[i] == a then 1 else 0) ≤ l.count a :=
      List.boole_getElem_le_countP (· == a) l i hi
    rw [List.count_set _ _ _ _ (by simpa using hj), List.count_set _ _ _ _ hi,
      List.getElem_set_ne hij]
    split_ifs at h1 ⊢ <;> omega

theorem jsIndex_eq_some {α : Type} {a : List α} {i : ℤ} {x : α} (h : jsIndex a i = some x) :
    ∃ hi : i.toNat < a.length, 0 ≤ i ∧ a[i.toNat] = x := by
  unfold jsIndex at h
  split_ifs at h with hneg
  rw [List.getElem?_eq_some] at h
  obtain ⟨hi, hx⟩ := h
  exact ⟨hi, by omega, hx⟩

theorem jsAssign_of_lt {α : Type} (a : List α) (i : ℤ) (v hole : α) (h0 : 0 ≤ i)
    (hi : i.toNat < a.length) : jsAssign a i v hole = a.set i.toNat v := by
  unfold jsAssign
  rw [if_neg (by omega), if_pos hi]

theorem shuffleWith_succ {α : Type} (index : ℕ → ℤ) (n : ℕ) (arr : List α)
    (hn : n < arr.length) (h0 : 0 ≤ index (n + 1)) (hj : (index (n + 1)).toNat < arr.length) :
    shuffleWith index (n + 1) arr =
      shuffleWith index n ((arr.set n arr[(index (n + 1)).toNat]).set (index (n + 1)).toNat arr[n]) := by
  have e1 : jsIndex arr (n : ℤ) = some arr[n] := by
    rw [jsIndex_cast]; exact List.getElem?_eq_getElem hn
  have e2 : jsIndex arr (index (n + 1)) = some arr[(index (n + 1)).toNat] := by
    unfold jsIndex
    rw [if_neg (by omega)]; exact List.getElem?_eq_getElem hj
  rw [shuffleWith, e1, e2]
  simp only
  rw [jsAssign_of_lt arr (n : ℤ) _ _ (by omega) (by simpa using hn),
    jsAssign_of_lt _ (index (n + 1)) _ _ h0 (by simpa using hj)]
  simp

theorem shuffleWith_perm {α : Type} (index : ℕ → ℤ) (n : ℕ) (arr : List α) :
    (shuffleWith index n arr).Perm arr := by
  induction n generalizing arr with
  | zero => exact List.Perm.refl _
  | succ n ih =>
    cases e1 : jsIndex arr (n : ℤ) with
    | none => rw [shuffleWith, e1]; exact ih arr
    | some temp =>
      cases e2 : jsIndex arr (index (n + 1)) with
      | none => rw [shuffleWith, e1, e2]; exact ih arr
      | some x =>
        obtain ⟨hn, _, _⟩ := jsIndex_eq_some e1
        obtain ⟨hj, h0, _⟩ := jsIndex_eq_some e2
        rw [shuffleWith_succ index n arr (by simpa using hn) h0 hj]
        exact (ih _).trans (swap_perm arr n _ (by simpa using hn) hj)

theorem shuffle_perm {α : Type} (rand : ℕ → ℚ) (calls : ℕ) (arr : List α) :
    (shuffle rand calls arr).1.Perm arr :=
  shuffleWith_perm _ _ _

/-! ## The loop over the neighbours and the recursion -/

theorem Closed.trans {R C : ℕ} {g g1 g2 : Arr2} (h1 : Closed R C g g1) (h2 : Closed R C g1 g2)
    (hm : Mono g1 g2) : Closed R C g g2 := by
  intro r c r' c' hr hc hr' hc' hf ht hadj
  cases h : cell g1 r c with
  | true => exact hm _ _ (h1 r c r' c' hr hc hr' hc' hf h hadj)
  | false => exact h2 r c r' c' hr hc hr' hc' h ht hadj

theorem Closed.refl (R C : ℕ) (g : Arr2) : Closed R C g g := by
  intro r c r' c' _ _ _ _ hf ht _
  rw [hf] at ht; exact absurd ht (by decide)

theorem adj4_mem_neighborsOf {r c r' c' : ℕ} (h : Adj4 r c r' c') :
    ∃ d, ((r' : ℤ), (c' : ℤ), d) ∈ neighborsOf r c := by
  unfold neighborsOf
  rcases h with ⟨rfl, rfl | h⟩ | ⟨rfl, rfl | h⟩
  · exact ⟨.right, by simp⟩
  · exact ⟨.left, by subst h; simp⟩
  · exact ⟨.down, by simp⟩
  · exact ⟨.up, by subst h; simp⟩

theorem visitNeighbors_spec {R C : ℕ} (hRC : R ≤ C) (f : ℕ)
    (step : ℤ → ℤ → Maze → Maze × Option Err) (hstep : StepSpec R C f step)
    (r c : ℕ) (hr : r < R) (hc : c < C) :
    ∀ (L : List (ℤ × ℤ × Direction)) (m : Maze), (∀ t ∈ L, t ∈ neighborsOf r c) →
      Inv R C m.grid m.verticals m.horizontals → cell m.grid r c = true →
      R * C ≤ f + visitedCount R C m.grid →
      ∃ m', visitNeighbors step R C r c L m = (m', none) ∧
        Inv R C m'.grid m'.verticals m'.horizontals ∧ Mono m.grid m'.grid ∧
        Closed R C m.grid m'.grid ∧
        ∀ t ∈ L, ∀ r' c' : ℕ, t.1 = (r' : ℤ) → t.2.1 = (c' : ℤ) → r' < R → c' < C →
          cell m'.grid r' c' = true := by
  intro L
  induction L with
  | nil =>
    intro m _ hInv _ _
    exact ⟨m, rfl, hInv, fun _ _ h => h, Closed.refl _ _ _, fun t ht => absurd ht (by simp)⟩
  | cons t rest ih =>
    intro m hL hInv hvis hfuel
    obtain ⟨nr, nc, d⟩ := t
    have hrest : ∀ t ∈ rest, t ∈ neighborsOf r c := fun t ht => hL t (List.mem_cons_of_mem _ ht)
    have ht : (nr, nc, d) ∈ neighborsOf r c := hL _ (List.mem_cons_self _ _)
    by_cases hb : nr < 0 ∨ nr ≥ (R : ℤ) ∨ nc < 0 ∨ nc ≥ (C : ℤ)
    · obtain ⟨m', h1, h2, h3, h4, h5⟩ := ih m hrest hInv hvis hfuel
      refine ⟨m', ?_, h2, h3, h4, ?_⟩
      · rw [visitNeighbors, if_pos hb]; exact h1
      · intro t' ht' r' c' e1 e2 hr' hc'
        rcases List.mem_cons.1 ht' with rfl | ht'
        · simp only at e1 e2
          omega
        · exact h5 t' ht' r' c' e1 e2 hr' hc'
    · have hnr : 0 ≤ nr := by omega
      have hnc : 0 ≤ nc := by omega
      lift nr to ℕ using hnr
      lift nc to ℕ using hnc
      have hr' : nr < R := by omega
      have hc' : nc < C := by omega
      have hread : read2 m.grid (nr : ℤ) (nc : ℤ) = some (cell m.grid nr nc) :=
        read2_cast _ _ _ (by rw [hInv.grid_dims.1]; omega)
      cases hv : cell m.grid nr nc with
      | true =>
        obtain ⟨m', h1, h2, h3, h4, h5⟩ := ih m hrest hInv hvis hfuel
        refine ⟨m', ?_, h2, h3, h4, ?_⟩
        · rw [visitNeighbors, if_neg hb, hread, hv]; exact h1
        · intro t' ht' r' c' e1 e2 hr'' hc''
          rcases List.mem_cons.1 ht' with rfl | ht'
          · simp only at e1 e2
            have e1' : nr = r' := by omega
            have e2' : nc = c' := by omega
            subst e1' e2'
            exact h3 _ _ hv
          · exact h5 t' ht' r' c' e1 e2 hr'' hc''
      | false =>
        obtain ⟨m1, ho, hg1, _, hInv1⟩ := openPassage_spec hRC hInv hr hc hr' hc' hvis hv ht
        obtain ⟨m2, hs, hInv2, hmono2, hvis2, hclosed2⟩ :=
          hstep nr nc m1 hr' hc' (by rw [hg1]; exact hv) (by rw [hg1]; exact hInv1)
            (by rw [hg1]; exact hfuel)
        rw [hg1] at hmono2 hclosed2
        obtain ⟨m', h1, h2, h3, h4, h5⟩ := ih m2 hrest hInv2 (hmono2 _ _ hvis)
          (le_trans hfuel (Nat.add_le_add_left (visitedCount_mono hmono2) _))
        refine ⟨m', ?_, h2, fun a b h => h3 _ _ (hmono2 _ _ h), hclosed2.trans h4 h3, ?_⟩
        · rw [visitNeighbors, if_neg hb, hread, hv]
          simp only [ho, hs]
          exact h1
        · intro t' ht' r' c' e1 e2 hr'' hc''
          rcases List.mem_cons.1 ht' with rfl | ht'
          · simp only at e1 e2
            have e1' : nr = r' := by omega
            have e2' : nc = c' := by omega
            subst e1' e2'
            exact h3 _ _ hvis2
          · exact h5 t' ht' r' c' e1 e2 hr'' hc''

theorem stepThroughCell_spec {R C : ℕ} (hRC : R ≤ C) (rand : ℕ → ℚ) :
    ∀ f, StepSpec R C f (stepThroughCell rand R C f) := by
  intro f
  induction f with
  | zero =>
    intro r c m hr hc hv _ hfuel
    have := visitedCount_lt (R := R) (C := C) (g := m.grid) (⟨r, hr⟩, ⟨c, hc⟩) hv
    omega
  | succ f ih =>
    intro r c m hr hc hv hInv hfuel
    have hd := hInv.grid_dims
    have hlen : m.grid.length = C := by simpa [setCell] using hd.1
    have hdm : HasDims m.grid C C := by
      refine ⟨hlen, ?_⟩
      intro row hrow
      obtain ⟨i, hi, rfl⟩ := List.getElem_of_mem hrow
      by_cases hir : i = r
      · subst hir
        have := hd.2 ((m.grid.getD i []).set c true)
          (by
            simp only [setCell]
            exact List.mem_iff_getElem.2 ⟨i, by simpa using hi, by simp⟩)
        simpa [List.getD_eq_getElem?_getD, List.getElem?_eq_getElem hi] using this
      · exact hd.2 _ (by
          simp only [setCell]
          exact List.mem_iff_getElem.2 ⟨i, by simpa using hi, by
            rw [List.getElem_set_ne (Ne.symm hir)]⟩)
    have hrC : r < C := lt_of_lt_of_le hr hRC
    have hset : ∀ a b, cell (setCell m.grid r c true) a b =
        if a = r ∧ b = c then true else cell m.grid a b :=
      fun a b => cell_setCell hdm hrC hc true a b
    have hmono0 : Mono m.grid (setCell m.grid r c true) := by
      intro a b h; rw [hset]; split_ifs <;> simp [h]
    have hperm := shuffle_perm rand m.calls (neighborsOf r c)
    obtain ⟨m', h1, h2, h3, h4, h5⟩ := visitNeighbors_spec hRC f _ ih r c hr hc
      (shuffle rand m.calls (neighborsOf r c)).1
      { m with grid := setCell m.grid r c true,
               calls := (shuffle rand m.calls (neighborsOf r c)).2 }
      (fun t ht => hperm.mem_iff.1 ht) hInv (by simp [hset])
      (by
        have := visitedCount_setCell hRC hdm (⟨r, hr⟩, ⟨c, hc⟩) hv
        simp only at this ⊢
        omega)
    simp only at h3 h4
    refine ⟨m', ?_, h2, fun a b h => h3 _ _ (hmono0 _ _ h), h3 _ _ (by simp [hset]), ?_⟩
    · rw [stepThroughCell, read2_cast _ _ _ (by omega), hv]
      simp only
      rw [write2_cast hdm hrC hc]
      exact h1
    · intro a b a' b' ha hb ha' hb' hf ht hadj
      by_cases hab : a = r ∧ b = c
      · obtain ⟨rfl, rfl⟩ := hab
        obtain ⟨d, hd'⟩ := adj4_mem_neighborsOf hadj
        exact h5 _ (hperm.mem_iff.2 hd') a' b' rfl rfl ha' hb'
      · exact h4 a b a' b' ha hb ha' hb' (by rw [hset, if_neg hab]; exact hf) ht hadj

/-! ## Generation -/

theorem interval_closed (N : ℕ) (P : ℕ → Prop) (n0 : ℕ) (h0 : P n0)
    (hup : ∀ n, n + 1 < N → P n → P (n + 1)) (hdown : ∀ n, n + 1 < N → P (n + 1) → P n)
    (hn0 : n0 < N) : ∀ n, n < N → P n := by
  have hlow : ∀ k, k ≤ n0 → P (n0 - k) := by
    intro k
    induction k with
    | zero => intro _; exact h0
    | succ k ih =>
      intro hk
      have h1 := ih (by omega)
      have e : n0 - k = (n0 - (k + 1)) + 1 := by omega
      rw [e] at h1
      exact hdown _ (by omega) h1
  have hhigh : ∀ k, n0 + k < N → P (n0 + k) := by
    intro k
    induction k with
    | zero => intro _; exact h0
    | succ k ih =>
      intro hk
      have h1 := hup (n0 + k) (by omega) (ih (by omega))
      rwa [Nat.add_assoc] at h1
  intro n hn
  rcases le_total n n0 with h | h
  · have := hlow (n0 - n) (by omega)
    rwa [show n0 - (n0 - n) = n by omega] at this
  · have := hhigh (n - n0) (by omega)
    rwa [show n0 + (n - n0) = n by omega] at this

theorem all_visited {R C : ℕ} {g : Arr2}
    (hclosed : ∀ r c r' c', r < R → c < C → r' < R → c' < C → cell g r c = true →
      Adj4 r c r' c' → cell g r' c' = true)
    {r0 c0 : ℕ} (hr0 : r0 < R) (hc0 : c0 < C) (h0 : cell g r0 c0 = true) :
    ∀ r c, r < R → c < C → cell g r c = true := by
  have hcol : ∀ r, r < R → cell g r c0 = true := by
    apply interval_closed R (fun r => cell g r c0 = true) r0 h0 _ _ hr0
    · intro n hn h
      exact hclosed n c0 (n + 1) c0 (by omega) hc0 hn hc0 h (Or.inr ⟨rfl, Or.inl rfl⟩)
    · intro n hn h
      exact hclosed (n + 1) c0 n c0 hn hc0 (by omega) hc0 h (Or.inr ⟨rfl, Or.inr rfl⟩)
  intro r c hr hc
  apply interval_closed C (fun c => cell g r c = true) c0 (hcol r hr) _ _ hc0 c hc
  · intro n hn h
    exact hclosed r n r (n + 1) hr (by omega) hr hn h (Or.inl ⟨rfl, Or.inl rfl⟩)
  · intro n hn h
    exact hclosed r (n + 1) r n hr hn hr (by omega) h (Or.inl ⟨rfl, Or.inr rfl⟩)

theorem newArr2_cast (n m : ℕ) :
    newArr2 (n : ℤ) (m : ℤ) = .ok (List.replicate n (List.replicate m false)) := by
  unfold newArr2
  rw [if_neg (by omega)]
  by_cases hn : n = 0
  · subst hn; simp
  · rw [if_neg (by omega), if_neg (by omega)]; simp

theorem floor_draw (q : ℚ) (n : ℕ) (h0 : 0 ≤ q) (h1 : q < 1) (hn : 0 < n) :
    ∃ k : ℕ, ⌊q * ((n : ℤ) : ℚ)⌋ = (k : ℤ) ∧ k < n := by
  have hn' : (0 : ℚ) < (n : ℚ) := by exact_mod_cast hn
  have hnn : 0 ≤ ⌊q * ((n : ℤ) : ℚ)⌋ := Int.floor_nonneg.2 (by simpa using mul_nonneg h0 hn'.le)
  have hlt : ⌊q * ((n : ℤ) : ℚ)⌋ < (n : ℤ) := by
    rw [Int.floor_lt]
    simpa using mul_lt_of_lt_one_left hn' h1
  refine ⟨⌊q * ((n : ℤ) : ℚ)⌋.toNat, by omega, by omega⟩

theorem generate_spec {R C : ℕ} (hR : 1 ≤ R) (hRC : R ≤ C) (rand : ℕ → ℚ)
    (hrand : ∀ n, 0 ≤ rand n ∧ rand n < 1) (fuel : ℕ) (hfuel : R * C ≤ fuel) (g : Game) :
    ∃ grid V H, generate rand R C fuel g =
        ({ g with grid := some grid, verticals := some V, horizontals := some H }, none) ∧
      Inv R C grid V H ∧ ∀ r c, r < R → c < C → cell grid r c = true := by
  obtain ⟨r0, hr0, hr0R⟩ := floor_draw (rand 0) R (hrand 0).1 (hrand 0).2 (by omega)
  obtain ⟨c0, hc0, hc0C⟩ := floor_draw (rand 1) C (hrand 1).1 (hrand 1).2 (by omega)
  have e1 : ((C : ℤ) - 1) = ((C - 1 : ℕ) : ℤ) := by omega
  have e2 : ((R : ℤ) - 1) = ((R - 1 : ℕ) : ℤ) := by omega
  obtain ⟨m', hs, hInv, _, hvis, hclosed⟩ := stepThroughCell_spec hRC rand fuel r0 c0
    { grid := List.replicate C (List.replicate C false),
      verticals := List.replicate R (List.replicate (C - 1) false),
      horizontals := List.replicate (R - 1) (List.replicate C false), calls := 2 }
    hr0R hc0C (cell_replicate _ _ _ _) (Inv.base hRC (⟨r0, hr0R⟩, ⟨c0, hc0C⟩))
    (le_trans hfuel (Nat.le_add_right _ _))
  refine ⟨m'.grid, m'.verticals, m'.horizontals, ?_, hInv, ?_⟩
  · unfold generate
    rw [newArr2_cast, e1, newArr2_cast, e2, newArr2_cast]
    simp only [hr0, hc0, hs]
  · apply all_visited _ hr0R hc0C hvis
    intro r c r' c' hr hc hr' hc' ht hadj
    exact hclosed r c r' c' hr hc hr' hc' (cell_replicate _ _ _ _) ht hadj

theorem generate_tree {R C : ℕ} (hR : 1 ≤ R) (hRC : R ≤ C) (rand : ℕ → ℚ)
    (hrand : ∀ n, 0 ≤ rand n ∧ rand n < 1) (fuel : ℕ) (hfuel : R * C ≤ fuel) (g : Game) :
    ∃ grid V H, generate rand R C fuel g =
        ({ g with grid := some grid, verticals := some V, horizontals := some H }, none) ∧
      HasDims V R (C - 1) ∧ HasDims H (R - 1) C ∧ (mazeGraph R C V H).IsTree ∧
      countTrue V + countTrue H = R * C - 1 := by
  obtain ⟨grid, V, H, hgen, hInv, hall⟩ := generate_spec hR hRC rand hrand fuel hfuel g
  refine ⟨grid, V, H, hgen, hInv.verticals_dims, hInv.horizontals_dims, ⟨?_, hInv.acyclic⟩, ?_⟩
  · haveI : Nonempty (Fin R × Fin C) := ⟨(⟨0, by omega⟩, ⟨0, by omega⟩)⟩
    exact ⟨fun p q => hInv.reach p q (hall _ _ p.1.isLt p.2.isLt) (hall _ _ q.1.isLt q.2.isLt)⟩
  · have := hInv.count
    rw [visitedCount_full (fun p => hall _ _ p.1.isLt p.2.isLt)] at this
    omega

/-! ## The walls that addMazeWalls adds -/

theorem foldl_row (f : ℕ → Body) (l : List (ℕ × Bool)) (w : List Body) :
    l.foldl (fun world e => if e.2 then world else world ++ [f e.1]) w =
      w ++ (l.filter fun e => !e.2).map fun e => f e.1 := by
  induction l generalizing w with
  | nil => simp
  | cons e l ih =>
    rw [List.foldl_cons, ih]
    cases h : e.2 <;> simp [h, List.filter_cons]

theorem foldl_rows (mk : ℕ → ℕ → Body) (L : List (ℕ × List Bool)) (bodies : List Body) :
    L.foldl (fun world r =>
        r.2.enum.foldl (fun world e => if e.2 then world else world ++ [mk r.1 e.1]) world)
      bodies =
      bodies ++ L.flatMap fun r => (r.2.enum.filter fun e => !e.2).map fun e => mk r.1 e.1 := by
  induction L generalizing bodies with
  | nil => simp
  | cons r L ih =>
    rw [List.foldl_cons, ih, foldl_row (mk r.1)]
    simp

theorem addWallsOf_eq (mk : ℕ → ℕ → Body) (arr : Arr2) (bodies : List Body) :
    addWallsOf mk arr bodies = bodies ++ (closedEntries arr).map fun p => mk p.1 p.2 := by
  unfold addWallsOf closedEntries
  rw [foldl_rows, List.map_flatMap]
  simp [List.map_map, Function.comp_def]

theorem mem_closedEntries (arr : Arr2) (r c : ℕ) :
    (r, c) ∈ closedEntries arr ↔ ∃ row, arr[r]? = some row ∧ row[c]? = some false := by
  unfold closedEntries
  simp only [List.mem_flatMap, List.mem_map, List.mem_filter, Prod.mk.injEq, Prod.exists,
    List.mk_mem_enum_iff_getElem?]
  constructor
  · rintro ⟨r', row, h1, c', b, ⟨h2, h3⟩, rfl, rfl⟩
    refine ⟨row, h1, ?_⟩
    cases b <;> simp_all
  · rintro ⟨row, h1, h2⟩
    exact ⟨r, row, h1, c, false, ⟨h2, rfl⟩, rfl, rfl⟩

theorem nodup_enum' {α : Type} (l : List α) : l.enum.Nodup :=
  List.Nodup.of_map Prod.fst (List.nodup_enum_map_fst l)

theorem nodup_closedEntries (arr : Arr2) : (closedEntries arr).Nodup := by
  unfold closedEntries
  rw [List.nodup_flatMap]
  constructor
  · intro r _
    refine List.Nodup.map_on ?_ ((nodup_enum' _).filter _)
    intro e he e' he' h
    simp only [Prod.mk.injEq, true_and] at h
    rw [List.mem_filter] at he he'
    have h2 : e.2 = e'.2 := by
      have a := he.2; have b := he'.2
      simp only [Bool.not_eq_true'] at a b
      rw [a, b]
    exact Prod.ext h h2
  · have hp : List.Pairwise (fun a b : ℕ × List Bool => a.1 ≠ b.1) arr.enum :=
      List.pairwise_map.1 (List.nodup_enum_map_fst arr)
    refine hp.imp ?_
    intro a b hab x hxa hxb
    simp only [List.mem_map] at hxa hxb
    obtain ⟨e, _, rfl⟩ := hxa
    obtain ⟨e', _, h⟩ := hxb
    simp only [Prod.mk.injEq] at h
    exact hab h.1.symm

theorem length_filter_enumFrom (row : List Bool) (n : ℕ) :
    ((row.enumFrom n).filter fun e => !e.2).length = row.count false := by
  induction row generalizing n with
  | nil => simp
  | cons b row ih =>
    cases b <;> simp [List.enumFrom_cons, List.filter_cons, ih]

theorem length_closedEntries (arr : Arr2) :
    (closedEntries arr).length = (arr.map (List.count false)).sum := by
  unfold closedEntries
  rw [List.length_flatMap]
  have : (List.map (List.length ∘ fun r : ℕ × List Bool =>
      List.map (fun e : ℕ × Bool => (r.1, e.1)) (List.filter (fun e => !e.2) r.2.enum))
      arr.enum) = List.map (List.count false) (List.map Prod.snd arr.enum) := by
    rw [List.map_map]
    apply List.map_congr_left
    intro r _
    simp only [List.length_map, Function.comp]
    exact length_filter_enumFrom r.2 0
  rw [this, List.enum_map_snd]

theorem countTrue_add_closed {arr : Arr2} {n m : ℕ} (h : HasDims arr n m) :
    countTrue arr + (closedEntries arr).length = n * m := by
  rw [length_closedEntries]
  unfold countTrue
  obtain ⟨h1, h2⟩ := h
  subst h1
  induction arr with
  | nil => simp
  | cons row arr ih =>
    have hrow := h2 row (List.mem_cons_self _ _)
    have := ih (fun r hr => h2 r (List.mem_cons_of_mem _ hr))
    have hc := List.count_true_add_count_false row
    simp only [List.map_cons, List.sum_cons, List.length_cons]
    rw [Nat.add_mul]
    omega

/-! ## The world after createMaze -/

theorem createMaze_of_generate {rand : ℕ → ℚ} {cV cH : ℤ} (width height : ℚ) {fuel : ℕ}
    {g : Game} {grid V H : Arr2}
    (h : generate rand cV cH fuel { g with bodies := g.bodies ++ boundaryWalls width height } =
      ({ g with bodies := g.bodies ++ boundaryWalls width height, grid := some grid,
                verticals := some V, horizontals := some H }, none)) :
    createMaze rand cV cH width height fuel g =
      (addGoalAndBall width height (width / (cH : ℚ)) (height / (cV : ℚ))
        { g with bodies := addMazeWalls (width / (cH : ℚ)) (height / (cV : ℚ)) H V
                    (g.bodies ++ boundaryWalls width height),
                 grid := some grid, verticals := some V, horizontals := some H }, none) := by
  unfold createMaze
  simp only [h]

theorem addMazeWalls_eq (ux uy : ℚ) (H V : Arr2) (bodies : List Body) :
    addMazeWalls ux uy H V bodies =
      bodies ++ (closedEntries H).map (fun p => horizontalWall ux uy p.1 p.2) ++
        (closedEntries V).map (fun p => verticalWall ux uy p.1 p.2) := by
  unfold addMazeWalls
  rw [addWallsOf_eq, addWallsOf_eq]

theorem verticalWall_inj {ux uy : ℚ} (hx : ux ≠ 0) (hy : uy ≠ 0) {r c r' c' : ℕ}
    (h : verticalWall ux uy r c = verticalWall ux uy r' c') : r = r' ∧ c = c' := by
  simp only [verticalWall, Bodies.rectangle, Body.mk.injEq] at h
  obtain ⟨h1, h2, _⟩ := h
  have e1 : (c : ℚ) = c' := mul_right_cancel₀ hx (by linarith)
  have e2 : (r : ℚ) = r' := mul_right_cancel₀ hy (by linarith)
  exact ⟨by exact_mod_cast e2, by exact_mod_cast e1⟩

theorem horizontalWall_inj {ux uy : ℚ} (hx : ux ≠ 0) (hy : uy ≠ 0) {r c r' c' : ℕ}
    (h : horizontalWall ux uy r c = horizontalWall ux uy r' c') : r = r' ∧ c = c' := by
  simp only [horizontalWall, Bodies.rectangle, Body.mk.injEq] at h
  obtain ⟨h1, h2, _⟩ := h
  have e1 : (c : ℚ) = c' := mul_right_cancel₀ hx (by linarith)
  have e2 : (r : ℚ) = r' := mul_right_cancel₀ hy (by linarith)
  exact ⟨by exact_mod_cast e2, by exact_mod_cast e1⟩

theorem verticalWall_ne_horizontalWall {ux uy : ℚ} (hx : ux ≠ 0) (r c r' c' : ℕ) :
    verticalWall ux uy r c ≠ horizontalWall ux uy r' c' := by
  intro h
  simp only [verticalWall, horizontalWall, Bodies.rectangle, Body.mk.injEq] at h
  obtain ⟨h1, _⟩ := h
  have e : ((2 * c + 1 : ℕ) : ℚ) * ux = ((2 * c' : ℕ) : ℚ) * ux := by
    push_cast; linarith
  have e' : ((2 * c + 1 : ℕ) : ℚ) = ((2 * c' : ℕ) : ℚ) := mul_right_cancel₀ hx e
  have : 2 * c + 1 = 2 * c' := by exact_mod_cast e'
  omega

theorem getElem?_false_iff {arr : Arr2} {n m : ℕ} (h : HasDims arr n m) (r c : ℕ) :
    (∃ row, arr[r]? = some row ∧ row[c]? = some false) ↔ r < n ∧ c < m ∧ cell arr r c = false := by
  constructor
  · rintro ⟨row, h1, h2⟩
    obtain ⟨hr, rfl⟩ := List.getElem?_eq_some.1 h1
    obtain ⟨hc, h3⟩ := List.getElem?_eq_some.1 h2
    have hl := h.2 _ (List.getElem_mem hr)
    refine ⟨h.1 ▸ hr, hl ▸ hc, ?_⟩
    unfold cell
    rw [List.getD_eq_getElem _ _ hr, List.getD_eq_getElem _ _ hc, h3]
  · rintro ⟨hr, hc, h3⟩
    have hr' : r < arr.length := h.1 ▸ hr
    have hl := h.2 _ (List.getElem_mem hr')
    have hc' : c < arr[r].length := hl ▸ hc
    refine ⟨arr[r], List.getElem?_eq_getElem hr', ?_⟩
    unfold cell at h3
    rw [List.getD_eq_getElem _ _ hr', List.getD_eq_getElem _ _ hc'] at h3
    rw [List.getElem?_eq_getElem hc', h3]

theorem wallCount_append (a b : List Body) : wallCount (a ++ b) = wallCount a + wallCount b := by
  unfold wallCount; simp

theorem wallCount_map_walls (mk : ℕ → ℕ → Body) (hmk : ∀ r c, (mk r c).label = "wall")
    (l : List (ℕ × ℕ)) : wallCount (l.map fun p => mk p.1 p.2) = l.length := by
  unfold wallCount
  induction l with
  | nil => simp
  | cons p l ih => simp [List.countP_cons, ih, hmk]

/-! ## The draws of shuffle and the orderings -/

theorem swapAt_perm {α : Type} (arr : List α) (i j : ℕ) : (swapAt arr i j).Perm arr := by
  unfold swapAt
  cases h1 : arr[i]? with
  | none => exact List.Perm.refl _
  | some a =>
    cases h2 : arr[j]? with
    | none => exact List.Perm.refl _
    | some b =>
      obtain ⟨hi, rfl⟩ := List.getElem?_eq_some.1 h1
      obtain ⟨hj, rfl⟩ := List.getElem?_eq_some.1 h2
      exact swap_perm arr i j hi hj

theorem swapAt_getElem? {α : Type} (arr : List α) (i j : ℕ) (hi : i < arr.length)
    (hj : j < arr.length) (p : ℕ) :
    (swapAt arr i j)[p]? = if p = j then arr[i]? else if p = i then arr[j]? else arr[p]? := by
  unfold swapAt
  rw [List.getElem?_eq_getElem hi, List.getElem?_eq_getElem hj]
  simp only
  rw [List.getElem?_set, List.getElem?_set]
  by_cases h1 : j = p
  · subst h1
    simp [hj]
  · rw [if_neg h1, if_neg (Ne.symm h1)]
    by_cases h2 : i = p
    · subst h2
      simp [hi]
    · rw [if_neg h2, if_neg (Ne.symm h2)]

theorem shuffleWith_step {α : Type} (index : ℕ → ℤ) (n : ℕ) (arr : List α)
    (hn : n < arr.length) (hv : ValidDraws (n + 1) index) :
    shuffleWith index (n + 1) arr = shuffleWith index n (swapAt arr n (index (n + 1)).toNat) := by
  obtain ⟨h0, hj⟩ := hv (n + 1) (by omega) le_rfl
  have hj' : (index (n + 1)).toNat < arr.length := by omega
  rw [shuffleWith_succ index n arr hn h0 hj']
  unfold swapAt
  rw [List.getElem?_eq_getElem hn, List.getElem?_eq_getElem hj']

theorem ValidDraws.of_succ {n : ℕ} {index : ℕ → ℤ} (hv : ValidDraws (n + 1) index) :
    ValidDraws n index := fun k h1 h2 => hv k h1 (by omega)

theorem shuffleWith_congr {α : Type} (index index' : ℕ → ℤ) (n : ℕ) (arr : List α)
    (h : ∀ k, 1 ≤ k → k ≤ n → index k = index' k) :
    shuffleWith index n arr = shuffleWith index' n arr := by
  induction n generalizing arr with
  | zero => rfl
  | succ n ih =>
    rw [shuffleWith, shuffleWith, h (n + 1) (by omega) le_rfl]
    have ih' := fun a => ih a (fun k h1 h2 => h k h1 (by omega))
    split <;> simp [ih']

theorem shuffleWith_getElem?_ge {α : Type} (index : ℕ → ℤ) (n : ℕ) (arr : List α)
    (hn : n ≤ arr.length) (hv : ValidDraws n index) (p : ℕ) (hp : n ≤ p) :
    (shuffleWith index n arr)[p]? = arr[p]? := by
  induction n generalizing arr with
  | zero => rfl
  | succ n ih =>
    obtain ⟨h0, hj⟩ := hv (n + 1) (by omega) le_rfl
    rw [shuffleWith_step index n arr (by omega) hv,
      ih _ (by rw [(swapAt_perm _ _ _).length_eq]; omega) hv.of_succ (by omega),
      swapAt_getElem? arr n _ (by omega) (by omega), if_neg (by omega), if_neg (by omega)]

theorem shuffleWith_getElem?_last {α : Type} (index : ℕ → ℤ) (n : ℕ) (arr : List α)
    (hn : n < arr.length) (hv : ValidDraws (n + 1) index) :
    (shuffleWith index (n + 1) arr)[n]? = arr[(index (n + 1)).toNat]? := by
  obtain ⟨h0, hj⟩ := hv (n + 1) (by omega) le_rfl
  rw [shuffleWith_step index n arr hn hv,
    shuffleWith_getElem?_ge index n _ (by rw [(swapAt_perm _ _ _).length_eq]; omega)
      hv.of_succ n le_rfl, swapAt_getElem? arr n _ hn (by omega)]
  by_cases h : n = (index (n + 1)).toNat
  · rw [if_pos h, ← h]
  · rw [if_neg h, if_pos rfl]

theorem shuffleWith_injective {α : Type} (n : ℕ) :
    ∀ (arr : List α) (index index' : ℕ → ℤ), arr.Nodup → n ≤ arr.length →
      ValidDraws n index → ValidDraws n index' →
      shuffleWith index n arr = shuffleWith index' n arr →
      ∀ k, 1 ≤ k → k ≤ n → index k = index' k := by
  induction n with
  | zero => intro _ _ _ _ _ _ _ _ k h1 h2; omega
  | succ n ih =>
    intro arr index index' hnd hn hv hv' heq
    obtain ⟨h0, hj⟩ := hv (n + 1) (by omega) le_rfl
    obtain ⟨h0', hj'⟩ := hv' (n + 1) (by omega) le_rfl
    have e1 := shuffleWith_getElem?_last index n arr (by omega) hv
    have e2 := shuffleWith_getElem?_last index' n arr (by omega) hv'
    rw [heq, e2] at e1
    have hlt : (index (n + 1)).toNat < arr.length := by omega
    have hlt' : (index' (n + 1)).toNat < arr.length := by omega
    rw [List.getElem?_eq_getElem hlt, List.getElem?_eq_getElem hlt', Option.some.injEq] at e1
    have hidx : (index' (n + 1)).toNat = (index (n + 1)).toNat :=
      (List.Nodup.getElem_inj_iff hnd).1 e1
    have hlast : index (n + 1) = index' (n + 1) := by omega
    rw [shuffleWith_step index n arr (by omega) hv, shuffleWith_step index' n arr (by omega) hv',
      ← hlast] at heq
    have hrec := ih _ index index' ((swapAt_perm arr n _).nodup_iff.2 hnd)
      (by rw [(swapAt_perm _ _ _).length_eq]; omega) hv.of_succ hv'.of_succ heq
    intro k h1 h2
    by_cases hk : k = n + 1
    · rw [hk]; exact hlast
    · exact hrec k h1 (by omega)

theorem shuffleWith_surjective {α : Type} (n : ℕ) :
    ∀ (arr l : List α), arr.Nodup → n ≤ arr.length → l.Perm arr →
      (∀ p, n ≤ p → l[p]? = arr[p]?) →
      ∃ index, ValidDraws n index ∧ shuffleWith index n arr = l := by
  induction n with
  | zero =>
    intro arr l _ _ _ hagree
    refine ⟨fun _ => 0, fun k h1 h2 => by omega, ?_⟩
    exact (List.ext_getElem? fun p => hagree p (Nat.zero_le _)).symm
  | succ n ih =>
    intro arr l hnd hn hperm hagree
    have hll : l.length = arr.length := hperm.length_eq
    have hnl : n < l.length := by omega
    have hmem : l[n] ∈ arr := hperm.subset (List.getElem_mem hnl)
    obtain ⟨j, hj, hjx⟩ := List.getElem_of_mem hmem
    have hjn : j ≤ n := by
      by_contra hcon
      have h1 := hagree j (by omega)
      rw [List.getElem?_eq_getElem (by omega), List.getElem?_eq_getElem hj,
        Option.some.injEq, hjx] at h1
      have := (List.Nodup.getElem_inj_iff (hperm.nodup_iff.2 hnd)).1 h1
      omega
    have hlen' : (swapAt arr n j).length = arr.length := (swapAt_perm _ _ _).length_eq
    obtain ⟨index0, hv0, hs0⟩ := ih (swapAt arr n j) l ((swapAt_perm arr n j).nodup_iff.2 hnd)
      (by omega) (hperm.trans (swapAt_perm arr n j).symm)
      (by
        intro p hp
        rw [swapAt_getElem? arr n j (by omega) hj]
        by_cases hpn : p = n
        · subst hpn
          by_cases hpj : p = j
          · subst hpj
            rw [if_pos rfl, List.getElem?_eq_getElem hnl, List.getElem?_eq_getElem hj, hjx]
          · rw [if_neg hpj, if_pos rfl, List.getElem?_eq_getElem hnl,
              List.getElem?_eq_getElem hj, hjx]
        · rw [if_neg (by omega), if_neg hpn]
          exact hagree p (by omega))
    have hvalid : ValidDraws (n + 1) (Function.update index0 (n + 1) (j : ℤ)) := by
      intro k h1 h2
      by_cases hk : k = n + 1
      · subst hk
        rw [Function.update_same]
        constructor <;> omega
      · rw [Function.update_noteq hk]
        exact hv0 k h1 (by omega)
    refine ⟨Function.update index0 (n + 1) (j : ℤ), hvalid, ?_⟩
    rw [shuffleWith_step _ n arr (by omega) hvalid, Function.update_same, Int.toNat_ofNat,
      ← hs0]
    exact shuffleWith_congr _ _ n _ (fun k _ h2 => Function.update_noteq (by omega) _ _)

theorem drawIndex_valid (rand : ℕ → ℚ) (hrand : ∀ n, 0 ≤ rand n ∧ rand n < 1) (calls n : ℕ) :
    ValidDraws n (drawIndex rand calls n) := by
  intro k h1 _
  obtain ⟨i, hi, hik⟩ := floor_draw (rand (calls + (n - k))) k (hrand _).1 (hrand _).2 h1
  unfold drawIndex
  simp only [Int.cast_natCast] at hi
  rw [hi]
  constructor <;> omega

/-! ## The realised maze is the graph of open passages -/

theorem verticalWall_mem_world {ux uy width height : ℚ} (hx : ux ≠ 0) (hy : uy ≠ 0)
    {H V : Arr2} {n m : ℕ} (hV : HasDims V n m) {bodies : List Body}
    (hg : ∀ b ∈ bodies, b.label ≠ "wall") (r c : ℕ) (hr : r < n) (hc : c < m) :
    verticalWall ux uy r c ∈
        addMazeWalls ux uy H V (bodies ++ boundaryWalls width height) ++
          [goalBody width height ux uy] ++ [ballBody ux uy] ↔
      cell V r c = false := by
  rw [addMazeWalls_eq]
  simp only [List.mem_append, List.mem_map, List.mem_singleton]
  constructor
  · rintro (((((hb | hbd) | ⟨p, _, he⟩) | ⟨p, hp, he⟩) | hgoal) | hball)
    · exact absurd rfl (hg _ hb)
    · simp [boundaryWalls, verticalWall, Bodies.rectangle, defaultRectangleLabel] at hbd
    · exact absurd he.symm (verticalWall_ne_horizontalWall hx _ _ _ _)
    · obtain ⟨e1, e2⟩ := verticalWall_inj hx hy he
      have hp' : (r, c) ∈ closedEntries V := by
        have : p = (r, c) := Prod.ext e1 e2
        rwa [this] at hp
      exact ((getElem?_false_iff hV r c).1 ((mem_closedEntries V r c).1 hp')).2.2
    · simp [goalBody, verticalWall, Bodies.rectangle] at hgoal
    · simp [ballBody, verticalWall, Bodies.rectangle, Bodies.circle] at hball
  · intro h
    refine Or.inl (Or.inl (Or.inr ⟨(r, c), ?_, rfl⟩))
    exact (mem_closedEntries V r c).2 ((getElem?_false_iff hV r c).2 ⟨hr, hc, h⟩)

theorem horizontalWall_mem_world {ux uy width height : ℚ} (hx : ux ≠ 0) (hy : uy ≠ 0)
    {H V : Arr2} {n m : ℕ} (hH : HasDims H n m) {bodies : List Body}
    (hg : ∀ b ∈ bodies, b.label ≠ "wall") (r c : ℕ) (hr : r < n) (hc : c < m) :
    horizontalWall ux uy r c ∈
        addMazeWalls ux uy H V (bodies ++ boundaryWalls width height) ++
          [goalBody width height ux uy] ++ [ballBody ux uy] ↔
      cell H r c = false := by
  rw [addMazeWalls_eq]
  simp only [List.mem_append, List.mem_map, List.mem_singleton]
  constructor
  · rintro (((((hb | hbd) | ⟨p, hp, he⟩) | ⟨p, _, he⟩) | hgoal) | hball)
    · exact absurd rfl (hg _ hb)
    · simp [boundaryWalls, horizontalWall, Bodies.rectangle, defaultRectangleLabel] at hbd
    · obtain ⟨e1, e2⟩ := horizontalWall_inj hx hy he
      have hp' : (r, c) ∈ closedEntries H := by
        have : p = (r, c) := Prod.ext e1 e2
        rwa [this] at hp
      exact ((getElem?_false_iff hH r c).1 ((mem_closedEntries H r c).1 hp')).2.2
    · exact absurd he (verticalWall_ne_horizontalWall hx _ _ _ _)
    · simp [goalBody, horizontalWall, Bodies.rectangle] at hgoal
    · simp [ballBody, horizontalWall, Bodies.rectangle, Bodies.circle] at hball
  · intro h
    refine Or.inl (Or.inl (Or.inl (Or.inr ⟨(r, c), ?_, rfl⟩)))
    exact (mem_closedEntries H r c).2 ((getElem?_false_iff hH r c).2 ⟨hr, hc, h⟩)

theorem realizedGraph_eq_mazeGraph {R C : ℕ} {ux uy width height : ℚ} (hx : ux ≠ 0)
    (hy : uy ≠ 0) {H V : Arr2} (hV : HasDims V R (C - 1)) (hH : HasDims H (R - 1) C)
    {bodies : List Body} (hg : ∀ b ∈ bodies, b.label ≠ "wall") :
    realizedGraph R C ux uy
        (addMazeWalls ux uy H V (bodies ++ boundaryWalls width height) ++
          [goalBody width height ux uy] ++ [ballBody ux uy]) =
      mazeGraph R C V H := by
  unfold realizedGraph mazeGraph
  congr 1
  funext p q
  apply propext
  apply or_congr
  · apply and_congr_right; intro h1
    apply and_congr_right; intro h2
    have hc : (p.2 : ℕ) < C - 1 := by have := q.2.isLt; omega
    rw [verticalWall_mem_world hx hy hV hg _ _ p.1.isLt hc]
    simp
  · apply and_congr_right; intro h1
    apply and_congr_right; intro h2
    have hr : (p.1 : ℕ) < R - 1 := by have := q.1.isLt; omega
    rw [horizontalWall_mem_world hx hy hH hg _ _ hr p.2.isLt]
    simp

/-! ## Allocation -/

theorem newArr2_ok (n m : ℤ) (hn : 0 ≤ n) (hm : 0 ≤ m) : ∃ a, newArr2 n m = .ok a := by
  unfold newArr2
  rw [if_neg (by omega)]
  by_cases h0 : n = 0
  · exact ⟨_, if_pos h0⟩
  · rw [if_neg h0, if_neg (by omega)]
    exact ⟨_, rfl⟩

/-! ## Counting walls -/

theorem wallCount_boundaryWalls (width height : ℚ) : wallCount (boundaryWalls width height) = 0 := by
  simp [wallCount, boundaryWalls, Bodies.rectangle, defaultRectangleLabel, List.countP_cons]

theorem wallCount_goal (width height ux uy : ℚ) :
    wallCount [goalBody width height ux uy] = 0 := by
  simp [wallCount, goalBody, Bodies.rectangle, List.countP_cons]

theorem wallCount_ball (ux uy : ℚ) : wallCount [ballBody ux uy] = 0 := by
  simp [wallCount, ballBody, Bodies.circle, List.countP_cons]

theorem wallCount_world (ux uy width height : ℚ) (H V : Arr2) (bodies : List Body) :
    wallCount (addMazeWalls ux uy H V (bodies ++ boundaryWalls width height) ++
        [goalBody width height ux uy] ++ [ballBody ux uy]) =
      wallCount bodies + ((closedEntries H).length + (closedEntries V).length) := by
  rw [addMazeWalls_eq]
  simp only [wallCount_append, wallCount_boundaryWalls, wallCount_goal, wallCount_ball]
  rw [wallCount_map_walls (horizontalWall ux uy) (fun _ _ => rfl),
    wallCount_map_walls (verticalWall ux uy) (fun _ _ => rfl)]
  omega

theorem closed_count_arith {r c tv th cv ch : ℕ} (hv : tv + cv = (r + 1) * (c + 1 - 1))
    (hh : th + ch = (r + 1 - 1) * (c + 1)) (ht : tv + th = (r + 1) * (c + 1) - 1) :
    ch + cv = (r + 1 - 1) * (c + 1 - 1) := by
  simp only [Nat.add_sub_cancel] at hv hh ⊢
  have e1 : (r + 1) * c = r * c + c := by ring
  have e2 : r * (c + 1) = r * c + r := by ring
  have e3 : (r + 1) * (c + 1) = r * c + r + c + 1 := by ring
  rw [e1] at hv; rw [e2] at hh; rw [e3] at ht
  omega

/-! ## The collision handler -/

theorem collisionStart_foldl (pairs : List (Body × Body)) (g : Game) (k : ℕ) :
    (pairs.foldl
      (fun s collision =>
        if winCondition collision.1 collision.2 then (winBranch s.1, s.2 + 1) else s)
      (g, k)).2 = k + pairs.countP fun p => winCondition p.1 p.2 := by
  induction pairs generalizing g k with
  | nil => simp
  | cons p ps ih =>
    rw [List.foldl_cons]
    by_cases h : winCondition p.1 p.2 = true
    · rw [if_pos h, ih, List.countP_cons, if_pos h]
      simp only; omega
    · rw [if_neg h, ih, List.countP_cons, if_neg h]
      omega

theorem collisionStart_count (pairs : List (Body × Body)) (g : Game) :
    (collisionStart pairs g).2 = pairs.countP fun p => winCondition p.1 p.2 := by
  unfold collisionStart
  rw [collisionStart_foldl]; omega

theorem winCondition_iff (bodyA bodyB : Body) :
    winCondition bodyA bodyB = true ↔
      (bodyA.label = "ball" ∨ bodyA.label = "goal") ∧
      (bodyB.label = "ball" ∨ bodyB.label = "goal") := by
  simp [winCondition, labels]

/-! ## Goal, ball and small grids -/

theorem hasDims_one_one {grid : Arr2} (hd : HasDims grid 1 1) :
    grid = [[cell grid 0 0]] := by
  obtain ⟨h1, h2⟩ := hd
  rcases grid with _ | ⟨row, _ | ⟨row2, rest⟩⟩
  · simp at h1
  · have := h2 row (List.mem_cons_self _ _)
    rcases row with _ | ⟨b, _ | ⟨b2, rest⟩⟩
    · simp at this
    · simp [cell]
    · simp at this
  · simp at h1

theorem hasDims_one_zero {V : Arr2} (hd : HasDims V 1 0) : V = [[]] := by
  obtain ⟨h1, h2⟩ := hd
  rcases V with _ | ⟨row, _ | ⟨row2, rest⟩⟩
  · simp at h1
  · have := h2 row (List.mem_cons_self _ _)
    rw [List.length_eq_zero] at this
    rw [this]
  · simp at h1

theorem hasDims_zero {H : Arr2} {m : ℕ} (hd : HasDims H 0 m) : H = [] :=
  List.length_eq_zero.1 hd.1

theorem closedEntries_nil : closedEntries [] = [] := rfl

theorem closedEntries_single_nil : closedEntries [[]] = [] := rfl

theorem addMazeWalls_length (ux uy : ℚ) (H V : Arr2) (bodies : List Body) :
    (addMazeWalls ux uy H V bodies).length = bodies.length + (countFalse H + countFalse V) := by
  rw [addMazeWalls_eq]
  simp only [List.length_append, List.length_map, length_closedEntries, countFalse]
  omega

theorem createMaze_of_error {rand : ℕ → ℚ} {cV cH : ℤ} (width height : ℚ) {fuel : ℕ}
    {g g2 : Game} {e : Err}
    (h : generate rand cV cH fuel
      { g with bodies := g.bodies ++ boundaryWalls width height } = (g2, some e)) :
    createMaze rand cV cH width height fuel g = (g2, some e) := by
  unfold createMaze
  simp only [h]

theorem generate_rangeError (rand : ℕ → ℚ) (cV cH : ℤ) (h : cV ≤ 0 ∨ cH ≤ 0) (fuel : ℕ)
    (g : Game) :
    (generate rand cV cH fuel g).2 = some Err.rangeError ∧
    (generate rand cV cH fuel g).1.bodies = g.bodies ∧
    (generate rand cV cH fuel g).1.horizontals = g.horizontals ∧
    (generate rand cV cH fuel g).1.currentBall = g.currentBall ∧
    (generate rand cV cH fuel g).1.gravityY = g.gravityY ∧
    (generate rand cV cH fuel g).1.winnerHidden = g.winnerHidden := by
  unfold generate
  by_cases h1 : cH < 0
  · simp [newArr2, h1]
  · have e1 : ∃ a, newArr2 cH cH = .ok a := newArr2_ok cH cH (by omega) (by omega)
    obtain ⟨a, ha⟩ := e1
    rw [ha]
    simp only
    by_cases h2 : cV < 0
    · simp [newArr2, h2]
    · by_cases h3 : cV = 0
      · subst h3
        simp [newArr2]
      · have h4 : cH = 0 := by omega
        subst h4
        simp [newArr2, h2, h3]

/-! ## The traced run -/

theorem Followed.append {ws1 ws2 : List Write} (h1 : Followed ws1) (h2 : Followed ws2) :
    Followed (ws1 ++ ws2) := by
  induction ws1 with
  | nil => exact h2
  | cons w ws ih =>
    cases w with
    | visit r c => exact ih h1
    | carve r c nr nc d =>
      obtain ⟨⟨rest', hrest⟩, hf⟩ := h1
      refine ⟨⟨rest' ++ ws2, ?_⟩, ih hf⟩
      rw [hrest]; rfl

theorem visitCount_append (a b : List Write) :
    visitCount (a ++ b) = visitCount a + visitCount b := by
  unfold visitCount; simp

theorem carvesInto_append (r c : ℤ) (a b : List Write) :
    carvesInto r c (a ++ b) = carvesInto r c a + carvesInto r c b := by
  unfold carvesInto; simp

theorem LoopTrace.nil (R C : ℕ) (g : Arr2) : LoopTrace R C g g [] [] := by
  refine ⟨fun p hp => absurd hp (List.not_mem_nil p), fun w hw => absurd hw (List.not_mem_nil w),
    ?_, trivial, fun a b => rfl, by simp [visitCount]⟩
  intro a b
  cases h : cell g a b <;> simp

theorem LoopTrace.read {R C : ℕ} {g g' : Arr2} {rs : List (ℤ × ℤ)} {ws : List Write}
    (h : LoopTrace R C g g' rs ws) (p : ℤ × ℤ) (hp : 0 ≤ p.1 ∧ p.1 < R ∧ 0 ≤ p.2 ∧ p.2 < C) :
    LoopTrace R C g g' (p :: rs) ws := by
  refine ⟨?_, h.writes_ok, h.visits, h.followed, h.carves, h.total⟩
  intro q hq
  rcases List.mem_cons.1 hq with rfl | hq
  · exact hp
  · exact h.reads_ok q hq

theorem LoopTrace.carve {R C : ℕ} (hRC : R ≤ C) {g g2 g' : Arr2} (hd : HasDims g C C)
    {u1 u2 : ℤ} {a b : ℕ} (ha : a < R) (hb : b < C) {d : Direction}
    (hok : WriteOK R C (Write.carve u1 u2 a b d)) (hf : cell g a b = false)
    (hm1 : Mono g g2) (hv2 : cell g2 a b = true) (hm2 : Mono g2 g')
    {rs1 rs2 : List (ℤ × ℤ)} {ws1 ws2 : List Write}
    (h1 : LoopTrace R C (setCell g a b true) g2 rs1 ws1) (h2 : LoopTrace R C g2 g' rs2 ws2) :
    LoopTrace R C g g' (((a : ℤ), (b : ℤ)) :: ((a : ℤ), (b : ℤ)) :: (rs1 ++ rs2))
      (Write.carve u1 u2 a b d :: Write.visit a b :: (ws1 ++ ws2)) := by
  have haC : a < C := lt_of_lt_of_le ha hRC
  have hset : ∀ x y, cell (setCell g a b true) x y =
      if x = a ∧ y = b then true else cell g x y := fun x y => cell_setCell hd haC hb true x y
  have hp : (0 : ℤ) ≤ ((a : ℤ), (b : ℤ)).1 ∧ ((a : ℤ), (b : ℤ)).1 < R ∧
      (0 : ℤ) ≤ ((a : ℤ), (b : ℤ)).2 ∧ ((a : ℤ), (b : ℤ)).2 < C := by
    simp only; omega
  have hcount : ∀ x y : ℕ, (Write.carve u1 u2 a b d :: Write.visit a b :: (ws1 ++ ws2)).count
      (Write.visit x y) = (if x = a ∧ y = b then 1 else 0) +
        (ws1.count (Write.visit x y) + ws2.count (Write.visit x y)) := by
    intro x y
    rw [List.count_cons, List.count_cons, List.count_append]
    by_cases hxy : x = a ∧ y = b
    · obtain ⟨rfl, rfl⟩ := hxy
      simp
      omega
    · have hne : ¬ (Write.visit (a : ℤ) (b : ℤ) = Write.visit (x : ℤ) (y : ℤ)) := by
        intro he
        simp only [Write.visit.injEq] at he
        exact hxy ⟨by omega, by omega⟩
      simp [hxy, hne]
  refine ⟨?_, ?_, ?_, ?_, ?_, ?_⟩
  · intro q hq
    rcases List.mem_cons.1 hq with rfl | hq
    · exact hp
    · rcases List.mem_cons.1 hq with rfl | hq
      · exact hp
      · rcases List.mem_append.1 hq with hq | hq
        · exact h1.reads_ok q hq
        · exact h2.reads_ok q hq
  · intro w hw
    rcases List.mem_cons.1 hw with rfl | hw
    · exact hok
    · rcases List.mem_cons.1 hw with rfl | hw
      · show (0 : ℤ) ≤ (a : ℤ) ∧ (a : ℤ) < R ∧ (0 : ℤ) ≤ (b : ℤ) ∧ (b : ℤ) < C
        omega
      · rcases List.mem_append.1 hw with hw | hw
        · exact h1.writes_ok w hw
        · exact h2.writes_ok w hw
  · intro x y
    rw [hcount, h1.visits, h2.visits, hset]
    have m1 := hm1 x y
    have m2 := hm2 x y
    by_cases hxy : x = a ∧ y = b
    · obtain ⟨rfl, rfl⟩ := hxy
      have hv' := hm2 _ _ hv2
      simp [hf, hv2, hv']
    · rw [if_neg hxy, if_neg hxy]
      cases hx : cell g x y <;> cases hy : cell g2 x y <;> cases hz : cell g' x y <;>
        simp_all
  · exact ⟨⟨ws1 ++ ws2, rfl⟩, h1.followed.append h2.followed⟩
  · intro x y
    rw [hcount, ← h1.carves, ← h2.carves]
    have : carvesInto x y (Write.carve u1 u2 a b d :: Write.visit a b :: (ws1 ++ ws2)) =
        (if x = a ∧ y = b then 1 else 0) + (carvesInto x y ws1 + carvesInto x y ws2) := by
      rw [← carvesInto_append]
      unfold carvesInto
      rw [List.countP_cons, List.countP_cons]
      by_cases hxy : x = a ∧ y = b
      · obtain ⟨rfl, rfl⟩ := hxy
        simp
        omega
      · have hne : ¬ ((a : ℤ) = (x : ℤ) ∧ (b : ℤ) = (y : ℤ)) := by
          intro he; exact hxy ⟨by omega, by omega⟩
        simp [hxy, hne]
        exact fun e1 e2 => hxy ⟨e1.symm, e2.symm⟩
    exact this
  · have e1 := h1.total
    have e2 := h2.total
    rw [visitedCount_setCell hRC hd (⟨a, ha⟩, ⟨b, hb⟩) hf] at e1
    have : visitCount (Write.carve u1 u2 a b d :: Write.visit a b :: (ws1 ++ ws2)) =
        1 + (visitCount ws1 + visitCount ws2) := by
      rw [← visitCount_append]
      unfold visitCount
      rw [List.countP_cons, List.countP_cons]
      simp
      omega
    rw [this]
    omega

/-! ## The trace of a run -/

theorem hasDims_of_setCell {a : Arr2} {n m r c : ℕ} {v : Bool}
    (hd : HasDims (setCell a r c v) n m) : HasDims a n m := by
  have hlen : a.length = n := by simpa [setCell] using hd.1
  refine ⟨hlen, ?_⟩
  intro row hrow
  obtain ⟨i, hi, rfl⟩ := List.getElem_of_mem hrow
  by_cases hir : i = r
  · subst hir
    have := hd.2 ((a.getD i []).set c v)
      (by
        simp only [setCell]
        exact List.mem_iff_getElem.2 ⟨i, by simpa using hi, by simp⟩)
    simpa [List.getD_eq_getElem?_getD, List.getElem?_eq_getElem hi] using this
  · exact hd.2 _ (by
      simp only [setCell]
      exact List.mem_iff_getElem.2 ⟨i, by simpa using hi, by
        rw [List.getElem_set_ne (Ne.symm hir)]⟩)

theorem visitNeighborsTraced_spec {R C : ℕ} (hRC : R ≤ C) (f : ℕ)
    (step : ℤ → ℤ → Maze → Maze × Option Err)
    (stepT : ℤ → ℤ → Maze × Trace → (Maze × Trace) × Option Err)
    (hstep : StepSpec R C f step) (hT : TracedStepSpec R C f step stepT)
    (r c : ℕ) (hr : r < R) (hc : c < C) :
    ∀ (L : List (ℤ × ℤ × Direction)) (m : Maze) (t : Trace),
      (∀ x ∈ L, x ∈ neighborsOf r c) →
      Inv R C m.grid m.verticals m.horizontals → cell m.grid r c = true →
      R * C ≤ f + visitedCount R C m.grid →
      ∃ m' rs ws,
        visitNeighborsTraced stepT R C r c L (m, t) =
          ((m', { reads := t.reads ++ rs, writes := t.writes ++ ws }), none) ∧
        visitNeighbors step R C r c L m = (m', none) ∧
        Inv R C m'.grid m'.verticals m'.horizontals ∧ Mono m.grid m'.grid ∧
        LoopTrace R C m.grid m'.grid rs ws := by
  intro L
  induction L with
  | nil =>
    intro m t _ hInv _ _
    exact ⟨m, [], [], by simp [visitNeighborsTraced], rfl, hInv, fun _ _ h => h,
      LoopTrace.nil R C m.grid⟩
  | cons x rest ih =>
    intro m t hL hInv hvis hfuel
    obtain ⟨nr, nc, d⟩ := x
    have hrest : ∀ x ∈ rest, x ∈ neighborsOf r c := fun x hx => hL x (List.mem_cons_of_mem _ hx)
    have hx : (nr, nc, d) ∈ neighborsOf r c := hL _ (List.mem_cons_self _ _)
    by_cases hb : nr < 0 ∨ nr ≥ (R : ℤ) ∨ nc < 0 ∨ nc ≥ (C : ℤ)
    · obtain ⟨m', rs, ws, h1, h2, h3, h4, h5⟩ := ih m t hrest hInv hvis hfuel
      refine ⟨m', rs, ws, ?_, ?_, h3, h4, h5⟩
      · rw [visitNeighborsTraced, if_pos hb]; exact h1
      · rw [visitNeighbors, if_pos hb]; exact h2
    · have hnr : 0 ≤ nr := by omega
      have hnc : 0 ≤ nc := by omega
      lift nr to ℕ using hnr
      lift nc to ℕ using hnc
      have hr' : nr < R := by omega
      have hc' : nc < C := by omega
      have hread : read2 m.grid (nr : ℤ) (nc : ℤ) = some (cell m.grid nr nc) :=
        read2_cast _ _ _ (by rw [hInv.grid_dims.1]; omega)
      have hp : (0 : ℤ) ≤ ((nr : ℤ), (nc : ℤ)).1 ∧ ((nr : ℤ), (nc : ℤ)).1 < R ∧
          (0 : ℤ) ≤ ((nr : ℤ), (nc : ℤ)).2 ∧ ((nr : ℤ), (nc : ℤ)).2 < C := by
        simp only; omega
      cases hv : cell m.grid nr nc with
      | true =>
        obtain ⟨m', rs, ws, h1, h2, h3, h4, h5⟩ :=
          ih m { t with reads := t.reads ++ [((nr : ℤ), (nc : ℤ))] } hrest hInv hvis hfuel
        refine ⟨m', ((nr : ℤ), (nc : ℤ)) :: rs, ws, ?_, ?_, h3, h4, h5.read _ hp⟩
        · rw [visitNeighborsTraced, if_neg hb]
          simp only [hread, hv]
          rw [h1]
          simp
        · rw [visitNeighbors, if_neg hb, hread, hv]; exact h2
      | false =>
        obtain ⟨m1, ho, hg1, _, hInv1⟩ := openPassage_spec hRC hInv hr hc hr' hc' hvis hv hx
        obtain ⟨m2', hs', hInv2, hmono2, hvis2, _⟩ :=
          hstep nr nc m1 hr' hc' (by rw [hg1]; exact hv) (by rw [hg1]; exact hInv1)
            (by rw [hg1]; exact hfuel)
        obtain ⟨m2, rs1, ws1, hsT, hs, hLT1⟩ :=
          hT nr nc m1
            { reads := t.reads ++ [((nr : ℤ), (nc : ℤ))],
              writes := t.writes ++ [Write.carve r c nr nc d] }
            hr' hc' (by rw [hg1]; exact hv) (by rw [hg1]; exact hInv1)
            (by rw [hg1]; exact hfuel)
        have hm : m2' = m2 := by
          have := hs'.symm.trans hs
          exact (Prod.mk.inj this).1
        subst hm
        rw [hg1] at hmono2 hLT1
        obtain ⟨m', rs2, ws2, h1, h2, h3, h4, h5⟩ :=
          ih m2' { reads := (t.reads ++ [((nr : ℤ), (nc : ℤ))]) ++ ((nr : ℤ), (nc : ℤ)) :: rs1,
                   writes := (t.writes ++ [Write.carve r c nr nc d]) ++ Write.visit nr nc :: ws1 }
            hrest hInv2 (hmono2 _ _ hvis)
            (le_trans hfuel (Nat.add_le_add_left (visitedCount_mono hmono2) _))
        have hok : WriteOK R C (Write.carve r c nr nc d) := by
          refine ⟨hx, ?_⟩
          omega
        refine ⟨m', ((nr : ℤ), (nc : ℤ)) :: ((nr : ℤ), (nc : ℤ)) :: (rs1 ++ rs2),
          Write.carve r c nr nc d :: Write.visit nr nc :: (ws1 ++ ws2), ?_, ?_, h3,
          fun a b h => h4 _ _ (hmono2 _ _ h),
          LoopTrace.carve hRC hInv.grid_dims hr' hc' hok hv hmono2 hvis2 h4 hLT1 h5⟩
        · rw [visitNeighborsTraced, if_neg hb]
          simp only [hread, hv, ho, hsT]
          rw [h1]
          simp
        · rw [visitNeighbors, if_neg hb, hread, hv]
          simp only [ho, hs]
          exact h2

theorem stepThroughCellTraced_spec {R C : ℕ} (hRC : R ≤ C) (rand : ℕ → ℚ) :
    ∀ f, TracedStepSpec R C f (stepThroughCell rand R C f) (stepThroughCellTraced rand R C f) := by
  intro f
  induction f with
  | zero =>
    intro r c m t hr hc hv _ hfuel
    have := visitedCount_lt (R := R) (C := C) (g := m.grid) (⟨r, hr⟩, ⟨c, hc⟩) hv
    omega
  | succ f ih =>
    intro r c m t hr hc hv hInv hfuel
    have hdm : HasDims m.grid C C := hasDims_of_setCell hInv.grid_dims
    have hrC : r < C := lt_of_lt_of_le hr hRC
    have hperm := shuffle_perm rand m.calls (neighborsOf r c)
    obtain ⟨m', rs, ws, h1, h2, _, _, h5⟩ := visitNeighborsTraced_spec hRC f _ _
      (stepThroughCell_spec hRC rand f) ih r c hr hc
      (shuffle rand m.calls (neighborsOf r c)).1
      { m with grid := setCell m.grid r c true,
               calls := (shuffle rand m.calls (neighborsOf r c)).2 }
      { reads := t.reads ++ [((r : ℤ), (c : ℤ))],
        writes := t.writes ++ [Write.visit r c] }
      (fun x hx => hperm.mem_iff.1 hx) hInv
      (by simp [cell_setCell hdm hrC hc])
      (by
        have := visitedCount_setCell hRC hdm (⟨r, hr⟩, ⟨c, hc⟩) hv
        simp only at this ⊢
        omega)
    refine ⟨m', rs, ws, ?_, ?_, h5⟩
    · rw [stepThroughCellTraced]
      simp only [read2_cast _ _ _ (show r < m.grid.length by rw [hdm.1]; exact hrC), hv,
        write2_cast hdm hrC hc]
      simp only [neighborsOf] at h1
      rw [h1]
      simp
    · rw [stepThroughCell, read2_cast _ _ _ (show r < m.grid.length by rw [hdm.1]; exact hrC), hv]
      simp only
      rw [write2_cast hdm hrC hc]
      exact h2

theorem stepThroughCellTraced_erase (rand : ℕ → ℚ) (cV cH : ℤ) :
    ∀ (fuel : ℕ) (row column : ℤ) (m : Maze) (t : Trace),
      ((stepThroughCellTraced rand cV cH fuel row column (m, t)).1.1,
        (stepThroughCellTraced rand cV cH fuel row column (m, t)).2) =
      stepThroughCell rand cV cH fuel row column m := by
  intro fuel
  induction fuel with
  | zero => intro row column m t; rfl
  | succ fuel ih =>
    intro row column m t
    have hloop : ∀ (L : List (ℤ × ℤ × Direction)) (m : Maze) (t : Trace),
        ((visitNeighborsTraced (stepThroughCellTraced rand cV cH fuel) cV cH row column L
            (m, t)).1.1,
          (visitNeighborsTraced (stepThroughCellTraced rand cV cH fuel) cV cH row column L
            (m, t)).2) =
        visitNeighbors (stepThroughCell rand cV cH fuel) cV cH row column L m := by
      intro L
      induction L with
      | nil => intro m t; rfl
      | cons x rest ihL =>
        intro m t
        obtain ⟨nr, nc, d⟩ := x
        rw [visitNeighborsTraced, visitNeighbors]
        by_cases hb : nr < 0 ∨ nr ≥ cV ∨ nc < 0 ∨ nc ≥ cH
        · rw [if_pos hb, if_pos hb]; exact ihL m t
        · rw [if_neg hb, if_neg hb]
          cases hread : read2 m.grid nr nc with
          | none => rfl
          | some v =>
            cases v with
            | true => exact ihL m _
            | false =>
              cases ho : openPassage m row column d with
              | none => rfl
              | some m1 =>
                simp only
                have he := ih nr nc m1
                  { reads := t.reads ++ [(nr, nc)],
                    writes := t.writes ++ [Write.carve row column nr nc d] }
                generalize stepThroughCellTraced rand cV cH fuel nr nc
                  (m1, { reads := t.reads ++ [(nr, nc)],
                         writes := t.writes ++ [Write.carve row column nr nc d] }) = res at he ⊢
                obtain ⟨⟨m2, t2⟩, o⟩ := res
                simp only at he
                rw [← he]
                cases o with
                | some e => rfl
                | none => exact ihL m2 t2
    rw [stepThroughCellTraced, stepThroughCell]
    cases hread : read2 m.grid row column with
    | none => rfl
    | some v =>
      cases v with
      | true => rfl
      | false =>
        cases hw : write2 m.grid row column true with
        | none => rfl
        | some g => exact hloop _ _ _

/-! ## Traces of the whole run -/

theorem Followed.split {pre post : List Write} {u1 u2 w1 w2 : ℤ} {d : Direction}
    (h : Followed (pre ++ Write.carve u1 u2 w1 w2 d :: post)) :
    ∃ post', post = Write.visit w1 w2 :: post' := by
  induction pre with
  | nil => exact h.1
  | cons w ws ih =>
    cases w with
    | visit r c => exact ih h
    | carve r c nr nc d' => exact ih h.2

theorem openPassage_passageIndex (m : Maze) (row column : ℤ) (d : Direction) :
    openPassage m row column d =
      if (passageIndex row column d).1 = true then
        (write2 m.verticals (passageIndex row column d).2.1 (passageIndex row column d).2.2
          true).map fun v => { m with verticals := v }
      else
        (write2 m.horizontals (passageIndex row column d).2.1 (passageIndex row column d).2.2
          true).map fun h => { m with horizontals := h } := by
  cases d <;> rfl

theorem passageIndex_inRange {R C : ℕ} {r c nr nc : ℤ} {d : Direction}
    (h : WriteOK R C (Write.carve r c nr nc d)) :
    if (passageIndex r c d).1 = true then
      0 ≤ (passageIndex r c d).2.1 ∧ (passageIndex r c d).2.1 < R ∧
      0 ≤ (passageIndex r c d).2.2 ∧ (passageIndex r c d).2.2 < (C : ℤ) - 1
    else
      0 ≤ (passageIndex r c d).2.1 ∧ (passageIndex r c d).2.1 < (R : ℤ) - 1 ∧
      0 ≤ (passageIndex r c d).2.2 ∧ (passageIndex r c d).2.2 < C := by
  obtain ⟨hmem, h1, h2, h3, h4, h5, h6, h7, h8⟩ := h
  simp only [neighborsOf, List.mem_cons, Prod.mk.injEq, List.mem_singleton, List.not_mem_nil,
    or_false] at hmem
  rcases hmem with ⟨e1, e2, rfl⟩ | ⟨e1, e2, rfl⟩ | ⟨e1, e2, rfl⟩ | ⟨e1, e2, rfl⟩ <;>
    simp only [passageIndex, if_true, Bool.false_eq_true, if_false] <;> omega

theorem visitedCount_fresh (R C : ℕ) :
    visitedCount R C (List.replicate C (List.replicate C false)) = 0 := by
  unfold visitedCount
  simp [cell_replicate]

theorem stepThroughCell_fresh {R C : ℕ} (hRC : R ≤ C) (rand : ℕ → ℚ) {r0 c0 : ℕ}
    (hr0 : r0 < R) (hc0 : c0 < C) (calls : ℕ) (t : Trace) :
    ∃ m' rs ws,
      stepThroughCellTraced rand R C (R * C) r0 c0 (freshMaze R C calls, t) =
        ((m', { reads := t.reads ++ ((r0 : ℤ), (c0 : ℤ)) :: rs,
                writes := t.writes ++ Write.visit r0 c0 :: ws }), none) ∧
      stepThroughCell rand R C (R * C) r0 c0 (freshMaze R C calls) = (m', none) ∧
      Inv R C m'.grid m'.verticals m'.horizontals ∧
      (∀ r c, r < R → c < C → cell m'.grid r c = true) ∧
      LoopTrace R C (setCell (List.replicate C (List.replicate C false)) r0 c0 true)
        m'.grid rs ws := by
  obtain ⟨m2, hs2, hInv, _, hvis, hclosed⟩ := stepThroughCell_spec hRC rand (R * C) r0 c0
    (freshMaze R C calls) hr0 hc0 (cell_replicate _ _ _ _)
    (Inv.base hRC (⟨r0, hr0⟩, ⟨c0, hc0⟩)) (Nat.le_add_right _ _)
  obtain ⟨m', rs, ws, hT, hs, hLT⟩ := stepThroughCellTraced_spec hRC rand (R * C) r0 c0
    (freshMaze R C calls) t hr0 hc0 (cell_replicate _ _ _ _)
    (Inv.base hRC (⟨r0, hr0⟩, ⟨c0, hc0⟩)) (Nat.le_add_right _ _)
  have hm : m2 = m' := (Prod.mk.inj (hs2.symm.trans hs)).1
  subst hm
  refine ⟨m2, rs, ws, hT, hs, hInv, ?_, hLT⟩
  apply all_visited _ hr0 hc0 hvis
  intro r c r' c' hr hc hr' hc' ht hadj
  exact hclosed r c r' c' hr hc hr' hc' (cell_replicate _ _ _ _) ht hadj

/-! ## Completed runs of createMaze -/

theorem generate_bodies (rand : ℕ → ℚ) (cV cH : ℤ) (fuel : ℕ) (g : Game) :
    (generate rand cV cH fuel g).1.bodies = g.bodies := by
  unfold generate
  cases newArr2 cH cH with
  | error e => rfl
  | ok grid =>
    cases newArr2 cV (cH - 1) with
    | error e => rfl
    | ok verticals =>
      cases newArr2 (cV - 1) cH with
      | error e => rfl
      | ok horizontals => rfl

theorem createMaze_inv {rand : ℕ → ℚ} {cV cH : ℤ} {width height : ℚ} {fuel : ℕ} {g g' : Game}
    (h : createMaze rand cV cH width height fuel g = (g', none)) :
    ∃ g2 H V,
      generate rand cV cH fuel { g with bodies := g.bodies ++ boundaryWalls width height } =
        (g2, none) ∧
      g2.horizontals = some H ∧ g2.verticals = some V ∧
      g2.bodies = g.bodies ++ boundaryWalls width height ∧
      g' = addGoalAndBall width height (width / (cH : ℚ)) (height / (cV : ℚ))
        { g2 with bodies := addMazeWalls (width / (cH : ℚ)) (height / (cV : ℚ)) H V g2.bodies } := by
  have hb := generate_bodies rand cV cH fuel
    { g with bodies := g.bodies ++ boundaryWalls width height }
  unfold createMaze at h
  simp only at h
  generalize generate rand cV cH fuel
    { g with bodies := g.bodies ++ boundaryWalls width height } = res at h hb
  obtain ⟨g2, o⟩ := res
  cases o with
  | some e => simp at h
  | none =>
    simp only at h hb
    cases hH : g2.horizontals with
    | none => simp [hH] at h
    | some H =>
      cases hV : g2.verticals with
      | none => simp [hH, hV] at h
      | some V =>
        simp only [hH, hV, Prod.mk.injEq, and_true] at h
        refine ⟨g2, H, V, rfl, hH, hV, hb, ?_⟩
        rw [← h, hH, hV]

/-! ## The claims -/

/-- C1. For every grid size with `1 ≤ rows ≤ columns` and every sequence of random draws
in `[0, 1)`, the generation of `createMaze` returns (a stack of depth `rows * columns`
is enough), `verticals` and `horizontals` keep their dimensions, and the graph of open
passages on the `rows * columns` cells is connected and has no cycle. -/
theorem createMaze_passages_spanning_tree (rows columns : ℕ) (hrows : 1 ≤ rows)
    (hle : rows ≤ columns) (rand : ℕ → ℚ) (hrand : ∀ n, 0 ≤ rand n ∧ rand n < 1)
    (fuel : ℕ) (hfuel : rows * columns ≤ fuel) (g : Game) :
    ∃ grid verticals horizontals,
      generate rand rows columns fuel g =
        ({ g with grid := some grid, verticals := some verticals,
                  horizontals := some horizontals }, none) ∧
      HasDims verticals rows (columns - 1) ∧ HasDims horizontals (rows - 1) columns ∧
      (mazeGraph rows columns verticals horizontals).Connected ∧
      (mazeGraph rows columns verticals horizontals).IsAcyclic := by
  obtain ⟨grid, V, H, hgen, hV, hH, htree, _⟩ :=
    generate_tree hrows hle rand hrand fuel hfuel g
  exact ⟨grid, V, H, hgen, hV, hH, htree.1, htree.2⟩

/-- Witness of C1 on the shipped 7 x 9 grid, all draws being 0. -/
theorem createMaze_passages_spanning_tree_witness :
    (1 ≤ 7 ∧ 7 ≤ 9 ∧ (∀ n : ℕ, (0 : ℚ) ≤ (fun _ => (0 : ℚ)) n ∧ (fun _ => (0 : ℚ)) n < 1) ∧
      7 * 9 ≤ 63) ∧
    ∃ grid verticals horizontals,
      generate (fun _ => 0) ((7 : ℕ) : ℤ) ((9 : ℕ) : ℤ) 63 initialGame =
        ({ initialGame with grid := some grid, verticals := some verticals,
                            horizontals := some horizontals }, none) ∧
      HasDims verticals 7 (9 - 1) ∧ HasDims horizontals (7 - 1) 9 ∧
      (mazeGraph 7 9 verticals horizontals).Connected ∧
      (mazeGraph 7 9 verticals horizontals).IsAcyclic :=
  ⟨⟨by decide, by decide, fun _ => ⟨le_refl _, zero_lt_one⟩, by decide⟩,
    createMaze_passages_spanning_tree 7 9 (by decide) (by decide) (fun _ => 0)
      (fun _ => ⟨le_refl _, zero_lt_one⟩) 63 (by decide) initialGame⟩

/-- C2. For every grid size with `1 ≤ rows ≤ columns` and every sequence of random draws,
after generation the number of true entries of `verticals` plus the number of true
entries of `horizontals` is exactly `rows * columns - 1`. -/
theorem createMaze_open_passage_count (rows columns : ℕ) (hrows : 1 ≤ rows)
    (hle : rows ≤ columns) (rand : ℕ → ℚ) (hrand : ∀ n, 0 ≤ rand n ∧ rand n < 1)
    (fuel : ℕ) (hfuel : rows * columns ≤ fuel) (g : Game) :
    ∃ grid verticals horizontals,
      generate rand rows columns fuel g =
        ({ g with grid := some grid, verticals := some verticals,
                  horizontals := some horizontals }, none) ∧
      countTrue verticals + countTrue horizontals = rows * columns - 1 := by
  obtain ⟨grid, V, H, hgen, _, _, _, hcount⟩ :=
    generate_tree hrows hle rand hrand fuel hfuel g
  exact ⟨grid, V, H, hgen, hcount⟩

/-- Witness of C2 on the shipped 7 x 9 grid: 62 open passages. -/
theorem createMaze_open_passage_count_witness :
    (1 ≤ 7 ∧ 7 ≤ 9 ∧ (∀ n : ℕ, (0 : ℚ) ≤ (fun _ => (0 : ℚ)) n ∧ (fun _ => (0 : ℚ)) n < 1) ∧
      7 * 9 ≤ 63) ∧
    ∃ grid verticals horizontals,
      generate (fun _ => 0) ((7 : ℕ) : ℤ) ((9 : ℕ) : ℤ) 63 initialGame =
        ({ initialGame with grid := some grid, verticals := some verticals,
                            horizontals := some horizontals }, none) ∧
      countTrue verticals + countTrue horizontals = 62 :=
  ⟨⟨by decide, by decide, fun _ => ⟨le_refl _, zero_lt_one⟩, by decide⟩,
    createMaze_open_passage_count 7 9 (by decide) (by decide) (fun _ => 0)
      (fun _ => ⟨le_refl _, zero_lt_one⟩) 63 (by decide) initialGame⟩

/-- C3 (the code departs from the claim). On the shipped 7 x 9 grid the generation
returns, but `grid` has 9 rows and the cells of rows 7 and 8 are never visited:
`grid[7][0]` and `grid[8][8]` are still false afterwards.  On a 2 x 1 grid the
generation does not complete: it throws a `TypeError`. -/
theorem createMaze_grid_has_unvisited_rows :
    (∃ grid verticals horizontals,
      generate (fun _ => 0) 7 9 63 initialGame =
        ({ initialGame with grid := some grid, verticals := some verticals,
                            horizontals := some horizontals }, none) ∧
      grid.length = 9 ∧ read2 grid 7 0 = some false ∧ read2 grid 8 8 = some false) ∧
    (generate (fun _ => 0) 2 1 2 initialGame).2 = some Err.typeError := by
  constructor
  · obtain ⟨grid, V, H, hgen, hInv, _⟩ := generate_spec (R := 7) (C := 9) (by decide)
      (by decide) (fun _ => 0) (fun _ => ⟨le_refl _, zero_lt_one⟩) 63 (by decide) initialGame
    have hlen : grid.length = 9 := hInv.grid_dims.1
    have hfalse : ∀ r c : ℕ, 7 ≤ r → cell grid r c = false := by
      intro r c hr
      cases h : cell grid r c with
      | false => rfl
      | true => have := hInv.inside r c h; omega
    refine ⟨grid, V, H, hgen, hlen, ?_, ?_⟩
    · have := read2_cast grid 7 0 (by omega)
      rw [hfalse 7 0 le_rfl] at this
      exact this
    · have := read2_cast grid 8 8 (by omega)
      rw [hfalse 8 8 (by omega)] at this
      exact this
  · decide!

/-- C4. For every grid size with `1 ≤ rows ≤ columns`, every sequence of random draws
in `[0, 1)` and every window of positive width and height, `createMaze` started on a
world that holds no body labelled `'wall'` returns a world in which, calling two
neighbouring cells joined exactly when the wall rectangle between them is absent, there
is exactly one simple path between any two cells, so also from the spawn cell `(0, 0)`
to the goal cell `(rows - 1, columns - 1)`. -/
theorem createMaze_perfect_maze (rows columns : ℕ) (hrows : 1 ≤ rows) (hle : rows ≤ columns)
    (rand : ℕ → ℚ) (hrand : ∀ n, 0 ≤ rand n ∧ rand n < 1) (fuel : ℕ)
    (hfuel : rows * columns ≤ fuel) (width height : ℚ) (hwidth : 0 < width)
    (hheight : 0 < height) (g : Game) (hg : ∀ b ∈ g.bodies, b.label ≠ "wall") :
    ∃ g', createMaze rand rows columns width height fuel g = (g', none) ∧
      ∀ v w : Fin rows × Fin columns,
        ∃! p : (realizedGraph rows columns (width / (columns : ℚ)) (height / (rows : ℚ))
          g'.bodies).Walk v w, p.IsPath := by
  obtain ⟨grid, V, H, hgen, hV, hH, htree, _⟩ := generate_tree hrows hle rand hrand fuel hfuel
    { g with bodies := g.bodies ++ boundaryWalls width height }
  have hcols : (0 : ℚ) < (columns : ℚ) := by exact_mod_cast (by omega : 0 < columns)
  have hrws : (0 : ℚ) < (rows : ℚ) := by exact_mod_cast hrows
  have hx : width / (columns : ℚ) ≠ 0 := (div_pos hwidth hcols).ne'
  have hy : height / (rows : ℚ) ≠ 0 := (div_pos hheight hrws).ne'
  have hcm := createMaze_of_generate width height hgen
  rw [Int.cast_natCast, Int.cast_natCast] at hcm
  refine ⟨_, hcm, ?_⟩
  show ∀ v w : Fin rows × Fin columns,
    ∃! p : (realizedGraph rows columns (width / (columns : ℚ)) (height / (rows : ℚ))
      (addMazeWalls (width / (columns : ℚ)) (height / (rows : ℚ)) H V
          (g.bodies ++ boundaryWalls width height) ++
        [goalBody width height (width / (columns : ℚ)) (height / (rows : ℚ))] ++
        [ballBody (width / (columns : ℚ)) (height / (rows : ℚ))])).Walk v w, p.IsPath
  rw [realizedGraph_eq_mazeGraph hx hy hV hH hg]
  exact htree.existsUnique_path

/-- Witness of C4 on the shipped 7 x 9 grid in a 900 x 700 window. -/
theorem createMaze_perfect_maze_witness :
    (1 ≤ 7 ∧ 7 ≤ 9 ∧ (∀ n : ℕ, (0 : ℚ) ≤ (fun _ => (0 : ℚ)) n ∧ (fun _ => (0 : ℚ)) n < 1) ∧
      7 * 9 ≤ 63 ∧ (0 : ℚ) < 900 ∧ (0 : ℚ) < 700 ∧
      ∀ b ∈ initialGame.bodies, b.label ≠ "wall") ∧
    ∃ g', createMaze (fun _ => 0) ((7 : ℕ) : ℤ) ((9 : ℕ) : ℤ) 900 700 63 initialGame =
        (g', none) ∧
      ∀ v w : Fin 7 × Fin 9,
        ∃! p : (realizedGraph 7 9 (900 / ((9 : ℕ) : ℚ)) (700 / ((7 : ℕ) : ℚ))
          g'.bodies).Walk v w, p.IsPath :=
  ⟨⟨by decide, by decide, fun _ => ⟨le_refl _, zero_lt_one⟩, by decide, by norm_num,
      by norm_num, fun b hb => absurd hb (List.not_mem_nil b)⟩,
    createMaze_perfect_maze 7 9 (by decide) (by decide) (fun _ => 0)
      (fun _ => ⟨le_refl _, zero_lt_one⟩) 63 (by decide) 900 700 (by norm_num) (by norm_num)
      initialGame (fun b hb => absurd hb (List.not_mem_nil b))⟩

/-- C5. `shuffle` is a Fisher-Yates permutation.  For an array of `n` distinct elements:
whatever the draws, the result is a rearrangement of the input; every ordering of the
input is produced by a sequence of index draws `index n, …, index 1` with
`0 ≤ index k < k`, and by only one such sequence; and for draws of `Math.random` in
`[0, 1)` the indices `Math.floor(Math.random() * counter)` that `shuffle` uses form
such a sequence. -/
theorem shuffle_bijective_on_draws {α : Type} (arr : List α) (hnd : arr.Nodup) :
    (∀ index, (shuffleWith index arr.length arr).Perm arr) ∧
    (∀ l : List α, l.Perm arr →
      ∃ index, ValidDraws arr.length index ∧ shuffleWith index arr.length arr = l ∧
        ∀ index', ValidDraws arr.length index' → shuffleWith index' arr.length arr = l →
          ∀ k, 1 ≤ k → k ≤ arr.length → index' k = index k) ∧
    (∀ (rand : ℕ → ℚ) (calls : ℕ), (∀ n, 0 ≤ rand n ∧ rand n < 1) →
      ValidDraws arr.length (drawIndex rand calls arr.length) ∧
      shuffle rand calls arr =
        (shuffleWith (drawIndex rand calls arr.length) arr.length arr, calls + arr.length) ∧
      (shuffle rand calls arr).1.Perm arr) := by
  refine ⟨fun index => shuffleWith_perm index _ arr, ?_, ?_⟩
  · intro l hl
    obtain ⟨index, hv, hs⟩ := shuffleWith_surjective arr.length arr l hnd le_rfl hl
      (fun p hp => by
        rw [List.getElem?_eq_none (by rw [hl.length_eq]; exact hp), List.getElem?_eq_none hp])
    refine ⟨index, hv, hs, ?_⟩
    intro index' hv' hs' k h1 h2
    exact shuffleWith_injective arr.length arr index' index hnd le_rfl hv' hv
      (hs'.trans hs.symm) k h1 h2
  · intro rand calls hrand
    exact ⟨drawIndex_valid rand hrand calls _, rfl, shuffle_perm rand calls arr⟩

/-- Witness of C5 on the four neighbour moves of cell `(3, 4)`. -/
theorem shuffle_bijective_on_draws_witness :
    (neighborsOf 3 4).Nodup ∧
    ((∀ index, (shuffleWith index (neighborsOf 3 4).length (neighborsOf 3 4)).Perm
        (neighborsOf 3 4)) ∧
    (∀ l : List (ℤ × ℤ × Direction), l.Perm (neighborsOf 3 4) →
      ∃ index, ValidDraws (neighborsOf 3 4).length index ∧
        shuffleWith index (neighborsOf 3 4).length (neighborsOf 3 4) = l ∧
        ∀ index', ValidDraws (neighborsOf 3 4).length index' →
          shuffleWith index' (neighborsOf 3 4).length (neighborsOf 3 4) = l →
          ∀ k, 1 ≤ k → k ≤ (neighborsOf 3 4).length → index' k = index k) ∧
    (∀ (rand : ℕ → ℚ) (calls : ℕ), (∀ n, 0 ≤ rand n ∧ rand n < 1) →
      ValidDraws (neighborsOf 3 4).length (drawIndex rand calls (neighborsOf 3 4).length) ∧
      shuffle rand calls (neighborsOf 3 4) =
        (shuffleWith (drawIndex rand calls (neighborsOf 3 4).length) (neighborsOf 3 4).length
          (neighborsOf 3 4), calls + (neighborsOf 3 4).length) ∧
      (shuffle rand calls (neighborsOf 3 4)).1.Perm (neighborsOf 3 4))) :=
  ⟨by decide, shuffle_bijective_on_draws (neighborsOf 3 4) (by decide)⟩

/-- C6. Generation is a function of the grid size and of the random draws alone: for
`cellsVertical ≥ 1` and `cellsHorizontal ≥ 1`, two runs of the generation of `createMaze`
with the same draws (and the same stack depth), started from any two module states,
end with the same freshly made `grid`, `verticals` and `horizontals` and the same
outcome, and leave the rest of the state as it was. -/
theorem generate_deterministic (rand : ℕ → ℚ) (cellsVertical cellsHorizontal : ℤ)
    (hrows : 1 ≤ cellsVertical) (hcolumns : 1 ≤ cellsHorizontal) (fuel : ℕ) (g g' : Game) :
    ∃ grid verticals horizontals outcome,
      generate rand cellsVertical cellsHorizontal fuel g =
        ({ g with grid := some grid, verticals := some verticals,
                  horizontals := some horizontals }, outcome) ∧
      generate rand cellsVertical cellsHorizontal fuel g' =
        ({ g' with grid := some grid, verticals := some verticals,
                   horizontals := some horizontals }, outcome) := by
  obtain ⟨a1, h1⟩ := newArr2_ok cellsHorizontal cellsHorizontal (by omega) (by omega)
  obtain ⟨a2, h2⟩ := newArr2_ok cellsVertical (cellsHorizontal - 1) (by omega) (by omega)
  obtain ⟨a3, h3⟩ := newArr2_ok (cellsVertical - 1) cellsHorizontal (by omega) (by omega)
  unfold generate
  simp only [h1, h2, h3]
  exact ⟨_, _, _, _, rfl, rfl⟩

/-- Witness of C6 on the shipped grid: a first start and a start from a state that
still holds arrays and a wall of an earlier maze. -/
theorem generate_deterministic_witness :
    ((1 : ℤ) ≤ 7 ∧ (1 : ℤ) ≤ 9) ∧
    ∃ grid verticals horizontals outcome,
      generate (fun _ => 0) 7 9 63 initialGame =
        ({ initialGame with grid := some grid, verticals := some verticals,
                            horizontals := some horizontals }, outcome) ∧
      generate (fun _ => 0) 7 9 63
          { initialGame with bodies := [verticalWall 100 100 0 0], grid := some [[true]],
                             verticals := some [], horizontals := some [[false, true]] } =
        ({ initialGame with bodies := [verticalWall 100 100 0 0], grid := some grid,
                            verticals := some verticals, horizontals := some horizontals },
          outcome) :=
  ⟨⟨by decide, by decide⟩,
    generate_deterministic (fun _ => 0) 7 9 (by decide) (by decide) 63 initialGame
      { initialGame with bodies := [verticalWall 100 100 0 0], grid := some [[true]],
                         verticals := some [], horizontals := some [[false, true]] }⟩

/-- C7. For every pair of arrays and every cell size, `addMazeWalls` adds to the world,
after the bodies already there, one rectangle centred at
`(c * cellWidth + cellWidth / 2, r * cellHeight + cellHeight)` of size `(cellWidth, 5)`
for each closed entry `(r, c)` of `horizontals` and one rectangle centred at
`(c * cellWidth + cellWidth, r * cellHeight + cellHeight / 2)` of size `(5, cellHeight)`
for each closed entry `(r, c)` of `verticals`, and nothing else; the closed entries of an
array are its entries that are `false`, each listed once, so none is an open entry. -/
theorem addMazeWalls_rectangles (unitLenghtX unitLenghtY : ℚ) (horizontals verticals : Arr2)
    (bodies : List Body) :
    addMazeWalls unitLenghtX unitLenghtY horizontals verticals bodies =
      bodies ++
        (closedEntries horizontals).map (fun p =>
          { x := (p.2 : ℚ) * unitLenghtX + unitLenghtX / 2,
            y := (p.1 : ℚ) * unitLenghtY + unitLenghtY,
            shape := Shape.rectangle unitLenghtX 5,
            label := "wall", isStatic := true, fillStyle := some "red" }) ++
        (closedEntries verticals).map (fun p =>
          { x := (p.2 : ℚ) * unitLenghtX + unitLenghtX,
            y := (p.1 : ℚ) * unitLenghtY + unitLenghtY / 2,
            shape := Shape.rectangle 5 unitLenghtY,
            label := "wall", isStatic := true, fillStyle := some "red" }) ∧
    ∀ arr : Arr2, (closedEntries arr).Nodup ∧
      ∀ r c, (r, c) ∈ closedEntries arr ↔ ∃ row, arr[r]? = some row ∧ row[c]? = some false := by
  refine ⟨?_, fun arr => ⟨nodup_closedEntries arr, mem_closedEntries arr⟩⟩
  rw [addMazeWalls_eq]
  rfl

/-- C8. End to end, for every grid size with `1 ≤ rows ≤ columns` and every sequence of
random draws in `[0, 1)`, `createMaze` returns, the arrays it leaves have exactly
`(rows - 1) * (columns - 1)` closed entries between them, and the world has exactly that
many more bodies labelled `'wall'` than before. -/
theorem createMaze_internal_wall_count (rows columns : ℕ) (hrows : 1 ≤ rows)
    (hle : rows ≤ columns) (rand : ℕ → ℚ) (hrand : ∀ n, 0 ≤ rand n ∧ rand n < 1)
    (fuel : ℕ) (hfuel : rows * columns ≤ fuel) (width height : ℚ) (g : Game) :
    ∃ g' verticals horizontals,
      createMaze rand rows columns width height fuel g = (g', none) ∧
      g'.verticals = some verticals ∧ g'.horizontals = some horizontals ∧
      (closedEntries horizontals).length + (closedEntries verticals).length =
        (rows - 1) * (columns - 1) ∧
      wallCount g'.bodies = wallCount g.bodies + (rows - 1) * (columns - 1) := by
  obtain ⟨grid, V, H, hgen, hV, hH, _, hcount⟩ := generate_tree hrows hle rand hrand fuel hfuel
    { g with bodies := g.bodies ++ boundaryWalls width height }
  have hclosed : (closedEntries H).length + (closedEntries V).length =
      (rows - 1) * (columns - 1) := by
    obtain ⟨r, rfl⟩ : ∃ r, rows = r + 1 := ⟨rows - 1, by omega⟩
    obtain ⟨c, rfl⟩ : ∃ c, columns = c + 1 := ⟨columns - 1, by omega⟩
    exact closed_count_arith (countTrue_add_closed hV) (countTrue_add_closed hH) hcount
  refine ⟨_, V, H, createMaze_of_generate width height hgen, rfl, rfl, hclosed, ?_⟩
  rw [← hclosed]
  exact wallCount_world _ _ width height H V g.bodies

/-- Witness of C8 on a 2 x 2 grid: exactly one closed entry and one internal wall. -/
theorem createMaze_internal_wall_count_witness :
    (1 ≤ 2 ∧ 2 ≤ 2 ∧ (∀ n : ℕ, (0 : ℚ) ≤ (fun _ => (0 : ℚ)) n ∧ (fun _ => (0 : ℚ)) n < 1) ∧
      2 * 2 ≤ 4) ∧
    ∃ g' verticals horizontals,
      createMaze (fun _ => 0) ((2 : ℕ) : ℤ) ((2 : ℕ) : ℤ) 800 600 4 initialGame = (g', none) ∧
      g'.verticals = some verticals ∧ g'.horizontals = some horizontals ∧
      (closedEntries horizontals).length + (closedEntries verticals).length = 1 ∧
      wallCount g'.bodies = wallCount initialGame.bodies + 1 :=
  ⟨⟨by decide, by decide, fun _ => ⟨le_refl _, zero_lt_one⟩, by decide⟩,
    createMaze_internal_wall_count 2 2 (by decide) (by decide) (fun _ => 0)
      (fun _ => ⟨le_refl _, zero_lt_one⟩) 4 (by decide) 800 600 initialGame⟩

/-- C9, as stated, fails: a pair of two bodies labelled `'ball'` passes the test of the
`collisionStart` handler although its labels are not `'ball'` and `'goal'`. -/
theorem winCondition_not_only_ball_goal :
    ¬ (winCondition (ballBody 100 100) (ballBody 100 100) = true ↔
        ((ballBody 100 100).label = "ball" ∧ (ballBody 100 100).label = "goal") ∨
        ((ballBody 100 100).label = "goal" ∧ (ballBody 100 100).label = "ball")) := by
  decide

/-- C9, amended. For every pair of bodies the `collisionStart` handler takes its win
branch exactly when each of the two labels is `'ball'` or `'goal'`: the labels are
`'ball'` and `'goal'` in either order, or both `'ball'`, or both `'goal'`.  On a single
pair the handler then applies the win branch once, and otherwise changes nothing. -/
theorem collisionStart_win_iff (bodyA bodyB : Body) (g : Game) :
    (winCondition bodyA bodyB = true ↔
      (bodyA.label = "ball" ∧ bodyB.label = "goal") ∨
      (bodyA.label = "goal" ∧ bodyB.label = "ball") ∨
      (bodyA.label = "ball" ∧ bodyB.label = "ball") ∨
      (bodyA.label = "goal" ∧ bodyB.label = "goal")) ∧
    collisionStart [(bodyA, bodyB)] g =
      if winCondition bodyA bodyB = true then (winBranch g, 1) else (g, 0) := by
  refine ⟨?_, ?_⟩
  · rw [winCondition_iff]
    tauto
  · simp [collisionStart]

/-- C10. The win branch is never taken for a collision pair in which a body is labelled
`'wall'`, and it is taken once for a pair labelled `'ball'` and `'goal'` in either order,
whatever pairs come before and after it in the list of the event: the number of times
the branch is entered is the sum of the numbers for the three parts of the list. -/
theorem collisionStart_once_per_pair (before after : List (Body × Body)) (bodyA bodyB : Body)
    (g : Game) :
    ((bodyA.label = "wall" ∨ bodyB.label = "wall") →
      winCondition bodyA bodyB = false ∧
      (collisionStart (before ++ (bodyA, bodyB) :: after) g).2 =
        (collisionStart before g).2 + 0 + (collisionStart after g).2) ∧
    (((bodyA.label = "ball" ∧ bodyB.label = "goal") ∨
        (bodyA.label = "goal" ∧ bodyB.label = "ball")) →
      winCondition bodyA bodyB = true ∧
      (collisionStart (before ++ (bodyA, bodyB) :: after) g).2 =
        (collisionStart before g).2 + 1 + (collisionStart after g).2) := by
  simp only [collisionStart_count, List.countP_append, List.countP_cons]
  constructor
  · intro h
    have hw : winCondition bodyA bodyB = false := by
      cases hc : winCondition bodyA bodyB with
      | false => rfl
      | true =>
        rw [winCondition_iff] at hc
        rcases h with h | h
        · rw [h] at hc; exact absurd hc.1 (by decide)
        · rw [h] at hc; exact absurd hc.2 (by decide)
    refine ⟨hw, ?_⟩
    simp only [hw]
    simp
  · intro h
    have hw : winCondition bodyA bodyB = true := by
      rw [winCondition_iff]
      rcases h with ⟨h1, h2⟩ | ⟨h1, h2⟩
      · exact ⟨Or.inl h1, Or.inr h2⟩
      · exact ⟨Or.inr h1, Or.inl h2⟩
    refine ⟨hw, ?_⟩
    simp only [hw]
    simp; omega

/-- Witness of C10: a ball-wall pair between other pairs adds nothing, a ball-goal pair
after a wall-wall pair adds one. -/
theorem collisionStart_once_per_pair_witness :
    (((ballBody 100 100).label = "wall" ∨ (verticalWall 100 100 0 0).label = "wall") ∧
      ((ballBody 100 100).label = "ball" ∧ (goalBody 900 700 100 100).label = "goal")) ∧
    (winCondition (ballBody 100 100) (verticalWall 100 100 0 0) = false ∧
      (collisionStart ([(ballBody 100 100, goalBody 900 700 100 100)] ++
          (ballBody 100 100, verticalWall 100 100 0 0) :: []) initialGame).2 =
        (collisionStart [(ballBody 100 100, goalBody 900 700 100 100)] initialGame).2 + 0 +
          (collisionStart [] initialGame).2) ∧
    (winCondition (ballBody 100 100) (goalBody 900 700 100 100) = true ∧
      (collisionStart ([(verticalWall 100 100 0 0, verticalWall 100 100 0 1)] ++
          (ballBody 100 100, goalBody 900 700 100 100) :: []) initialGame).2 =
        (collisionStart [(verticalWall 100 100 0 0, verticalWall 100 100 0 1)] initialGame).2 +
          1 + (collisionStart [] initialGame).2) :=
  ⟨⟨Or.inr rfl, rfl, rfl⟩,
    (collisionStart_once_per_pair [(ballBody 100 100, goalBody 900 700 100 100)] []
      (ballBody 100 100) (verticalWall 100 100 0 0) initialGame).1 (Or.inr rfl),
    (collisionStart_once_per_pair [(verticalWall 100 100 0 0, verticalWall 100 100 0 1)] []
      (ballBody 100 100) (goalBody 900 700 100 100) initialGame).2 (Or.inl ⟨rfl, rfl⟩)⟩

/-- C11. With a current ball of velocity `(x, y)` the `keydown` handler sets the
velocity to `(x, y - 5)` for keyCode 38, `(x + 5, y)` for 39, `(x, y + 5)` for 40 and
`(x - 5, y)` for 37; for every other keyCode, and whenever `currentBall` is unset, the
velocity stays `(x, y)`; the module state is never changed. -/
theorem keydown_velocity (keyCode : Int) (g : Game) (x y : ℚ) :
    keydown keyCode g (x, y) =
      (g, if g.currentBall.isSome = true then
            (if keyCode = 38 then (x, y - 5)
             else if keyCode = 39 then (x + 5, y)
             else if keyCode = 40 then (x, y + 5)
             else if keyCode = 37 then (x - 5, y)
             else (x, y))
          else (x, y)) := by
  unfold keydown
  cases h : g.currentBall with
  | none => simp
  | some b =>
    simp only [Option.isSome_some, if_true]
    by_cases h38 : keyCode = 38
    · subst h38; simp
    · by_cases h39 : keyCode = 39
      · subst h39; simp
      · by_cases h40 : keyCode = 40
        · subst h40; simp
        · by_cases h37 : keyCode = 37
          · subst h37; simp
          · simp [h38, h39, h40, h37]

/-- C12. For `rows, columns ≥ 1` and a window of positive width and height, with
`cellWidth = width / columns` and `cellHeight = height / rows`, the goal is the static
rectangle labelled `'goal'` whose centre is the centre of cell `(rows - 1, columns - 1)`,
whose size is `(0.7 * cellWidth, 0.7 * cellHeight)`, and which lies strictly inside the
bounds of that cell. -/
theorem goal_in_bottom_right_cell (rows columns : ℕ) (hrows : 1 ≤ rows) (hcolumns : 1 ≤ columns)
    (width height : ℚ) (hwidth : 0 < width) (hheight : 0 < height) :
    goalBody width height (width / columns) (height / rows) =
      { x := ((columns : ℚ) - 1) * (width / columns) + width / columns / 2,
        y := ((rows : ℚ) - 1) * (height / rows) + height / rows / 2,
        shape := Shape.rectangle (7 / 10 * (width / columns)) (7 / 10 * (height / rows)),
        label := "goal", isStatic := true, fillStyle := some "green" } ∧
    ((columns : ℚ) - 1) * (width / columns) <
        (goalBody width height (width / columns) (height / rows)).x -
          7 / 10 * (width / columns) / 2 ∧
    (goalBody width height (width / columns) (height / rows)).x +
        7 / 10 * (width / columns) / 2 < (columns : ℚ) * (width / columns) ∧
    ((rows : ℚ) - 1) * (height / rows) <
        (goalBody width height (width / columns) (height / rows)).y -
          7 / 10 * (height / rows) / 2 ∧
    (goalBody width height (width / columns) (height / rows)).y +
        7 / 10 * (height / rows) / 2 < (rows : ℚ) * (height / rows) := by
  have hc : (0 : ℚ) < (columns : ℚ) := by exact_mod_cast hcolumns
  have hr : (0 : ℚ) < (rows : ℚ) := by exact_mod_cast hrows
  have hx : 0 < width / columns := div_pos hwidth hc
  have hy : 0 < height / rows := div_pos hheight hr
  have ex : (columns : ℚ) * (width / columns) = width := by field_simp
  have ey : (rows : ℚ) * (height / rows) = height := by field_simp
  refine ⟨?_, ?_, ?_, ?_, ?_⟩
  · simp only [goalBody, Bodies.rectangle, Body.mk.injEq, Shape.rectangle.injEq, and_true]
    refine ⟨by linarith, by linarith, by ring, by ring⟩
  · simp only [goalBody, Bodies.rectangle]; linarith
  · simp only [goalBody, Bodies.rectangle]; linarith
  · simp only [goalBody, Bodies.rectangle]; linarith
  · simp only [goalBody, Bodies.rectangle]; linarith

/-- Witness of C12 on the shipped 7 x 9 grid in a 900 x 700 window. -/
theorem goal_in_bottom_right_cell_witness :
    (1 ≤ 7 ∧ 1 ≤ 9 ∧ (0 : ℚ) < 900 ∧ (0 : ℚ) < 700) ∧
    (goalBody 900 700 (900 / (9 : ℕ)) (700 / (7 : ℕ)) =
      { x := (((9 : ℕ) : ℚ) - 1) * (900 / (9 : ℕ)) + 900 / (9 : ℕ) / 2,
        y := (((7 : ℕ) : ℚ) - 1) * (700 / (7 : ℕ)) + 700 / (7 : ℕ) / 2,
        shape := Shape.rectangle (7 / 10 * (900 / (9 : ℕ))) (7 / 10 * (700 / (7 : ℕ))),
        label := "goal", isStatic := true, fillStyle := some "green" } ∧
    (((9 : ℕ) : ℚ) - 1) * (900 / (9 : ℕ)) <
        (goalBody 900 700 (900 / (9 : ℕ)) (700 / (7 : ℕ))).x - 7 / 10 * (900 / (9 : ℕ)) / 2 ∧
    (goalBody 900 700 (900 / (9 : ℕ)) (700 / (7 : ℕ))).x + 7 / 10 * (900 / (9 : ℕ)) / 2 <
        ((9 : ℕ) : ℚ) * (900 / (9 : ℕ)) ∧
    (((7 : ℕ) : ℚ) - 1) * (700 / (7 : ℕ)) <
        (goalBody 900 700 (900 / (9 : ℕ)) (700 / (7 : ℕ))).y - 7 / 10 * (700 / (7 : ℕ)) / 2 ∧
    (goalBody 900 700 (900 / (9 : ℕ)) (700 / (7 : ℕ))).y + 7 / 10 * (700 / (7 : ℕ)) / 2 <
        ((7 : ℕ) : ℚ) * (700 / (7 : ℕ))) :=
  ⟨⟨by decide, by decide, by norm_num, by norm_num⟩,
    goal_in_bottom_right_cell 7 9 (by decide) (by decide) 900 700 (by norm_num) (by norm_num)⟩

/-- C13. For positive `cellWidth` and `cellHeight` the ball is the circle labelled
`'ball'` centred at `(cellWidth / 2, cellHeight / 2)`, the centre of cell `(0, 0)`, with
radius `min(cellWidth, cellHeight) / 4`, and every point of that disc lies strictly
inside the bounds `[0, cellWidth] x [0, cellHeight]` of the cell. -/
theorem ball_in_top_left_cell (cellWidth cellHeight : ℚ) (hwidth : 0 < cellWidth)
    (hheight : 0 < cellHeight) :
    ballBody cellWidth cellHeight =
      { x := cellWidth / 2, y := cellHeight / 2,
        shape := Shape.circle (min cellWidth cellHeight / 4),
        label := "ball", isStatic := false, fillStyle := some "blue" } ∧
    ∀ px py : ℚ,
      (px - cellWidth / 2) ^ 2 + (py - cellHeight / 2) ^ 2 ≤ (min cellWidth cellHeight / 4) ^ 2 →
      0 < px ∧ px < cellWidth ∧ 0 < py ∧ py < cellHeight := by
  refine ⟨rfl, ?_⟩
  intro px py h
  have hm : 0 < min cellWidth cellHeight := lt_min hwidth hheight
  have hr : 0 ≤ min cellWidth cellHeight / 4 := by linarith
  have h1 : (px - cellWidth / 2) ^ 2 ≤ (min cellWidth cellHeight / 4) ^ 2 := by
    nlinarith [sq_nonneg (py - cellHeight / 2)]
  have h2 : (py - cellHeight / 2) ^ 2 ≤ (min cellWidth cellHeight / 4) ^ 2 := by
    nlinarith [sq_nonneg (px - cellWidth / 2)]
  have a1 := abs_le_of_sq_le_sq' h1 hr
  have a2 := abs_le_of_sq_le_sq' h2 hr
  have m1 : min cellWidth cellHeight ≤ cellWidth := min_le_left _ _
  have m2 : min cellWidth cellHeight ≤ cellHeight := min_le_right _ _
  refine ⟨by linarith [a1.1], by linarith [a1.2], by linarith [a2.1], by linarith [a2.2]⟩

/-- Witness of C13 on cells of size 100 x 80. -/
theorem ball_in_top_left_cell_witness :
    ((0 : ℚ) < 100 ∧ (0 : ℚ) < 80) ∧
    (ballBody 100 80 =
      { x := 100 / 2, y := 80 / 2, shape := Shape.circle (min 100 80 / 4),
        label := "ball", isStatic := false, fillStyle := some "blue" } ∧
    ∀ px py : ℚ,
      (px - 100 / 2) ^ 2 + (py - 80 / 2) ^ 2 ≤ (min 100 80 / 4) ^ 2 →
      0 < px ∧ px < 100 ∧ 0 < py ∧ py < 80) :=
  ⟨⟨by norm_num, by norm_num⟩, ball_in_top_left_cell 100 80 (by norm_num) (by norm_num)⟩

/-- C14 (the code departs from the claim). On the shipped configuration of 7 rows and
9 columns the arrays as `createMaze` allocates them (the state a run with an empty call
stack stops in, before the first visit) are: a `grid` of 9 rows of 9 entries, not 7 rows,
`verticals` of 7 rows of 8 entries and `horizontals` of 6 rows of 9 entries, all false. -/
theorem createMaze_allocates_square_grid (rand : ℕ → ℚ) (g : Game) :
    generate rand 7 9 0 g =
      ({ g with grid := some (List.replicate 9 (List.replicate 9 false)),
                verticals := some (List.replicate 7 (List.replicate 8 false)),
                horizontals := some (List.replicate 6 (List.replicate 9 false)) },
        some Err.stackExhausted) ∧
    HasDims (List.replicate 9 (List.replicate 9 false)) 9 9 ∧
    ¬ HasDims (List.replicate 9 (List.replicate 9 false)) 7 9 := by
  refine ⟨rfl, hasDims_replicate 9 9, ?_⟩
  intro h
  have := h.1
  simp at this

/-- C15. For `rows = 1`, `columns = 1` and every sequence of random draws in `[0, 1)`,
`createMaze` returns: the single cell is visited, `verticals` is one empty row and
`horizontals` is empty, the world receives the 4 boundary rectangles, no internal wall,
one goal and one ball, and goal and ball are both centred at `(width / 2, height / 2)`. -/
theorem createMaze_single_cell (rand : ℕ → ℚ) (hrand : ∀ n, 0 ≤ rand n ∧ rand n < 1)
    (fuel : ℕ) (hfuel : 1 ≤ fuel) (width height : ℚ) (g : Game) :
    createMaze rand 1 1 width height fuel g =
      ({ g with
          bodies := g.bodies ++ boundaryWalls width height ++
            [goalBody width height (width / 1) (height / 1)] ++
            [ballBody (width / 1) (height / 1)],
          grid := some [[true]], verticals := some [[]], horizontals := some [],
          currentBall := some (ballBody (width / 1) (height / 1)) }, none) ∧
    (goalBody width height (width / 1) (height / 1)).x = width / 2 ∧
    (goalBody width height (width / 1) (height / 1)).y = height / 2 ∧
    (ballBody (width / 1) (height / 1)).x = width / 2 ∧
    (ballBody (width / 1) (height / 1)).y = height / 2 := by
  refine ⟨?_, ?_, ?_, ?_, ?_⟩
  · obtain ⟨grid, V, H, hgen, hInv, hall⟩ := generate_spec (R := 1) (C := 1) le_rfl le_rfl rand
      hrand fuel (by omega) { g with bodies := g.bodies ++ boundaryWalls width height }
    have hgrid : grid = [[true]] := by
      have := hasDims_one_one hInv.grid_dims
      rwa [hall 0 0 (by omega) (by omega)] at this
    have hV : V = [[]] := hasDims_one_zero hInv.verticals_dims
    have hH : H = [] := hasDims_zero hInv.horizontals_dims
    subst hgrid hV hH
    have hcm := createMaze_of_generate width height hgen
    simp only [Nat.cast_one, Int.cast_one] at hcm
    rw [hcm]
    simp only [addGoalAndBall, addMazeWalls_eq, closedEntries_nil, closedEntries_single_nil,
      List.map_nil, List.append_nil]
  · simp only [goalBody, Bodies.rectangle]; ring
  · simp only [goalBody, Bodies.rectangle]; ring
  · simp only [ballBody, Bodies.circle]; ring
  · simp only [ballBody, Bodies.circle]; ring

/-- Witness of C15 in a 900 x 700 window, all draws being 0. -/
theorem createMaze_single_cell_witness :
    ((∀ n : ℕ, (0 : ℚ) ≤ (fun _ => (0 : ℚ)) n ∧ (fun _ => (0 : ℚ)) n < 1) ∧ 1 ≤ 1) ∧
    (createMaze (fun _ => 0) 1 1 900 700 1 initialGame =
      ({ initialGame with
          bodies := initialGame.bodies ++ boundaryWalls 900 700 ++
            [goalBody 900 700 (900 / 1) (700 / 1)] ++ [ballBody (900 / 1) (700 / 1)],
          grid := some [[true]], verticals := some [[]], horizontals := some [],
          currentBall := some (ballBody (900 / 1) (700 / 1)) }, none) ∧
    (goalBody 900 700 (900 / 1) (700 / 1)).x = 900 / 2 ∧
    (goalBody 900 700 (900 / 1) (700 / 1)).y = 700 / 2 ∧
    (ballBody (900 / 1) (700 / 1)).x = 900 / 2 ∧
    (ballBody (900 / 1) (700 / 1)).y = 700 / 2) :=
  ⟨⟨fun _ => ⟨le_refl _, zero_lt_one⟩, le_refl _⟩,
    createMaze_single_cell (fun _ => 0) (fun _ => ⟨le_refl _, zero_lt_one⟩) 1 (le_refl _)
      900 700 initialGame⟩

/-- C16. Whatever the grid size, the draws and the state before, when `createMaze`
returns normally the bodies it has placed are, in order: the 4 static boundary rectangles
along the top, bottom, left and right edge of the window, one wall rectangle for every
false entry of the `horizontals` and of the `verticals` it leaves, the goal and the ball.
So the wall rectangles it places number
`(false entries of horizontals) + (false entries of verticals) + 4`, and the world grows
by that number plus 2.  For arbitrary arrays the same count holds for the boundary step
followed by `addMazeWalls`; a 2 x 2 grid with all passages closed yields 2 + 2 + 4 = 8. -/
theorem createMaze_wall_rectangle_count (rand : ℕ → ℚ) (cellsVertical cellsHorizontal : ℤ)
    (width height : ℚ) (fuel : ℕ) (g g' : Game)
    (hrun : createMaze rand cellsVertical cellsHorizontal width height fuel g = (g', none)) :
    (∃ horizontals verticals walls,
      g'.horizontals = some horizontals ∧ g'.verticals = some verticals ∧
      walls =
        (closedEntries horizontals).map (fun p =>
          horizontalWall (width / (cellsHorizontal : ℚ)) (height / (cellsVertical : ℚ)) p.1 p.2) ++
        (closedEntries verticals).map (fun p =>
          verticalWall (width / (cellsHorizontal : ℚ)) (height / (cellsVertical : ℚ)) p.1 p.2) ∧
      g'.bodies =
        g.bodies ++ (boundaryWalls width height ++ walls) ++
          [goalBody width height (width / (cellsHorizontal : ℚ)) (height / (cellsVertical : ℚ))] ++
          [ballBody (width / (cellsHorizontal : ℚ)) (height / (cellsVertical : ℚ))] ∧
      (boundaryWalls width height ++ walls).length =
        countFalse horizontals + countFalse verticals + 4 ∧
      g'.bodies.length = g.bodies.length + (countFalse horizontals + countFalse verticals + 4) + 2 ∧
      (∀ b ∈ boundaryWalls width height ++ walls,
        b.isStatic = true ∧ ∃ w h, b.shape = Shape.rectangle w h)) ∧
    boundaryWalls width height =
      [ { x := width / 2, y := 0, shape := Shape.rectangle width 2,
          label := defaultRectangleLabel, isStatic := true, fillStyle := none },
        { x := width / 2, y := height, shape := Shape.rectangle width 2,
          label := defaultRectangleLabel, isStatic := true, fillStyle := none },
        { x := 0, y := height / 2, shape := Shape.rectangle 2 height,
          label := defaultRectangleLabel, isStatic := true, fillStyle := none },
        { x := width, y := height / 2, shape := Shape.rectangle 2 height,
          label := defaultRectangleLabel, isStatic := true, fillStyle := none } ] ∧
    (∀ (unitLenghtX unitLenghtY : ℚ) (horizontals verticals : Arr2) (bodies : List Body),
      (addMazeWalls unitLenghtX unitLenghtY horizontals verticals
          (bodies ++ boundaryWalls width height)).length =
        bodies.length + (countFalse horizontals + countFalse verticals + 4)) ∧
    (addMazeWalls (width / (cellsHorizontal : ℚ)) (height / (cellsVertical : ℚ))
        [[false, false]] [[false], [false]] ([] ++ boundaryWalls width height)).length = 8 := by
  obtain ⟨g2, H, V, _, hH, hV, hb, rfl⟩ := createMaze_inv hrun
  have hlen : ∀ (ux uy : ℚ) (H V : Arr2) (bodies : List Body),
      (addMazeWalls ux uy H V (bodies ++ boundaryWalls width height)).length =
        bodies.length + (countFalse H + countFalse V + 4) := by
    intro ux uy H V bodies
    rw [addMazeWalls_length]
    simp [boundaryWalls]
    omega
  refine ⟨⟨H, V, _, hH, hV, rfl, ?_, ?_, ?_, ?_⟩, rfl, hlen, ?_⟩
  · simp only [addGoalAndBall, addMazeWalls_eq, hb, List.append_assoc]
  · simp only [List.length_append, List.length_map, length_closedEntries, countFalse]
    simp [boundaryWalls]
    omega
  · simp only [addGoalAndBall, addMazeWalls_eq, hb, List.length_append, List.length_map,
      length_closedEntries, countFalse, List.length_singleton]
    simp [boundaryWalls]
    omega
  · intro b hb'
    simp only [List.mem_append, List.mem_map] at hb'
    rcases hb' with hb' | ⟨p, _, rfl⟩ | ⟨p, _, rfl⟩
    · simp only [boundaryWalls, List.mem_cons, List.mem_singleton, List.not_mem_nil,
        or_false] at hb'
      rcases hb' with rfl | rfl | rfl | rfl <;> exact ⟨rfl, _, _, rfl⟩
    · exact ⟨rfl, _, _, rfl⟩
    · exact ⟨rfl, _, _, rfl⟩
  · rw [addMazeWalls_length]
    rfl

/-- Witness of C16: the run of `createMaze` on a 2 x 2 grid in an 800 x 600 window, all
draws being 0, which leaves one closed entry and places 1 + 4 wall rectangles. -/
theorem createMaze_wall_rectangle_count_witness :
    createMaze (fun _ => 0) 2 2 800 600 4 initialGame =
      ({ initialGame with
          bodies := boundaryWalls 800 600 ++ [horizontalWall 400 300 0 0] ++
            [goalBody 800 600 400 300] ++ [ballBody 400 300],
          grid := some [[true, true], [true, true]],
          verticals := some [[true], [true]],
          horizontals := some [[false, true]],
          currentBall := some (ballBody 400 300) }, none) ∧
    ((∃ horizontals verticals walls,
      some [[false, true]] = some horizontals ∧ some [[true], [true]] = some verticals ∧
      walls =
        (closedEntries horizontals).map (fun p =>
          horizontalWall (800 / ((2 : ℤ) : ℚ)) (600 / ((2 : ℤ) : ℚ)) p.1 p.2) ++
        (closedEntries verticals).map (fun p =>
          verticalWall (800 / ((2 : ℤ) : ℚ)) (600 / ((2 : ℤ) : ℚ)) p.1 p.2) ∧
      boundaryWalls 800 600 ++ [horizontalWall 400 300 0 0] ++
          [goalBody 800 600 400 300] ++ [ballBody 400 300] =
        initialGame.bodies ++ (boundaryWalls 800 600 ++ walls) ++
          [goalBody 800 600 (800 / ((2 : ℤ) : ℚ)) (600 / ((2 : ℤ) : ℚ))] ++
          [ballBody (800 / ((2 : ℤ) : ℚ)) (600 / ((2 : ℤ) : ℚ))] ∧
      (boundaryWalls 800 600 ++ walls).length =
        countFalse horizontals + countFalse verticals + 4 ∧
      (boundaryWalls 800 600 ++ [horizontalWall 400 300 0 0] ++
          [goalBody 800 600 400 300] ++ [ballBody 400 300]).length =
        initialGame.bodies.length + (countFalse horizontals + countFalse verticals + 4) + 2 ∧
      (∀ b ∈ boundaryWalls 800 600 ++ walls,
        b.isStatic = true ∧ ∃ w h, b.shape = Shape.rectangle w h)) ∧
    boundaryWalls 800 600 =
      [ { x := 800 / 2, y := 0, shape := Shape.rectangle 800 2,
          label := defaultRectangleLabel, isStatic := true, fillStyle := none },
        { x := 800 / 2, y := 600, shape := Shape.rectangle 800 2,
          label := defaultRectangleLabel, isStatic := true, fillStyle := none },
        { x := 0, y := 600 / 2, shape := Shape.rectangle 2 600,
          label := defaultRectangleLabel, isStatic := true, fillStyle := none },
        { x := 800, y := 600 / 2, shape := Shape.rectangle 2 600,
          label := defaultRectangleLabel, isStatic := true, fillStyle := none } ] ∧
    (∀ (unitLenghtX unitLenghtY : ℚ) (horizontals verticals : Arr2) (bodies : List Body),
      (addMazeWalls unitLenghtX unitLenghtY horizontals verticals
          (bodies ++ boundaryWalls 800 600)).length =
        bodies.length + (countFalse horizontals + countFalse verticals + 4)) ∧
    (addMazeWalls (800 / ((2 : ℤ) : ℚ)) (600 / ((2 : ℤ) : ℚ))
        [[false, false]] [[false], [false]] ([] ++ boundaryWalls 800 600)).length = 8) :=
  have hrun : createMaze (fun _ => 0) 2 2 800 600 4 initialGame =
      ({ initialGame with
          bodies := boundaryWalls 800 600 ++ [horizontalWall 400 300 0 0] ++
            [goalBody 800 600 400 300] ++ [ballBody 400 300],
          grid := some [[true, true], [true, true]],
          verticals := some [[true], [true]],
          horizontals := some [[false, true]],
          currentBall := some (ballBody 400 300) }, none) := by decide!
  ⟨hrun, createMaze_wall_rectangle_count (fun _ => 0) 2 2 800 600 4 initialGame _ hrun⟩

/-- C17, as stated, fails: with `cellsVertical = 0` and `cellsHorizontal = 9` the run of
`createMaze` does not stop with the state untouched; the four boundary rectangles are in
the world and `grid` and `verticals` are allocated when the exception is thrown. -/
theorem createMaze_not_fail_fast :
    ¬ ∃ e, createMaze (fun _ => 0) 0 9 900 700 63 initialGame = (initialGame, some e) := by
  rintro ⟨e, h⟩
  have hb := congrArg (fun p => p.1.grid) h
  have hcm : createMaze (fun _ => 0) 0 9 900 700 63 initialGame =
      ({ initialGame with bodies := initialGame.bodies ++ boundaryWalls 900 700,
                          grid := some (List.replicate 9 (List.replicate 9 false)),
                          verticals := some [] }, some Err.rangeError) :=
    createMaze_of_error 900 700 rfl
  rw [hcm] at hb
  simp [initialGame] at hb

/-- C17, amended. Whenever `cellsVertical ≤ 0` or `cellsHorizontal ≤ 0`, `createMaze`
fails with a `RangeError` raised by one of its `Array` allocations, after the four
boundary rectangles have been added to the world; `horizontals` is not assigned, and no
maze wall, goal or ball is added. -/
theorem createMaze_bad_dimensions (rand : ℕ → ℚ) (cellsVertical cellsHorizontal : ℤ)
    (hbad : cellsVertical ≤ 0 ∨ cellsHorizontal ≤ 0) (width height : ℚ) (fuel : ℕ)
    (g : Game) :
    (createMaze rand cellsVertical cellsHorizontal width height fuel g).2 =
      some Err.rangeError ∧
    (createMaze rand cellsVertical cellsHorizontal width height fuel g).1.bodies =
      g.bodies ++ boundaryWalls width height ∧
    (createMaze rand cellsVertical cellsHorizontal width height fuel g).1.horizontals =
      g.horizontals ∧
    (createMaze rand cellsVertical cellsHorizontal width height fuel g).1.currentBall =
      g.currentBall := by
  obtain ⟨h1, h2, h3, h4, _, _⟩ := generate_rangeError rand cellsVertical cellsHorizontal hbad
    fuel { g with bodies := g.bodies ++ boundaryWalls width height }
  rw [createMaze_of_error width height (Prod.ext rfl h1)]
  exact ⟨rfl, h2, h3, h4⟩

/-- Witness of C17 amended: no rows, and a negative number of columns. -/
theorem createMaze_bad_dimensions_witness :
    (((0 : ℤ) ≤ 0 ∨ (9 : ℤ) ≤ 0) ∧ ((7 : ℤ) ≤ 0 ∨ (-3 : ℤ) ≤ 0)) ∧
    ((createMaze (fun _ => 0) 0 9 900 700 63 initialGame).2 = some Err.rangeError ∧
      (createMaze (fun _ => 0) 0 9 900 700 63 initialGame).1.bodies =
        initialGame.bodies ++ boundaryWalls 900 700 ∧
      (createMaze (fun _ => 0) 0 9 900 700 63 initialGame).1.horizontals =
        initialGame.horizontals ∧
      (createMaze (fun _ => 0) 0 9 900 700 63 initialGame).1.currentBall =
        initialGame.currentBall) ∧
    ((createMaze (fun _ => 0) 7 (-3) 900 700 63 initialGame).2 = some Err.rangeError ∧
      (createMaze (fun _ => 0) 7 (-3) 900 700 63 initialGame).1.bodies =
        initialGame.bodies ++ boundaryWalls 900 700 ∧
      (createMaze (fun _ => 0) 7 (-3) 900 700 63 initialGame).1.horizontals =
        initialGame.horizontals ∧
      (createMaze (fun _ => 0) 7 (-3) 900 700 63 initialGame).1.currentBall =
        initialGame.currentBall) :=
  ⟨⟨Or.inl (le_refl _), Or.inr (by decide)⟩,
    createMaze_bad_dimensions (fun _ => 0) 0 9 (Or.inl (le_refl _)) 900 700 63 initialGame,
    createMaze_bad_dimensions (fun _ => 0) 7 (-3) (Or.inr (by decide)) 900 700 63 initialGame⟩

/-- C18. For every grid size with `rows ≤ columns`, every start cell in range and every
sequence of random draws, `stepThroughCell` run on the arrays as allocated returns with a
call stack of depth `rows * columns`; its writes mark each of the `rows * columns` cells
exactly once (so `rows * columns` calls get past the guard); every passage is opened
towards a neighbour inside the maze that has not been marked before and is marked by the
very next write; and exactly one passage is opened into every cell other than the start
cell, none into the start cell. -/
theorem stepThroughCell_marks_each_cell_once (rows columns : ℕ) (hle : rows ≤ columns)
    (rand : ℕ → ℚ) (startRow startColumn : ℕ) (hrow : startRow < rows)
    (hcolumn : startColumn < columns) (calls : ℕ) :
    ∃ m' t,
      stepThroughCellTraced rand rows columns (rows * columns) startRow startColumn
        (freshMaze rows columns calls, { reads := [], writes := [] }) = ((m', t), none) ∧
      stepThroughCell rand rows columns (rows * columns) startRow startColumn
        (freshMaze rows columns calls) = (m', none) ∧
      (∀ r c : ℕ, r < rows → c < columns → t.writes.count (Write.visit r c) = 1) ∧
      visitCount t.writes = rows * columns ∧
      (∀ pre post u1 u2 w1 w2 d, t.writes = pre ++ Write.carve u1 u2 w1 w2 d :: post →
        (w1, w2, d) ∈ neighborsOf u1 u2 ∧ 0 ≤ w1 ∧ w1 < rows ∧ 0 ≤ w2 ∧ w2 < columns ∧
        Write.visit w1 w2 ∉ pre ∧ ∃ post', post = Write.visit w1 w2 :: post') ∧
      (∀ r c : ℕ, r < rows → c < columns →
        carvesInto r c t.writes = if r = startRow ∧ c = startColumn then 0 else 1) := by
  obtain ⟨m', rs, ws, hT, hs, hInv, hall, hLT⟩ := stepThroughCell_fresh hle rand hrow hcolumn
    calls { reads := [], writes := [] }
  have hd := hasDims_replicate columns columns
  have hrC : startRow < columns := lt_of_lt_of_le hrow hle
  have hset : ∀ r c, cell (setCell (List.replicate columns (List.replicate columns false))
      startRow startColumn true) r c = if r = startRow ∧ c = startColumn then true else false := by
    intro r c
    rw [cell_setCell hd hrC hcolumn, cell_replicate]
  have hcount : ∀ r c : ℕ, r < rows → c < columns →
      (Write.visit startRow startColumn :: ws).count (Write.visit r c) = 1 := by
    intro r c hr hc
    rw [List.count_cons, hLT.visits, hset, hall r c hr hc]
    by_cases h : r = startRow ∧ c = startColumn
    · obtain ⟨rfl, rfl⟩ := h
      simp
    · have hne : ¬ (Write.visit (startRow : ℤ) (startColumn : ℤ) = Write.visit (r : ℤ) (c : ℤ)) := by
        intro he
        simp only [Write.visit.injEq] at he
        exact h ⟨by omega, by omega⟩
      simp [h, hne]
  refine ⟨m', _, hT, hs, ?_, ?_, ?_, ?_⟩
  · simpa using hcount
  · have e := hLT.total
    rw [visitedCount_setCell hle hd (⟨startRow, hrow⟩, ⟨startColumn, hcolumn⟩)
      (cell_replicate _ _ _ _), visitedCount_fresh,
      visitedCount_full (fun p => hall _ _ p.1.isLt p.2.isLt)] at e
    simp only [List.nil_append]
    unfold visitCount at e ⊢
    rw [List.countP_cons]
    simp only [if_true]
    omega
  · intro pre post u1 u2 w1 w2 d hsplit
    simp only [List.nil_append] at hsplit
    have hok : WriteOK rows columns (Write.carve u1 u2 w1 w2 d) := by
      have hmem : Write.carve u1 u2 w1 w2 d ∈ Write.visit (startRow : ℤ) startColumn :: ws := by
        rw [hsplit]; simp
      rcases List.mem_cons.1 hmem with h | h
      · exact absurd h (by simp)
      · exact hLT.writes_ok _ h
    obtain ⟨hmem, _, _, _, _, h5, h6, h7, h8⟩ := hok
    have hfol : Followed (pre ++ Write.carve u1 u2 w1 w2 d :: post) := by
      rw [← hsplit]; exact hLT.followed
    obtain ⟨post', hpost⟩ := hfol.split
    refine ⟨hmem, h5, h6, h7, h8, ?_, post', hpost⟩
    lift w1 to ℕ using h5
    lift w2 to ℕ using h7
    have hc1 := hcount w1 w2 (by omega) (by omega)
    rw [hsplit, hpost, List.count_append, List.count_cons, List.count_cons] at hc1
    simp only [beq_self_eq_true, if_true] at hc1
    have hz : pre.count (Write.visit (w1 : ℤ) (w2 : ℤ)) = 0 := by omega
    exact List.count_eq_zero.1 hz
  · intro r c hr hc
    simp only [List.nil_append]
    have : carvesInto r c (Write.visit (startRow : ℤ) startColumn :: ws) = carvesInto r c ws := by
      unfold carvesInto
      rw [List.countP_cons]
      simp
    rw [this, hLT.carves, hLT.visits, hset, hall r c hr hc]
    by_cases h : r = startRow ∧ c = startColumn
    · simp [h]
    · simp [h]

/-- Witness of C18 on the shipped 7 x 9 grid, started at cell `(3, 4)`. -/
theorem stepThroughCell_marks_each_cell_once_witness :
    (7 ≤ 9 ∧ 3 < 7 ∧ 4 < 9) ∧
    ∃ m' t,
      stepThroughCellTraced (fun _ => 0) ((7 : ℕ) : ℤ) ((9 : ℕ) : ℤ) (7 * 9) ((3 : ℕ) : ℤ)
        ((4 : ℕ) : ℤ) (freshMaze 7 9 2, { reads := [], writes := [] }) = ((m', t), none) ∧
      stepThroughCell (fun _ => 0) ((7 : ℕ) : ℤ) ((9 : ℕ) : ℤ) (7 * 9) ((3 : ℕ) : ℤ)
        ((4 : ℕ) : ℤ) (freshMaze 7 9 2) = (m', none) ∧
      (∀ r c : ℕ, r < 7 → c < 9 → t.writes.count (Write.visit r c) = 1) ∧
      visitCount t.writes = 7 * 9 ∧
      (∀ pre post u1 u2 w1 w2 d, t.writes = pre ++ Write.carve u1 u2 w1 w2 d :: post →
        (w1, w2, d) ∈ neighborsOf u1 u2 ∧ 0 ≤ w1 ∧ w1 < ((7 : ℕ) : ℤ) ∧ 0 ≤ w2 ∧
        w2 < ((9 : ℕ) : ℤ) ∧
        Write.visit w1 w2 ∉ pre ∧ ∃ post', post = Write.visit w1 w2 :: post') ∧
      (∀ r c : ℕ, r < 7 → c < 9 →
        carvesInto r c t.writes = if r = 3 ∧ c = 4 then 0 else 1) :=
  ⟨⟨by decide, by decide, by decide⟩,
    stepThroughCell_marks_each_cell_once 7 9 (by decide) (fun _ => 0) 3 4 (by decide)
      (by decide) 2⟩

/-- C19. For every grid size with `rows ≤ columns`, every start cell in range and every
sequence of random draws, `stepThroughCell` run on the arrays as `createMaze` allocates
them returns without a `TypeError`; every read `grid[r][c]` and every marking
`grid[r][c] = true` has `0 ≤ r < rows` and `0 ≤ c < columns`, inside the `columns` rows
of `columns` entries of `grid`; every write that opens a passage goes to
`verticals[i][j]` with `0 ≤ i < rows`, `0 ≤ j < columns - 1` or to `horizontals[i][j]`
with `0 ≤ i < rows - 1`, `0 ≤ j < columns`; and afterwards `verticals` is still
`rows x (columns - 1)` and `horizontals` still `(rows - 1) x columns`. -/
theorem stepThroughCell_index_safe (rows columns : ℕ) (hle : rows ≤ columns)
    (rand : ℕ → ℚ) (startRow startColumn : ℕ) (hrow : startRow < rows)
    (hcolumn : startColumn < columns) (calls : ℕ) :
    ∃ m' t,
      stepThroughCellTraced rand rows columns (rows * columns) startRow startColumn
        (freshMaze rows columns calls, { reads := [], writes := [] }) = ((m', t), none) ∧
      stepThroughCell rand rows columns (rows * columns) startRow startColumn
        (freshMaze rows columns calls) = (m', none) ∧
      HasDims (freshMaze rows columns calls).grid columns columns ∧
      HasDims (freshMaze rows columns calls).verticals rows (columns - 1) ∧
      HasDims (freshMaze rows columns calls).horizontals (rows - 1) columns ∧
      (∀ p ∈ t.reads, 0 ≤ p.1 ∧ p.1 < rows ∧ 0 ≤ p.2 ∧ p.2 < columns) ∧
      (∀ r c, Write.visit r c ∈ t.writes → 0 ≤ r ∧ r < rows ∧ 0 ≤ c ∧ c < columns) ∧
      (∀ r c nr nc d, Write.carve r c nr nc d ∈ t.writes →
        if (passageIndex r c d).1 = true then
          0 ≤ (passageIndex r c d).2.1 ∧ (passageIndex r c d).2.1 < rows ∧
          0 ≤ (passageIndex r c d).2.2 ∧ (passageIndex r c d).2.2 < (columns : ℤ) - 1
        else
          0 ≤ (passageIndex r c d).2.1 ∧ (passageIndex r c d).2.1 < (rows : ℤ) - 1 ∧
          0 ≤ (passageIndex r c d).2.2 ∧ (passageIndex r c d).2.2 < columns) ∧
      (∀ (m : Maze) (row column : ℤ) (d : Direction),
        openPassage m row column d =
          if (passageIndex row column d).1 = true then
            (write2 m.verticals (passageIndex row column d).2.1
              (passageIndex row column d).2.2 true).map fun v => { m with verticals := v }
          else
            (write2 m.horizontals (passageIndex row column d).2.1
              (passageIndex row column d).2.2 true).map fun h => { m with horizontals := h }) ∧
      HasDims m'.grid columns columns ∧ HasDims m'.verticals rows (columns - 1) ∧
      HasDims m'.horizontals (rows - 1) columns := by
  obtain ⟨m', rs, ws, hT, hs, hInv, _, hLT⟩ := stepThroughCell_fresh hle rand hrow hcolumn
    calls { reads := [], writes := [] }
  have hstart : (0 : ℤ) ≤ (startRow : ℤ) ∧ (startRow : ℤ) < rows ∧
      (0 : ℤ) ≤ (startColumn : ℤ) ∧ (startColumn : ℤ) < columns := by omega
  refine ⟨m', _, hT, hs, hasDims_replicate _ _, hasDims_replicate _ _, hasDims_replicate _ _,
    ?_, ?_, ?_, openPassage_passageIndex, hInv.grid_dims, hInv.verticals_dims,
    hInv.horizontals_dims⟩
  · intro p hp
    simp only [List.nil_append] at hp
    rcases List.mem_cons.1 hp with rfl | hp
    · exact hstart
    · exact hLT.reads_ok p hp
  · intro r c hw
    simp only [List.nil_append] at hw
    rcases List.mem_cons.1 hw with h | hw
    · simp only [Write.visit.injEq] at h
      obtain ⟨rfl, rfl⟩ := h
      exact hstart
    · exact hLT.writes_ok _ hw
  · intro r c nr nc d hw
    simp only [List.nil_append] at hw
    rcases List.mem_cons.1 hw with h | hw
    · exact absurd h (by simp)
    · exact passageIndex_inRange (hLT.writes_ok _ hw)

/-- Witness of C19 on the shipped 7 x 9 grid, started at cell `(6, 8)`. -/
theorem stepThroughCell_index_safe_witness :
    (7 ≤ 9 ∧ 6 < 7 ∧ 8 < 9) ∧
    ∃ m' t,
      stepThroughCellTraced (fun _ => 0) ((7 : ℕ) : ℤ) ((9 : ℕ) : ℤ) (7 * 9) ((6 : ℕ) : ℤ)
        ((8 : ℕ) : ℤ) (freshMaze 7 9 2, { reads := [], writes := [] }) = ((m', t), none) ∧
      stepThroughCell (fun _ => 0) ((7 : ℕ) : ℤ) ((9 : ℕ) : ℤ) (7 * 9) ((6 : ℕ) : ℤ)
        ((8 : ℕ) : ℤ) (freshMaze 7 9 2) = (m', none) ∧
      HasDims (freshMaze 7 9 2).grid 9 9 ∧
      HasDims (freshMaze 7 9 2).verticals 7 (9 - 1) ∧
      HasDims (freshMaze 7 9 2).horizontals (7 - 1) 9 ∧
      (∀ p ∈ t.reads, 0 ≤ p.1 ∧ p.1 < ((7 : ℕ) : ℤ) ∧ 0 ≤ p.2 ∧ p.2 < ((9 : ℕ) : ℤ)) ∧
      (∀ r c, Write.visit r c ∈ t.writes →
        0 ≤ r ∧ r < ((7 : ℕ) : ℤ) ∧ 0 ≤ c ∧ c < ((9 : ℕ) : ℤ)) ∧
      (∀ r c nr nc d, Write.carve r c nr nc d ∈ t.writes →
        if (passageIndex r c d).1 = true then
          0 ≤ (passageIndex r c d).2.1 ∧ (passageIndex r c d).2.1 < ((7 : ℕ) : ℤ) ∧
          0 ≤ (passageIndex r c d).2.2 ∧ (passageIndex r c d).2.2 < ((9 : ℕ) : ℤ) - 1
        else
          0 ≤ (passageIndex r c d).2.1 ∧ (passageIndex r c d).2.1 < ((7 : ℕ) : ℤ) - 1 ∧
          0 ≤ (passageIndex r c d).2.2 ∧ (passageIndex r c d).2.2 < ((9 : ℕ) : ℤ)) ∧
      (∀ (m : Maze) (row column : ℤ) (d : Direction),
        openPassage m row column d =
          if (passageIndex row column d).1 = true then
            (write2 m.verticals (passageIndex row column d).2.1
              (passageIndex row column d).2.2 true).map fun v => { m with verticals := v }
          else
            (write2 m.horizontals (passageIndex row column d).2.1
              (passageIndex row column d).2.2 true).map fun h => { m with horizontals := h }) ∧
      HasDims m'.grid 9 9 ∧ HasDims m'.verticals 7 (9 - 1) ∧
      HasDims m'.horizontals (7 - 1) 9 :=
  ⟨⟨by decide, by decide, by decide⟩,
    stepThroughCell_index_safe 7 9 (by decide) (fun _ => 0) 6 8 (by decide) (by decide) 2⟩

end MazeRunner
